import Mathlib

/-!
# be-image-preloader: a shallow embedding of `Preloader.js` and `ResourcePool.js`

The development has three layers.

* **JavaScript values** (`JSVal`): the data that callers hand to `add` and `load`
  (`undefined`, `null`, booleans, numbers, strings, plain arrays, plain objects).
  Numbers are integers (`NaN`, fractions and infinities do not occur as data, they
  only arise when a string is converted to a number); an integer beyond `2 ^ 53` is
  printed the way the nearest value of the Number type is. Objects are plain objects
  whose own enumerable properties hold data, and a key occurs at most once in the
  property list of an object (look-ups take the first binding). Values carry no
  identity: an array or object written in an input is a fresh one, which the caller
  shares with nothing else and does not touch afterwards.
  Function values are not data: the optional progress function of `load` is a flag,
  and the callbacks stored in the registry are the closures of type `Callback`.
* **The coordinator** (`Preloader`): the fields of the class, with the resource
  objects of `__resourceList` identified by their position in that list (the list is
  only ever appended to, so a position names the same object forever) and the
  JavaScript objects that serve as maps from load ids as functions `Nat → _`.
* **The world** (`World`): the module-level table of `ResourcePool.js`, the images
  whose load is in flight, every coordinator instance, and the queue of callbacks
  handed to `window.setTimeout`. `step` runs one event of the single-threaded event
  loop; `run` runs a sequence of them.

An uncaught JavaScript exception ends a modelled run (`Except.error`); the state a
real engine would keep after the exception is not modelled.
-/

/-- Ways in which a modelled run stops. -/
inductive JSError where
  /-- An uncaught JavaScript `TypeError`. -/
  | typeError
  /-- The input leaves the modelled fragment of JavaScript. -/
  | unsupported
  /-- The event cannot happen in this world (no such coordinator, image or timer). -/
  | disabled
deriving DecidableEq, Repr

deriving instance DecidableEq for Except

/-- A value of the Number type that is an integer, an infinity or `NaN`. -/
inductive JSNumber where
  | nan
  | finite (n : Int)
  | infinite (positive : Bool)
deriving DecidableEq, Repr

/-- The JavaScript data values of the model. -/
inductive JSVal where
  | undefined
  | null
  | bool (b : Bool)
  | num (n : Int)
  | str (s : String)
  | arr (items : List JSVal)
  | obj (fields : List (String × JSVal))

namespace JSVal

mutual
/-- Structural equality of values is decidable. -/
def decEq : (a b : JSVal) → Decidable (a = b)
  | undefined, undefined => isTrue rfl
  | null, null => isTrue rfl
  | bool a, bool b =>
      if h : a = b then isTrue (by rw [h]) else isFalse (by intro e; cases e; exact h rfl)
  | num a, num b =>
      if h : a = b then isTrue (by rw [h]) else isFalse (by intro e; cases e; exact h rfl)
  | str a, str b =>
      if h : a = b then isTrue (by rw [h]) else isFalse (by intro e; cases e; exact h rfl)
  | arr a, arr b =>
      match decEqList a b with
      | isTrue h => isTrue (by rw [h])
      | isFalse h => isFalse (by intro e; cases e; exact h rfl)
  | obj a, obj b =>
      match decEqFields a b with
      | isTrue h => isTrue (by rw [h])
      | isFalse h => isFalse (by intro e; cases e; exact h rfl)
  | undefined, null => isFalse (by intro e; cases e)
  | undefined, bool _ => isFalse (by intro e; cases e)
  | undefined, num _ => isFalse (by intro e; cases e)
  | undefined, str _ => isFalse (by intro e; cases e)
  | undefined, arr _ => isFalse (by intro e; cases e)
  | undefined, obj _ => isFalse (by intro e; cases e)
  | null, undefined => isFalse (by intro e; cases e)
  | null, bool _ => isFalse (by intro e; cases e)
  | null, num _ => isFalse (by intro e; cases e)
  | null, str _ => isFalse (by intro e; cases e)
  | null, arr _ => isFalse (by intro e; cases e)
  | null, obj _ => isFalse (by intro e; cases e)
  | bool _, undefined => isFalse (by intro e; cases e)
  | bool _, null => isFalse (by intro e; cases e)
  | bool _, num _ => isFalse (by intro e; cases e)
  | bool _, str _ => isFalse (by intro e; cases e)
  | bool _, arr _ => isFalse (by intro e; cases e)
  | bool _, obj _ => isFalse (by intro e; cases e)
  | num _, undefined => isFalse (by intro e; cases e)
  | num _, null => isFalse (by intro e; cases e)
  | num _, bool _ => isFalse (by intro e; cases e)
  | num _, str _ => isFalse (by intro e; cases e)
  | num _, arr _ => isFalse (by intro e; cases e)
  | num _, obj _ => isFalse (by intro e; cases e)
  | str _, undefined => isFalse (by intro e; cases e)
  | str _, null => isFalse (by intro e; cases e)
  | str _, bool _ => isFalse (by intro e; cases e)
  | str _, num _ => isFalse (by intro e; cases e)
  | str _, arr _ => isFalse (by intro e; cases e)
  | str _, obj _ => isFalse (by intro e; cases e)
  | arr _, undefined => isFalse (by intro e; cases e)
  | arr _, null => isFalse (by intro e; cases e)
  | arr _, bool _ => isFalse (by intro e; cases e)
  | arr _, num _ => isFalse (by intro e; cases e)
  | arr _, str _ => isFalse (by intro e; cases e)
  | arr _, obj _ => isFalse (by intro e; cases e)
  | obj _, undefined => isFalse (by intro e; cases e)
  | obj _, null => isFalse (by intro e; cases e)
  | obj _, bool _ => isFalse (by intro e; cases e)
  | obj _, num _ => isFalse (by intro e; cases e)
  | obj _, str _ => isFalse (by intro e; cases e)
  | obj _, arr _ => isFalse (by intro e; cases e)
termination_by structural a => a
/-- Structural equality of arrays of values. -/
def decEqList : (a b : List JSVal) → Decidable (a = b)
  | [], [] => isTrue rfl
  | [], _ :: _ => isFalse (by intro e; cases e)
  | _ :: _, [] => isFalse (by intro e; cases e)
  | x :: xs, y :: ys =>
      match decEq x y, decEqList xs ys with
      | isTrue h, isTrue h2 => isTrue (by rw [h, h2])
      | isFalse h, _ => isFalse (by intro e; cases e; exact h rfl)
      | _, isFalse h => isFalse (by intro e; cases e; exact h rfl)
termination_by structural a => a
/-- Structural equality of property lists. -/
def decEqFields : (a b : List (String × JSVal)) → Decidable (a = b)
  | [], [] => isTrue rfl
  | [], _ :: _ => isFalse (by intro e; cases e)
  | _ :: _, [] => isFalse (by intro e; cases e)
  | (k, x) :: xs, (l, y) :: ys =>
      if hk : k = l then
        match decEq x y, decEqFields xs ys with
        | isTrue h, isTrue h2 => isTrue (by rw [hk, h, h2])
        | isFalse h, _ => isFalse (by intro e; cases e; exact h rfl)
        | _, isFalse h => isFalse (by intro e; cases e; exact h rfl)
      else isFalse (by intro e; cases e; exact hk rfl)
termination_by structural a => a
end

instance : DecidableEq JSVal := decEq

/-- JavaScript truthiness (`ToBoolean`). -/
def truthy : JSVal → Bool
  | undefined => false
  | null => false
  | bool b => b
  | num n => n != 0
  | str s => s != ""
  | arr _ => true
  | obj _ => true

/-- The JavaScript expression `a || b`. -/
def or (a b : JSVal) : JSVal := if a.truthy then a else b

/-- The result of `typeof v`. -/
def typeof : JSVal → String
  | undefined => "undefined"
  | null => "object"
  | bool _ => "boolean"
  | num _ => "number"
  | str _ => "string"
  | arr _ => "object"
  | obj _ => "object"

/-- The own data property `key` of a plain object, if it has one. -/
def own (v : JSVal) (key : String) : Option JSVal :=
  match v with
  | obj fields => fields.lookup key
  | _ => none

/-- The property read `v.key` for a key that no prototype defines (`src`, `scene`,
`weight`): the own property of an object, `undefined` otherwise. The receiver is
neither `null` nor `undefined` wherever the source performs such a read. -/
def get (v : JSVal) (key : String) : JSVal := (v.own key).getD undefined

/-- The value of the Number type nearest to the natural number `v` (round to nearest,
ties to even), which is a natural number again; every natural number up to `2 ^ 53`
is a value of the Number type. -/
def nearestNumber (v : Nat) : Nat :=
  if (Nat.toDigits 2 v).length ≤ 53 then v
  else
    let unit := 2 ^ ((Nat.toDigits 2 v).length - 53)
    if unit < 2 * (v % unit) ∨ (unit = 2 * (v % unit) ∧ (v / unit) % 2 = 1) then
      (v / unit + 1) * unit
    else v / unit * unit

/-- The multiple of `10 ^ (digits of d - k)` nearest to the Number `d` among those
(at most two) that convert back to `d`; `none` if there is none. Of two equally near
ones the even multiple is taken. -/
def shortestWith (d k : Nat) : Option Nat :=
  let scale := 10 ^ ((Nat.toDigits 10 d).length - k)
  let lo := d / scale * scale
  let hi := lo + scale
  if nearestNumber lo = d ∧ nearestNumber hi = d then
    if d - lo < hi - d then some lo
    else if hi - d < d - lo then some hi
    else if (lo / scale) % 2 = 0 then some lo else some hi
  else if nearestNumber lo = d then some lo
  else if nearestNumber hi = d then some hi
  else none

/-- The natural number whose decimal expansion `Number::toString` prints for the
magnitude `d`: `d` itself up to `2 ^ 53`, and beyond that the decimal with the fewest
significant digits that converts back to the Number nearest to `d`. -/
def printedDigits (d : Nat) : Nat :=
  if d ≤ 2 ^ 53 then d
  else
    ((List.range 17).findSome? (fun j => shortestWith (nearestNumber d) (j + 1))).getD
      (nearestNumber d)

/-- The operation `Number::toString` on an integer: the decimal expansion up to 21
digits, the exponent form from `1e+21` on. -/
def numberToString (n : Int) : String :=
  let ds := Nat.toDigits 10 (printedDigits n.natAbs)
  let sign := if n < 0 then "-" else ""
  if ds.length ≤ 21 then sign ++ String.mk ds
  else
    match (ds.reverse.dropWhile (· == '0')).reverse with
    | [] => sign ++ "0"
    | first :: rest =>
        sign ++ String.mk (first :: (if rest.isEmpty then [] else '.' :: rest)) ++ "e+" ++
          toString (ds.length - 1)

mutual
/-- The method call `v.toString()`. It throws a `TypeError` on `null` and
`undefined`, and on an object whose own `toString` property is data rather than a
function; an array joins the strings of its elements with commas. -/
def callToString : JSVal → Except JSError String
  | undefined => .error .typeError
  | null => .error .typeError
  | bool b => .ok (if b then "true" else "false")
  | num n => .ok (numberToString n)
  | str s => .ok s
  | arr items => join items
  | obj fields =>
      if (fields.lookup "toString").isSome then .error .typeError else .ok "[object Object]"
termination_by structural v => v
/-- The JavaScript `Array.prototype.join` with the default separator: `null` and
`undefined` elements contribute the empty string. -/
def join : List JSVal → Except JSError String
  | [] => .ok ""
  | x :: rest =>
      let first : Except JSError String :=
        match x with
        | undefined => .ok ""
        | null => .ok ""
        | v => callToString v
      match first, join rest with
      | .ok a, .ok b => .ok (if rest.isEmpty then a else a ++ "," ++ b)
      | .error e, _ => .error e
      | _, .error e => .error e
termination_by structural l => l
end

/-- JavaScript strict equality `a === b` when one operand is a primitive: equal
primitives of the same type. Arrays and objects are compared by reference in
JavaScript; the source only ever compares against a primitive, so an array or an
object operand makes the comparison false. -/
def strictEq : JSVal → JSVal → Bool
  | undefined, undefined => true
  | null, null => true
  | bool a, bool b => a == b
  | num a, num b => a == b
  | str a, str b => a == b
  | _, _ => false

/-- The code points that `StringToNumber` strips from both ends of a string
(`WhiteSpace` and `LineTerminator`). -/
def isBlank (c : Char) : Bool :=
  c.toNat == 0x9 || c.toNat == 0xA || c.toNat == 0xB || c.toNat == 0xC || c.toNat == 0xD ||
  c.toNat == 0x20 || c.toNat == 0xA0 || c.toNat == 0x1680 ||
  (0x2000 ≤ c.toNat && c.toNat ≤ 0x200A) || c.toNat == 0x2028 || c.toNat == 0x2029 ||
  c.toNat == 0x202F || c.toNat == 0x205F || c.toNat == 0x3000 || c.toNat == 0xFEFF

/-- The value of the character `c` as a digit in base `base`, if it is one. -/
def digitOf (base : Nat) (c : Char) : Option Nat :=
  let v :=
    if '0' ≤ c ∧ c ≤ '9' then some (c.toNat - '0'.toNat)
    else if 'a' ≤ c ∧ c ≤ 'f' then some (c.toNat - 'a'.toNat + 10)
    else if 'A' ≤ c ∧ c ≤ 'F' then some (c.toNat - 'A'.toNat + 10)
    else none
  match v with
  | some d => if d < base then some d else none
  | none => none

/-- The value of a list of digits in base `base`, `none` if some character is not a
digit of that base. The empty list has the value 0. -/
def digitsValue (base : Nat) (cs : List Char) : Option Nat :=
  cs.foldl (fun acc c =>
    match acc, digitOf base c with
    | some n, some d => some (base * n + d)
    | _, _ => none) (some 0)

/-- The Number for the magnitude `v` of a literal: the nearest value of the Number
type, which is an infinity from `2 ^ 1024` on. -/
def ofMagnitude (negative : Bool) (v : Nat) : JSNumber :=
  if 1024 < (Nat.toDigits 2 (nearestNumber v)).length then .infinite (!negative)
  else .finite (if negative then - (nearestNumber v : Int) else nearestNumber v)

/-- The number of significant digits of a digit string: what remains when the zeros
at both ends are dropped. -/
def significantDigits (cs : List Char) : Nat :=
  (((cs.dropWhile (· == '0')).reverse.dropWhile (· == '0'))).length

/-- The production `StrUnsignedDecimalLiteral`: `Infinity`, or digits with an
optional fraction and an optional exponent. A string outside the production is
`NaN`. A literal whose value is not an integer, or that has more than 20 significant
digits (its rounding is then left to the implementation), leaves the model. -/
def unsignedDecimal (negative : Bool) (cs : List Char) : Except JSError JSNumber :=
  if cs = "Infinity".toList then .ok (.infinite (!negative))
  else
    let mantissa := cs.takeWhile (fun c => c != 'e' && c != 'E')
    let afterMantissa := cs.dropWhile (fun c => c != 'e' && c != 'E')
    let whole := mantissa.takeWhile (· != '.')
    let fraction := (mantissa.dropWhile (· != '.')).drop 1
    let exponentText := afterMantissa.drop 1
    let exponentDigits :=
      match exponentText with
      | '+' :: ds => ds
      | '-' :: ds => ds
      | ds => ds
    let exponentNegative := exponentText.head? == some '-'
    if (whole.isEmpty && fraction.isEmpty) ||
        (whole.isEmpty && !(mantissa.head? == some '.')) ||
        (!afterMantissa.isEmpty && exponentDigits.isEmpty) then .ok .nan
    else
      match digitsValue 10 (whole ++ fraction), digitsValue 10 exponentDigits with
      | some m, some e =>
          if m = 0 then .ok (.finite 0)
          else if 20 < significantDigits (whole ++ fraction) then .error .unsupported
          else if exponentNegative then
            if m % 10 ^ (e + fraction.length) = 0 then
              .ok (ofMagnitude negative (m / 10 ^ (e + fraction.length)))
            else .error .unsupported
          else if e < fraction.length then
            if m % 10 ^ (fraction.length - e) = 0 then
              .ok (ofMagnitude negative (m / 10 ^ (fraction.length - e)))
            else .error .unsupported
          else if 400 < e - fraction.length then .ok (.infinite (!negative))
          else .ok (ofMagnitude negative (m * 10 ^ (e - fraction.length)))
      | _, _ => .ok .nan

/-- The production `NonDecimalIntegerLiteral` with the digits `cs` after the prefix. -/
def nonDecimal (base : Nat) (cs : List Char) : JSNumber :=
  if cs.isEmpty then .nan
  else
    match digitsValue base cs with
    | some v => ofMagnitude false v
    | none => .nan

/-- The conversion `StringToNumber`. -/
def stringToNumber (s : String) : Except JSError JSNumber :=
  match ((s.toList.dropWhile isBlank).reverse.dropWhile isBlank).reverse with
  | [] => .ok (.finite 0)
  | '0' :: 'x' :: ds => .ok (nonDecimal 16 ds)
  | '0' :: 'X' :: ds => .ok (nonDecimal 16 ds)
  | '0' :: 'o' :: ds => .ok (nonDecimal 8 ds)
  | '0' :: 'O' :: ds => .ok (nonDecimal 8 ds)
  | '0' :: 'b' :: ds => .ok (nonDecimal 2 ds)
  | '0' :: 'B' :: ds => .ok (nonDecimal 2 ds)
  | '+' :: ds => unsignedDecimal false ds
  | '-' :: ds => unsignedDecimal true ds
  | ds => unsignedDecimal false ds

/-- The conversion `ToNumber`. Arrays and objects are first converted to a
primitive, which calls `toString` on them. -/
def toNumber : JSVal → Except JSError JSNumber
  | undefined => .ok .nan
  | null => .ok (.finite 0)
  | bool b => .ok (.finite (if b then 1 else 0))
  | num n => .ok (.finite n)
  | str s => stringToNumber s
  | v => match callToString v with
      | .ok s => stringToNumber s
      | .error e => .error e

/-- The JavaScript comparison `a >= n` against a number `n`: false when `a` converts
to `NaN`. -/
def ge (a : JSVal) (n : Int) : Except JSError Bool :=
  match toNumber a with
  | .ok (.finite m) => .ok (decide (n ≤ m))
  | .ok (.infinite positive) => .ok positive
  | .ok .nan => .ok false
  | .error e => .error e

end JSVal

/-- A resource object of the catalog (`src`, `weight`, `scene`, `status`,
`loadEvents`). `weight` and `scene` are `false` when unset; `status` is `0`
(pending), `1` (fetching) or `2` (done) unless the caller supplied another value;
`loadEvents` is the array of the ids of the load requests waiting on the
resource. -/
structure Resource where
  src : JSVal
  weight : JSVal
  scene : JSVal
  status : JSVal
  loadEvents : List Nat
deriving DecidableEq

/-- An invocation of a function supplied by the user of a coordinator: the progress
function of a load request, called with `(loadedNum, resourceList.length)`, or the
`resolve` function of the promise returned by `load`, called with `loadedNum`. -/
inductive Call where
  | progress (loadId loaded total : Nat)
  | resolve (loadId loaded : Nat)
deriving DecidableEq, Repr

/-- The state of one `Preloader` instance. `__loadToResource` maps a load id to the
positions of the resources of that request; `__loadProgress` and `__loadEndPromise`
tell under which load ids a function is stored. `calls` is the history of the
invocations of user functions made by this instance, oldest first. -/
structure Preloader where
  __resourceList : List Resource
  __loadToResource : Nat → Option (List Nat)
  __loadProgress : Nat → Bool
  __loadEndPromise : Nat → Bool
  __loadId : Nat
  calls : List Call

/-- The load ids held by an array of natural numbers. -/
def decodeIds : List JSVal → Except JSError (List Nat)
  | [] => .ok []
  | .num n :: rest =>
      match decodeIds rest with
      | .ok ids => if 0 ≤ n then .ok (n.toNat :: ids) else .error .unsupported
      | .error e => .error e
  | _ :: _ => .error .unsupported

/-- A caller-supplied `loadEvents` property is modelled when it is an array of
natural numbers. `Object.assign` stores the caller's array itself in the entry; the
array being fresh and used by this entry alone, the entry is described by the
elements of the array. Any other value leaves the model. -/
def decodeLoadEvents : JSVal → Except JSError (List Nat)
  | .arr items => decodeIds items
  | _ => .error .unsupported

/-- The call `Object.assign({}, {src: '', weight, scene, status: 0, loadEvents: []},
formattedItem)`: every own property of `formattedItem` overrides the default. -/
def assignDefaults (weight scene : JSVal) (formattedItem : List (String × JSVal)) :
    Except JSError Resource :=
  match (match formattedItem.lookup "loadEvents" with
         | some v => decodeLoadEvents v
         | none => Except.ok []) with
  | .error e => .error e
  | .ok loadEvents =>
      .ok { src := (formattedItem.lookup "src").getD (.str "")
            weight := (formattedItem.lookup "weight").getD weight
            scene := (formattedItem.lookup "scene").getD scene
            status := (formattedItem.lookup "status").getD (.num 0)
            loadEvents := loadEvents }

namespace Preloader

/-- The test `sceneOrWeight && sceneOrWeight.toString === '[object Object]'` of
`__formatResource`. The property `toString` is read, not called: what is compared
with the string is an own data property of that name, or else the function
inherited from the prototype, which is not equal to any string. -/
def sharedIsObject (sceneOrWeight : JSVal) : Bool :=
  sceneOrWeight.truthy &&
    (match sceneOrWeight.own "toString" with
     | some v => v.strictEq (.str "[object Object]")
     | none => false)

/-- The pair `(scene, weight)` computed by the first half of `__formatResource`. -/
def sharedSceneWeight (sceneOrWeight : JSVal) : JSVal × JSVal :=
  if sharedIsObject sceneOrWeight then
    ((sceneOrWeight.get "scene").or (.bool false), (sceneOrWeight.get "weight").or (.bool false))
  else if sceneOrWeight.typeof = "string" then (sceneOrWeight, .bool false)
  else if sceneOrWeight.typeof = "number" then (.bool false, sceneOrWeight)
  else (.bool false, .bool false)

/-- The method `__formatResource`: `none` is the return value `false`. -/
def __formatResource (item sceneOrWeight : JSVal) : Except JSError (Option Resource) :=
  let scene := (sharedSceneWeight sceneOrWeight).1
  let weight := (sharedSceneWeight sceneOrWeight).2
  if item.typeof = "string" then
    (assignDefaults weight scene [("src", item)]).map some
  else
    match item.callToString with
    | .error e => .error e
    | .ok s =>
        if s = "[object Object]" && (item.get "src").truthy then
          match item with
          | .obj fields => (assignDefaults weight scene fields).map some
          | _ => .ok none
        else .ok none

/-- The expression `items.map((item) => this.__formatResource(item,
sceneOrWeight)).filter((item) => item)` of `add`. -/
def formatAll (sceneOrWeight : JSVal) : List JSVal → Except JSError (List Resource)
  | [] => .ok []
  | item :: rest =>
      match __formatResource item sceneOrWeight with
      | .error e => .error e
      | .ok r =>
          match formatAll sceneOrWeight rest with
          | .error e => .error e
          | .ok rs => .ok (r.toList ++ rs)

/-- The method `add`. The returned value is the coordinator itself (`return this`). -/
def add (p : Preloader) (items sceneOrWeight : JSVal) : Except JSError Preloader :=
  if items.truthy then
    match items with
    | .arr l =>
        match formatAll sceneOrWeight l with
        | .error e => .error e
        | .ok newResources =>
            .ok { p with __resourceList := p.__resourceList ++ newResources }
    | _ => .error .typeError
  else .ok p

/-- The field initializers of the constructor. -/
def fresh : Preloader :=
  { __resourceList := []
    __loadToResource := fun _ => none
    __loadProgress := fun _ => false
    __loadEndPromise := fun _ => false
    __loadId := 0
    calls := [] }

/-- The constructor `new Preloader(items, sceneOrWeight)`. -/
def new (items sceneOrWeight : JSVal) : Except JSError Preloader :=
  add fresh items sceneOrWeight

/-- The positions, counted from `k`, of the resources of `l` that pass the test `f`,
in order: `Array.prototype.filter` with a test that may throw. -/
def filterPositions (f : Resource → Except JSError Bool) :
    List Resource → Nat → Except JSError (List Nat)
  | [], _ => .ok []
  | r :: rest, k =>
      match f r with
      | .error e => .error e
      | .ok b =>
          match filterPositions f rest (k + 1) with
          | .error e => .error e
          | .ok is => .ok (if b then k :: is else is)

/-- The test of `__filterByWeight`: `item.weight === false || item.weight >= weight`. -/
def weightTest (weight : Int) (item : Resource) : Except JSError Bool :=
  if item.weight.strictEq (.bool false) then .ok true else item.weight.ge weight

/-- The test of `__filterByScene`: `item.scene === false || item.scene === scene`. -/
def sceneTest (scene : String) (item : Resource) : Except JSError Bool :=
  .ok (item.scene.strictEq (.bool false) || item.scene.strictEq (.str scene))

/-- The method `__filterByWeight`, as positions in the catalog. -/
def __filterByWeight (p : Preloader) (weight : Int) : Except JSError (List Nat) :=
  filterPositions (weightTest weight) p.__resourceList 0

/-- The method `__filterByScene`, as positions in the catalog. -/
def __filterByScene (p : Preloader) (scene : String) : Except JSError (List Nat) :=
  filterPositions (sceneTest scene) p.__resourceList 0

/-- The value of `filteredResources` in `load`. -/
def filteredResources (p : Preloader) (weightOrScene : JSVal) : Except JSError (List Nat) :=
  match weightOrScene with
  | .num weight => p.__filterByWeight weight
  | .str scene => p.__filterByScene scene
  | _ => .ok (List.range p.__resourceList.length)

end Preloader

/-- Run `f` over a list from left to right, threading the state and stopping at the
first exception: `Array.prototype.forEach` with a body that may throw. -/
def forEachM {σ α : Type} (f : σ → α → Except JSError σ) : σ → List α → Except JSError σ
  | s, [] => .ok s
  | s, a :: rest =>
      match f s a with
      | .error e => .error e
      | .ok s' => forEachM f s' rest

namespace Preloader

/-- Assign to the resource object at position `i`. -/
def modify (p : Preloader) (i : Nat) (f : Resource → Resource) : Preloader :=
  { p with __resourceList := p.__resourceList.modify f i }

/-- The test `resource.status === 2` on the resource at position `i`. -/
def isDone (p : Preloader) (i : Nat) : Bool :=
  match p.__resourceList[i]? with
  | some resource => resource.status.strictEq (.num 2)
  | none => false

/-- The method `__registerLoad`. -/
def __registerLoad (p : Preloader) (loadId : Nat) (resourceList : List Nat) : Preloader :=
  resourceList.foldl
    (fun q i => q.modify i (fun resource =>
      { resource with loadEvents := resource.loadEvents ++ [loadId] }))
    { p with __loadToResource := Function.update p.__loadToResource loadId (some resourceList) }

/-- The method `__registerProgress`. -/
def __registerProgress (p : Preloader) (loadId : Nat) : Preloader :=
  { p with __loadProgress := Function.update p.__loadProgress loadId true }

/-- The method `__registerEndPromise`. -/
def __registerEndPromise (p : Preloader) (loadId : Nat) : Preloader :=
  { p with __loadEndPromise := Function.update p.__loadEndPromise loadId true }

/-- The method `__unregisterLoad`. Reading `forEach` off a load id that has no
resource list throws. -/
def __unregisterLoad (p : Preloader) (loadId : Nat) : Except JSError Preloader :=
  match p.__loadToResource loadId with
  | none => .error .typeError
  | some resourceList =>
      .ok (resourceList.foldl
        (fun q i => q.modify i (fun resource =>
          { resource with loadEvents := resource.loadEvents.filter (fun id => id != loadId) }))
        { p with __loadToResource := Function.update p.__loadToResource loadId (some []) })

/-- The method `__fileResourceProgress`. -/
def __fileResourceProgress (p : Preloader) (loadId : Nat) : Except JSError Preloader :=
  match p.__loadToResource loadId with
  | none => .error .typeError
  | some resourceList =>
      let loadedNum := (resourceList.filter (fun i => p.isDone i)).length
      let p1 :=
        if p.__loadProgress loadId then
          { p with calls := p.calls ++ [Call.progress loadId loadedNum resourceList.length] }
        else p
      if loadedNum = resourceList.length then
        match p1.__unregisterLoad loadId with
        | .error e => .error e
        | .ok p2 =>
            if p2.__loadEndPromise loadId then
              .ok { p2 with calls := p2.calls ++ [Call.resolve loadId loadedNum] }
            else .ok p2
      else .ok p1

/-- The closure `onload` that `__fire` creates for the resource at position `i`. -/
def onload (p : Preloader) (i : Nat) : Except JSError Preloader :=
  let p1 := p.modify i (fun resource => { resource with status := .num 2 })
  let progressEvents :=
    match p1.__resourceList[i]? with
    | some resource => resource.loadEvents
    | none => []
  let p2 := p1.modify i (fun resource => { resource with loadEvents := [] })
  forEachM __fileResourceProgress p2 progressEvents

end Preloader

/-- A function stored in the registry or handed to `window.setTimeout`. `onload c i`
is the closure that `__fire` of coordinator `c` creates for its resource at position
`i`. `client tag again` is a callback of another user of the registry: when invoked
it is recorded, and if `again` names an identifier it registers itself for that
identifier. -/
inductive Callback where
  | onload (loader resource : Nat)
  | client (tag : Nat) (again : Option String)
deriving DecidableEq, Repr

/-- The object that `ResourcePool.register` stores per identifier. -/
structure PoolEntry where
  done : Bool
  eventList : List Callback
deriving DecidableEq, Repr

/-- What the world outside the coordinators observes: a fetch is started (an image
is created and its `src` assigned), or a client callback is invoked. -/
inductive Obs where
  | fetch (src : String)
  | called (tag : Nat)
deriving DecidableEq, Repr

/-- Which branch of `ResourcePool.register` was taken. -/
inductive Registration where
  | created
  | appended
  | replayed
deriving DecidableEq, Repr

namespace ResourcePool

/-- The names of the properties that the table `resources`, the object literal `{}`,
inherits from `Object.prototype`. For such a name without an own property,
`resources[src]` is the inherited value (a function, or the prototype object for
`__proto__`): it is truthy and has neither `done` nor `eventList`. -/
def inheritedKeys : List String :=
  ["constructor", "__defineGetter__", "__defineSetter__", "hasOwnProperty",
   "__lookupGetter__", "__lookupSetter__", "isPrototypeOf", "propertyIsEnumerable",
   "toString", "valueOf", "__proto__", "toLocaleString"]

/-- The table update of `ResourcePool.register`; the table holds the own properties
of `resources`. For an inherited name the first test `!resources[src]` fails, the
second test `!resources[src].done` succeeds and `resources[src].eventList.push`
throws a `TypeError`. In the branch `replayed` the source ends by calling
`callback()`; the caller of this function performs that call. -/
def register (resources : String → Option PoolEntry) (src : String) (callback : Callback) :
    Except JSError ((String → Option PoolEntry) × Registration) :=
  match resources src with
  | none =>
      if src ∈ inheritedKeys then .error .typeError
      else .ok (Function.update resources src (some ⟨false, [callback]⟩), .created)
  | some resource =>
      if !resource.done then
        .ok (Function.update resources src
          (some { resource with eventList := resource.eventList ++ [callback] }), .appended)
      else .ok (resources, .replayed)

/-- The table update of the handler `resource.image.onload`, with the swapped-out
`callbackList` that the handler then invokes in order. -/
def onImageLoad (resources : String → Option PoolEntry) (src : String) :
    Option ((String → Option PoolEntry) × List Callback) :=
  match resources src with
  | none => none
  | some resource => some (Function.update resources src (some ⟨true, []⟩), resource.eventList)

end ResourcePool

/-- The state of the page: the table `resources` of `ResourcePool.js`, the
identifiers whose image is still loading, the coordinators in order of creation, the
callbacks handed to `window.setTimeout` that have not run yet (oldest first), and
the observations made so far (oldest first). -/
structure World where
  resources : String → Option PoolEntry
  inflight : List String
  loaders : List Preloader
  timers : List Callback
  log : List Obs

namespace World

/-- The page before any script has run. -/
def init : World :=
  { resources := fun _ => none, inflight := [], loaders := [], timers := [], log := [] }

/-- Invoke a stored callback. -/
def invoke (w : World) : Callback → Except JSError World
  | .onload c i =>
      match w.loaders[c]? with
      | none => .error .disabled
      | some p =>
          match p.onload i with
          | .error e => .error e
          | .ok p' => .ok { w with loaders := w.loaders.set c p' }
  | .client tag again =>
      let w1 := { w with log := w.log ++ [Obs.called tag] }
      match again with
      | none => .ok w1
      | some src =>
          match ResourcePool.register w1.resources src (.client tag none) with
          | .error e => .error e
          | .ok (resources, .created) =>
              .ok { w1 with resources := resources, inflight := w1.inflight ++ [src],
                            log := w1.log ++ [Obs.fetch src] }
          | .ok (resources, .appended) => .ok { w1 with resources := resources }
          | .ok (_, .replayed) => .ok { w1 with log := w1.log ++ [Obs.called tag] }

/-- The call `ResourcePool.register(src, callback)`. -/
def register (w : World) (src : String) (callback : Callback) : Except JSError World :=
  match ResourcePool.register w.resources src callback with
  | .error e => .error e
  | .ok (resources, .created) =>
      .ok { w with resources := resources, inflight := w.inflight ++ [src],
                   log := w.log ++ [Obs.fetch src] }
  | .ok (resources, .appended) => .ok { w with resources := resources }
  | .ok (_, .replayed) => w.invoke callback

/-- The property key that `resources[src]` uses for the value of `resource.src`. -/
def propertyKey : JSVal → Except JSError String
  | .undefined => .ok "undefined"
  | .null => .ok "null"
  | v => v.callToString

/-- The body of the `forEach` of `__fire`, for the resource at position `i` of
coordinator `c`. -/
def fireOne (c : Nat) (w : World) (i : Nat) : Except JSError World :=
  match w.loaders[c]? with
  | none => .error .disabled
  | some p =>
      match p.__resourceList[i]? with
      | none => .error .disabled
      | some resource =>
          if resource.status.strictEq (.num 0) then
            match propertyKey resource.src with
            | .error e => .error e
            | .ok src =>
                let p1 := p.modify i (fun resource => { resource with status := .num 1 })
                register { w with loaders := w.loaders.set c p1 } src (.onload c i)
          else if resource.status.strictEq (.num 2) then
            .ok { w with timers := w.timers ++ [Callback.onload c i] }
          else .ok w

/-- The method `__fire` of coordinator `c`. -/
def __fire (c : Nat) (w : World) (resources : List Nat) : Except JSError World :=
  forEachM (fireOne c) w resources

/-- The method `load` of coordinator `c`. `onProgress` tells whether the last
argument of the call is a function; a call `load(f)` with a function alone is
`load c .undefined true`. The promise returned is the one whose `resolve` function
is stored under the new load id. -/
def load (w : World) (c : Nat) (weightOrScene : JSVal) (onProgress : Bool) :
    Except JSError World :=
  match w.loaders[c]? with
  | none => .error .disabled
  | some p =>
      match p.filteredResources weightOrScene with
      | .error e => .error e
      | .ok filtered =>
          let currentLoadId := p.__loadId + 1
          let p1 := ({ p with __loadId := currentLoadId }).__registerLoad currentLoadId filtered
          let p2 := if onProgress then p1.__registerProgress currentLoadId else p1
          match __fire c { w with loaders := w.loaders.set c p2 } filtered with
          | .error e => .error e
          | .ok w' =>
              .ok { w' with loaders :=
                      w'.loaders.modify (fun q => q.__registerEndPromise currentLoadId) c }

end World

/-- The events of the page. -/
inductive Event where
  /-- A script evaluates `new Preloader(items, sceneOrWeight)`. -/
  | create (items sceneOrWeight : JSVal)
  /-- A script calls `add(items, sceneOrWeight)` on coordinator `c`. -/
  | add (c : Nat) (items sceneOrWeight : JSVal)
  /-- A script calls `load` on coordinator `c`. -/
  | load (c : Nat) (weightOrScene : JSVal) (onProgress : Bool)
  /-- Another user of the registry calls `ResourcePool.register`. -/
  | register (src : String) (tag : Nat) (again : Option String)
  /-- The image of `src` finishes loading: its `onload` handler runs. -/
  | imageLoaded (src : String)
  /-- The oldest pending `setTimeout` callback runs. -/
  | timeout
deriving DecidableEq

namespace World

/-- One turn of the event loop. -/
def step (w : World) : Event → Except JSError World
  | .create items sceneOrWeight =>
      match Preloader.new items sceneOrWeight with
      | .error e => .error e
      | .ok p => .ok { w with loaders := w.loaders ++ [p] }
  | .add c items sceneOrWeight =>
      match w.loaders[c]? with
      | none => .error .disabled
      | some p =>
          match p.add items sceneOrWeight with
          | .error e => .error e
          | .ok p' => .ok { w with loaders := w.loaders.set c p' }
  | .load c weightOrScene onProgress => w.load c weightOrScene onProgress
  | .register src tag again => w.register src (.client tag again)
  | .imageLoaded src =>
      if src ∈ w.inflight then
        match ResourcePool.onImageLoad w.resources src with
        | none => .error .disabled
        | some (resources, callbackList) =>
            forEachM invoke
              { w with resources := resources, inflight := w.inflight.erase src } callbackList
      else .error .disabled
  | .timeout =>
      match w.timers with
      | [] => .error .disabled
      | callback :: rest => invoke { w with timers := rest } callback

/-- Run a sequence of events. -/
def run (w : World) (events : List Event) : Except JSError World :=
  forEachM step w events

/-- The history of user-function invocations of coordinator `c`. -/
def calls (w : World) (c : Nat) : List Call :=
  match w.loaders[c]? with
  | some p => p.calls
  | none => []

end World

/-! ## The specification side and the examples of the specification -/

namespace Spec

/-- The specification's reading of a selection: the positions of the catalog
entries that satisfy `test`, in catalog order. -/
def selected (test : Resource → Bool) (catalog : List Resource) : List Nat :=
  (List.range catalog.length).filter (fun i =>
    match catalog[i]? with
    | some r => test r
    | none => false)

/-- The specification's weight selector: the entry has no weight (`false`, the
coordinator's mark of an unset field, or `undefined`), or its weight is a number
`>= n`. -/
def weightSelects (n : Int) (r : Resource) : Bool :=
  match r.weight with
  | .bool false => true
  | .undefined => true
  | .num m => decide (n ≤ m)
  | _ => false

/-- The specification's scene selector: the scene is unset, or equal to `s`. -/
def sceneSelects (s : String) (r : Resource) : Bool :=
  decide (r.scene = .bool false ∨ r.scene = .str s)

end Spec

/-- The catalog of the weight example: `a` with weight 5, `b` with weight 10, `c`
with no weight. -/
def weightExample : JSVal :=
  .arr [.obj [("src", .str "a"), ("weight", .num 5)],
        .obj [("src", .str "b"), ("weight", .num 10)], .str "c"]

/-- The coordinator `new Preloader(weightExample)`. -/
def weightCatalog : Preloader :=
  { __resourceList :=
      [⟨.str "a", .num 5, .bool false, .num 0, []⟩, ⟨.str "b", .num 10, .bool false, .num 0, []⟩,
       ⟨.str "c", .bool false, .bool false, .num 0, []⟩]
    __loadToResource := fun _ => none
    __loadProgress := fun _ => false
    __loadEndPromise := fun _ => false
    __loadId := 0
    calls := [] }

/-- The catalog of the scene example: `a` in scene `menu`, `b` with no scene, `c`
in scene `game`. -/
def sceneExample : JSVal :=
  .arr [.obj [("src", .str "a"), ("scene", .str "menu")], .str "b",
        .obj [("src", .str "c"), ("scene", .str "game")]]

/-- The coordinator `new Preloader(sceneExample)`. -/
def sceneCatalog : Preloader :=
  { __resourceList :=
      [⟨.str "a", .bool false, .str "menu", .num 0, []⟩,
       ⟨.str "b", .bool false, .bool false, .num 0, []⟩,
       ⟨.str "c", .bool false, .str "game", .num 0, []⟩]
    __loadToResource := fun _ => none
    __loadProgress := fun _ => false
    __loadEndPromise := fun _ => false
    __loadId := 0
    calls := [] }

/-- The replay scenario: two coordinators hold the identifier `x`; the first loads
it to completion; then the second calls `load()`. -/
def replayScenario : List Event :=
  [.create (.arr [.str "x"]) .undefined, .create (.arr [.str "x"]) .undefined,
   .load 0 .undefined false, .imageLoaded "x", .load 1 .undefined false]

/-- The duplicate scenario: one coordinator loads `a` to completion, adds `a` a
second time and calls `load()` with a progress function; then the deferred
notification runs. -/
def duplicateScenario : List Event :=
  [.create (.arr [.str "a"]) .undefined, .load 0 .undefined false, .imageLoaded "a",
   .add 0 (.arr [.str "a"]) .undefined, .load 0 .undefined true, .timeout]

/-- What the tests of a scenario look at: per coordinator the status of every
resource and the user functions invoked, then the pending timers, the images in
flight and the fetches started. -/
def World.summary (w : World) :
    List (List JSVal × List Call) × List Callback × List String × List Obs :=
  (w.loaders.map (fun p => (p.__resourceList.map (·.status), p.calls)),
   w.timers, w.inflight, w.log)

/-- No identifier has been fetched twice, and an identifier without a registry entry
has not been fetched. -/
def World.FetchOnce (w : World) : Prop :=
  ∀ src, w.log.count (Obs.fetch src) ≤ 1 ∧
    (w.resources src = none → w.log.count (Obs.fetch src) = 0)

/-- The overlap scenario: the identifier `x` is added once and selected by two
`load()` calls before its image has loaded; then the image loads. -/
def overlapScenario (x : String) : List Event :=
  [.create (.arr [.str x]) .undefined, .load 0 .undefined false, .load 0 .undefined false,
   .imageLoaded x]

/-- The page at the end of the replay scenario. -/
def replayEnd : World :=
  match World.run World.init replayScenario with
  | .ok w => w
  | .error _ => World.init

/-- The coordinator after lines 51 to 57 of `load`: the new load id is allocated,
the memberships are registered and so is the progress function, if there is one. -/
def Preloader.registered (p : Preloader) (filtered : List Nat) (onProgress : Bool) :
    Preloader :=
  if onProgress then
    (({ p with __loadId := p.__loadId + 1 }).__registerLoad (p.__loadId + 1)
      filtered).__registerProgress (p.__loadId + 1)
  else ({ p with __loadId := p.__loadId + 1 }).__registerLoad (p.__loadId + 1) filtered

/-- The atomic actions on one coordinator of which every event is composed:
resources are appended by `add`; `load` allocates an id and registers the request;
`__fire` marks a pending resource as fetching; an `onload` closure runs; `load`
stores the `resolve` function of an allocated id. `allowed` constrains the resources
that `add` appends, `fetchable` the positions that `__fire` marks as fetching. -/
inductive Preloader.Action (allowed : List Resource → Prop) (fetchable : Nat → Prop) :
    Preloader → Preloader → Prop
  | add (p : Preloader) (newResources : List Resource) (h : allowed newResources) :
      Action allowed fetchable p { p with __resourceList := p.__resourceList ++ newResources }
  | registered (p : Preloader) (weightOrScene : JSVal) (filtered : List Nat)
      (onProgress : Bool) (h : p.filteredResources weightOrScene = .ok filtered) :
      Action allowed fetchable p (p.registered filtered onProgress)
  | fetching (p : Preloader) (i : Nat) (resource : Resource)
      (h : p.__resourceList[i]? = some resource)
      (h0 : resource.status.strictEq (.num 0) = true) (hi : fetchable i) :
      Action allowed fetchable p (p.modify i (fun resource => { resource with status := .num 1 }))
  | onload (p : Preloader) (i : Nat) (p' : Preloader) (h : p.onload i = .ok p') :
      Action allowed fetchable p p'
  | endPromise (p : Preloader) (loadId : Nat) (h : loadId ≤ p.__loadId) :
      Action allowed fetchable p (p.__registerEndPromise loadId)

/-- A coordinator state obtained from another by finitely many atomic actions. -/
def Preloader.Reach (allowed : List Resource → Prop) (fetchable : Nat → Prop) :
    Preloader → Preloader → Prop :=
  Relation.ReflTransGen (Preloader.Action allowed fetchable)

/-- The resources that the event appends to a catalog satisfy `allowed`. -/
def Event.Adds (allowed : List Resource → Prop) : Event → Prop
  | .create items sceneOrWeight =>
      ∀ l newResources, items = .arr l →
        Preloader.formatAll sceneOrWeight l = .ok newResources → allowed newResources
  | .add _ items sceneOrWeight =>
      ∀ l newResources, items = .arr l →
        Preloader.formatAll sceneOrWeight l = .ok newResources → allowed newResources
  | _ => True

/-- The positions that a `load` event selects are `fetchable` for its coordinator. -/
def Event.Fetches (fetchable : Nat → Nat → Prop) (w : World) : Event → Prop
  | .load c weightOrScene _ =>
      ∀ p filtered, w.loaders[c]? = some p →
        p.filteredResources weightOrScene = .ok filtered → ∀ i ∈ filtered, fetchable c i
  | _ => True

/-- The coordinators of `w'` are those of `w`, each advanced by atomic actions. -/
def World.Evolves (allowed : List Resource → Prop) (fetchable : Nat → Nat → Prop)
    (w w' : World) : Prop :=
  w'.loaders.length = w.loaders.length ∧
    ∀ (c : Nat) (p : Preloader), w.loaders[c]? = some p →
      ∃ p', w'.loaders[c]? = some p' ∧ Preloader.Reach allowed (fetchable c) p p'

/-- The specification's reading of what `add` appends: the normalized entries of the
accepted items, in input order (`none` marks a dropped item). -/
def Spec.accepted (normalized : List (Option Resource)) : List Resource :=
  normalized.filterMap id

/-- The membership list of a resource after the request `loadId` is unbound from it. -/
def Resource.unbind (loadId : Nat) (resource : Resource) : Resource :=
  { resource with loadEvents := resource.loadEvents.filter (fun id => id != loadId) }

/-- A coordinator whose request 1 waits on its only resource `a`, with a progress
function and the `resolve` function registered, at the moment `a` has become done. -/
def progressExample : Preloader :=
  { __resourceList := [⟨.str "a", .bool false, .bool false, .num 2, []⟩]
    __loadToResource := fun loadId => if loadId = 1 then some [0] else none
    __loadProgress := fun loadId => loadId == 1
    __loadEndPromise := fun loadId => loadId == 1
    __loadId := 1
    calls := [] }

/-- The coordinator `progressExample` after the notification step of request 1. -/
def progressExampleDone : Preloader :=
  match progressExample.__fileResourceProgress 1 with
  | .ok p => p
  | .error _ => progressExample

/-- Every recorded resource list holds positions of the catalog. -/
def Preloader.Valid (p : Preloader) : Prop :=
  ∀ loadId resourceList, p.__loadToResource loadId = some resourceList →
    ∀ i ∈ resourceList, i < p.__resourceList.length

/-- The membership list of a resource after the request `loadId` is bound to it. -/
def Resource.bind (loadId : Nat) (resource : Resource) : Resource :=
  { resource with loadEvents := resource.loadEvents ++ [loadId] }

/-- The page after `new Preloader(['a'])` and `load(f)`. -/
def addExampleBefore : World :=
  match World.run World.init
      [.create (.arr [.str "a"]) .undefined, .load 0 .undefined true] with
  | .ok w => w
  | .error _ => World.init

/-- The coordinator of `addExampleBefore`. -/
def addExampleLoader : Preloader :=
  match addExampleBefore.loaders with
  | p :: _ => p
  | [] => Preloader.fresh

/-- The page `addExampleBefore` after `add(['b'])`. -/
def addExampleAfter : World :=
  match addExampleBefore.step (.add 0 (.arr [.str "b"]) .undefined) with
  | .ok w => w
  | .error _ => World.init

/-- The registry and the images in flight agree: a done entry has no pending
callback, an identifier is in flight exactly when its entry exists and is not done,
and no identifier is in flight twice. -/
def World.PoolOk (resources : String → Option PoolEntry) (inflight : List String) : Prop :=
  (∀ src entry, resources src = some entry → entry.done = true → entry.eventList = []) ∧
  (∀ src, src ∈ inflight ↔ ∃ entry, resources src = some entry ∧ entry.done = false) ∧
  inflight.Nodup

/-- The fan-out scenario: clients register the callbacks `tags` for `src`, in this
order, and then the image of `src` loads. -/
def fanOutScenario (src : String) (tags : List Nat) : List Event :=
  tags.map (fun tag => Event.register src tag none) ++ [.imageLoaded src]

/-- The page after two clients have registered callbacks 1 and 2 for `x`. -/
def fanOutBefore : World :=
  match World.run World.init [.register "x" 1 none, .register "x" 2 none] with
  | .ok w => w
  | .error _ => World.init

/-- Every resource of `p` is still in place in `p'`, and its status is unchanged, or
has become 2 (done), or has gone from 0 (pending) to 1 (fetching) at a `fetchable`
position. -/
def Preloader.StatusStep (fetchable : Nat → Prop) (p p' : Preloader) : Prop :=
  ∀ (i : Nat) (r : Resource), p.__resourceList[i]? = some r →
    ∃ r', p'.__resourceList[i]? = some r' ∧
      (r'.status = r.status ∨ r'.status = .num 2 ∨
        (r.status = .num 0 ∧ r'.status = .num 1 ∧ fetchable i))

/-- The event is a `load` on coordinator `c` whose selection contains position `i`. -/
def Event.selects (w : World) (event : Event) (c i : Nat) : Prop :=
  match event with
  | .load c0 weightOrScene _ =>
      c0 = c ∧ ∃ p filtered, w.loaders[c]? = some p ∧
        p.filteredResources weightOrScene = .ok filtered ∧ i ∈ filtered
  | _ => False

/-- The page after `new Preloader(['a'])`. -/
def statusExampleBefore : World :=
  { World.init with loaders := [{ Preloader.fresh with __resourceList := [⟨.str "a", .bool false, .bool false, .num 0, []⟩] }] }

/-- The catalog items of the coercion example: `a` with an own weight `undefined`,
`b` with the weight `'10'` (a string), `c` with the weight 5. -/
def coercionExample : JSVal :=
  .arr [.obj [("src", .str "a"), ("weight", .undefined)],
        .obj [("src", .str "b"), ("weight", .str "10")],
        .obj [("src", .str "c"), ("weight", .num 5)]]

/-- The coordinator `new Preloader(coercionExample)`. -/
def coercionCatalog : Preloader :=
  { Preloader.fresh with __resourceList := [⟨.str "a", .undefined, .bool false, .num 0, []⟩, ⟨.str "b", .str "10", .bool false, .num 0, []⟩, ⟨.str "c", .num 5, .bool false, .num 0, []⟩] }

/-- The scenario of an own status: `new Preloader([{src: 'a', status: 2}])`, then
`load()`, then the deferred notification runs. -/
def ownStatusScenario : List Event :=
  [.create (.arr [.obj [("src", .str "a"), ("status", .num 2)]]) .undefined,
   .load 0 .undefined false, .timeout]

/-- The page in which two clients have registered for `x`: callback 1, which when
invoked registers for the identifier `toString` and so throws, and then callback 2. -/
def throwingBefore : World :=
  match World.run World.init [.register "x" 1 (some "toString"), .register "x" 2 none] with
  | .ok w => w
  | .error _ => World.init

/-- The load id that an invocation of a user function is about. -/
def Call.loadId : Call → Nat
  | .progress loadId _ _ => loadId
  | .resolve loadId _ => loadId

/-- The arguments `(numCompleted, numTotal)` of the successive invocations of the
progress function of request `loadId`, oldest first. -/
def progressPairs (calls : List Call) (loadId : Nat) : List (Nat × Nat) :=
  calls.filterMap (fun call =>
    match call with
    | .progress l loaded total => if l = loadId then some (loaded, total) else none
    | .resolve _ _ => none)

/-- The arguments of the successive invocations of the `resolve` function of request
`loadId`, oldest first. -/
def resolveValues (calls : List Call) (loadId : Nat) : List Nat :=
  calls.filterMap (fun call =>
    match call with
    | .progress _ _ _ => none
    | .resolve l loaded => if l = loadId then some loaded else none)

/-- The number of done resources among the positions `resourceList`: the value
`loadedNum` of `__fileResourceProgress`. -/
def Preloader.doneCount (p : Preloader) (resourceList : List Nat) : Nat :=
  (resourceList.filter (fun i => p.isDone i)).length

/-- The resources appended by an `add` all start with an empty membership list. -/
def plainResources (newResources : List Resource) : Prop :=
  ∀ r ∈ newResources, r.loadEvents = []

/-- No item of the event is a descriptor with an own `loadEvents` property. -/
def Event.NoOwnLoadEvents : Event → Prop
  | .create items _ => ∀ l, items = .arr l → ∀ item ∈ l, item.own "loadEvents" = none
  | .add _ items _ => ∀ l, items = .arr l → ∀ item ∈ l, item.own "loadEvents" = none
  | _ => True

/-- The invariant of a coordinator whose entries were all added with an empty
membership list: how the membership lists, the recorded resource lists, the stored
functions and the history of calls fit together. -/
structure Preloader.Inv (p : Preloader) : Prop where
  /-- No membership list holds an id twice. -/
  nodup : ∀ (i : Nat) (r : Resource), p.__resourceList[i]? = some r → r.loadEvents.Nodup
  /-- A request in the membership list of a resource has that resource in its list. -/
  member : ∀ (i : Nat) (r : Resource) (L : Nat), p.__resourceList[i]? = some r →
    L ∈ r.loadEvents → ∃ S, p.__loadToResource L = some S ∧ i ∈ S
  /-- Recorded requests have allocated ids. -/
  recorded : ∀ (L : Nat) (S : List Nat), p.__loadToResource L = some S → L ≤ p.__loadId
  /-- The functions stored belong to allocated ids. -/
  stored : ∀ L : Nat, p.__loadEndPromise L = true → L ≤ p.__loadId
  /-- Calls were made for allocated ids only. -/
  allocated : ∀ L : Nat, p.__loadId < L →
    progressPairs p.calls L = [] ∧ resolveValues p.calls L = []
  /-- While a request still has resources recorded, its `resolve` function has not
  been called and every progress report was below the total and at most the number
  of resources done by now. -/
  active : ∀ (L : Nat) (S : List Nat), p.__loadToResource L = some S → S ≠ [] →
    resolveValues p.calls L = [] ∧
    ∀ x ∈ progressPairs p.calls L, x.2 = S.length ∧ x.1 < S.length ∧ x.1 ≤ p.doneCount S
  /-- The numbers of completed resources reported for a request never decrease. -/
  sorted : ∀ L : Nat, ((progressPairs p.calls L).map Prod.fst).Pairwise (· ≤ ·)
  /-- The `resolve` function of a request is called at most once. -/
  once : ∀ L : Nat, (resolveValues p.calls L).length ≤ 1
  /-- All progress reports of a request carry the same total. -/
  total : ∀ (L : Nat), ∀ x ∈ progressPairs p.calls L, ∀ y ∈ progressPairs p.calls L,
    x.2 = y.2
  /-- Every progress report but the last is below the total. -/
  last : ∀ (L : Nat), ∀ x ∈ (progressPairs p.calls L).dropLast, x.1 < x.2

/-! ## Theorems -/

/-! ### Selection (C6, C7) -/

theorem Spec.selected_cons (test : Resource → Bool) (r : Resource) (rest : List Resource) :
    Spec.selected test (r :: rest) =
      (if test r then [0] else []) ++ (Spec.selected test rest).map (· + 1) := by
  unfold Spec.selected
  rw [List.length_cons, List.range_succ_eq_map, List.filter_cons, List.filter_map]
  simp only [List.getElem?_cons_zero]
  have : ((fun i => match (r :: rest)[i]? with | some r => test r | none => false) ∘ Nat.succ)
      = (fun i => match rest[i]? with | some r => test r | none => false) := by
    funext i; simp
  rw [this]
  split <;> simp

theorem Preloader.filterPositions_eq (f : Resource → Except JSError Bool)
    (test : Resource → Bool) (l : List Resource) (k : Nat)
    (h : ∀ r ∈ l, f r = .ok (test r)) :
    Preloader.filterPositions f l k = .ok ((Spec.selected test l).map (· + k)) := by
  induction l generalizing k with
  | nil => simp [Preloader.filterPositions, Spec.selected]
  | cons r rest ih =>
    have h1 := h r (List.mem_cons_self _ _)
    have h2 := ih (k + 1) (fun x hx => h x (List.mem_cons_of_mem _ hx))
    simp only [Preloader.filterPositions, h1, h2, Spec.selected_cons]
    by_cases ht : test r <;> simp [ht, Function.comp_def, Nat.add_comm, Nat.add_left_comm]

theorem JSVal.strictEq_false_iff (v : JSVal) : v.strictEq (.bool false) = true ↔ v = .bool false := by
  cases v <;> simp [JSVal.strictEq]

theorem JSVal.strictEq_str_iff (v : JSVal) (s : String) : v.strictEq (.str s) = true ↔ v = .str s := by
  cases v <;> simp [JSVal.strictEq]

theorem JSVal.strictEq_num_iff (v : JSVal) (n : Int) : v.strictEq (.num n) = true ↔ v = .num n := by
  cases v <;> simp [JSVal.strictEq]

theorem Preloader.weightTest_eq (n : Int) (r : Resource)
    (h : r.weight = .bool false ∨ ∃ m, r.weight = .num m) :
    Preloader.weightTest n r = .ok (Spec.weightSelects n r) := by
  rcases h with h | ⟨m, h⟩
  · simp [Preloader.weightTest, Spec.weightSelects, h, JSVal.strictEq]
  · simp [Preloader.weightTest, Spec.weightSelects, h, JSVal.strictEq, JSVal.ge, JSVal.toNumber]

theorem List.map_add_zero_nat (l : List Nat) : l.map (· + 0) = l := by simp

/-- C6 as amended: for every catalog whose weights are unset (`false`) or numbers and
every number `n`, the resources that `load(n)` selects are exactly the catalog entries
whose weight is unset or `>= n`, in catalog order. -/
theorem filterByWeight_selects (p : Preloader) (n : Int)
    (hw : ∀ r ∈ p.__resourceList, r.weight = .bool false ∨ ∃ m, r.weight = .num m) :
    p.filteredResources (.num n) =
      .ok (Spec.selected (Spec.weightSelects n) p.__resourceList) := by
  have h := Preloader.filterPositions_eq (Preloader.weightTest n) (Spec.weightSelects n)
    p.__resourceList 0 (fun r hr => Preloader.weightTest_eq n r (hw r hr))
  simpa [Preloader.filteredResources, Preloader.__filterByWeight] using h


theorem weightCatalog_weights :
    ∀ r ∈ weightCatalog.__resourceList, r.weight = .bool false ∨ ∃ m, r.weight = .num m := by
  intro r hr
  simp only [weightCatalog, List.mem_cons, List.mem_singleton, List.not_mem_nil, or_false] at hr
  rcases hr with rfl | rfl | rfl <;> simp

/-- Witness of the amended C6 on the catalog `[{a, weight 5}, {b, weight 10}, {c}]`: `load(7)`
selects `b` and `c`, `load(12)` selects `c` only. -/
theorem filterByWeight_selects_witness :
    Preloader.new weightExample .undefined = .ok weightCatalog ∧
    (∀ r ∈ weightCatalog.__resourceList, r.weight = .bool false ∨ ∃ m, r.weight = .num m) ∧
    weightCatalog.filteredResources (.num 7) = .ok [1, 2] ∧
    weightCatalog.filteredResources (.num 12) = .ok [2] :=
  ⟨rfl, weightCatalog_weights,
   (filterByWeight_selects weightCatalog 7 weightCatalog_weights).trans (by decide),
   (filterByWeight_selects weightCatalog 12 weightCatalog_weights).trans (by decide)⟩

theorem Preloader.sceneTest_eq (s : String) (r : Resource) :
    Preloader.sceneTest s r = .ok (Spec.sceneSelects s r) := by
  simp only [Preloader.sceneTest, Spec.sceneSelects]
  congr 1
  rw [Bool.eq_iff_iff]
  simp [JSVal.strictEq_false_iff, JSVal.strictEq_str_iff]

/-- C7: for every catalog and every string `s`, the resources that `load(s)` selects
are exactly the catalog entries whose scene is unset or equal to `s`, in catalog
order; `load()` without a selector selects the entire catalog; and on the catalog
`[{a, scene menu}, {b}, {c, scene game}]`, `load('menu')` selects `a` and `b`. -/
theorem filterByScene_selects (p : Preloader) (s : String) :
    p.filteredResources (.str s) =
        .ok (Spec.selected (Spec.sceneSelects s) p.__resourceList) ∧
    p.filteredResources .undefined = .ok (List.range p.__resourceList.length) ∧
    Preloader.new sceneExample .undefined = .ok sceneCatalog ∧
    sceneCatalog.filteredResources (.str "menu") = .ok [0, 1] := by
  refine ⟨?_, rfl, rfl, by decide⟩
  have h := Preloader.filterPositions_eq (Preloader.sceneTest s) (Spec.sceneSelects s)
    p.__resourceList 0 (fun r _ => Preloader.sceneTest_eq s r)
  simpa [Preloader.filteredResources, Preloader.__filterByScene] using h

/-! ### Normalization (C8, C9) -/

theorem Preloader.sharedSceneWeight_str (s : String) :
    Preloader.sharedSceneWeight (.str s) = (.str s, .bool false) := by
  simp [Preloader.sharedSceneWeight, Preloader.sharedIsObject, JSVal.own, JSVal.typeof]

theorem Preloader.sharedSceneWeight_num (n : Int) :
    Preloader.sharedSceneWeight (.num n) = (.bool false, .num n) := by
  simp [Preloader.sharedSceneWeight, Preloader.sharedIsObject, JSVal.own, JSVal.typeof]

theorem Preloader.sharedSceneWeight_undefined :
    Preloader.sharedSceneWeight .undefined = (.bool false, .bool false) := by
  simp [Preloader.sharedSceneWeight, Preloader.sharedIsObject, JSVal.own, JSVal.typeof,
    JSVal.truthy]

theorem Preloader.formatResource_str (x : String) (sceneOrWeight : JSVal) :
    Preloader.__formatResource (.str x) sceneOrWeight =
      .ok (some ⟨.str x, (Preloader.sharedSceneWeight sceneOrWeight).2,
        (Preloader.sharedSceneWeight sceneOrWeight).1, .num 0, []⟩) := by
  simp [Preloader.__formatResource, JSVal.typeof, assignDefaults, List.lookup, Except.map]

/-- C8: when the shared argument of `add` is the object `{scene: s, weight: w}`, the
entry normalized from a bare string item gets neither: its scene and its weight stay
unset, because `__formatResource` compares the property `toString` itself (a
function) with `'[object Object]'`. After `new Preloader(['a'], {scene: 'menu',
weight: 5})` the entry for `a` is selected by `load('game')` and by `load(7)`. -/
theorem formatResource_object_argument (x : String) (s w : JSVal) :
    Preloader.__formatResource (.str x) (.obj [("scene", s), ("weight", w)]) =
        .ok (some ⟨.str x, .bool false, .bool false, .num 0, []⟩) ∧
    (Preloader.new (.arr [.str "a"])
        (.obj [("scene", .str "menu"), ("weight", .num 5)])).map (·.__resourceList) =
      .ok [⟨.str "a", .bool false, .bool false, .num 0, []⟩] ∧
    (Preloader.new (.arr [.str "a"]) (.obj [("scene", .str "menu"), ("weight", .num 5)])).bind
        (fun p => p.filteredResources (.str "game")) = .ok [0] ∧
    (Preloader.new (.arr [.str "a"]) (.obj [("scene", .str "menu"), ("weight", .num 5)])).bind
        (fun p => p.filteredResources (.num 7)) = .ok [0] := by
  refine ⟨?_, by decide, by decide, by decide⟩
  rw [Preloader.formatResource_str]
  simp [Preloader.sharedSceneWeight, Preloader.sharedIsObject, JSVal.own, JSVal.typeof,
    List.lookup]

theorem Preloader.add_single_str (p : Preloader) (x : String) (sceneOrWeight : JSVal) :
    p.add (.arr [.str x]) sceneOrWeight =
      .ok { p with __resourceList := p.__resourceList ++
              [⟨.str x, (Preloader.sharedSceneWeight sceneOrWeight).2,
                (Preloader.sharedSceneWeight sceneOrWeight).1, .num 0, []⟩] } := by
  simp [Preloader.add, JSVal.truthy, Preloader.formatAll, Preloader.formatResource_str]

theorem assignDefaults_own (weight scene : JSVal) (fields : List (String × JSVal))
    (r : Resource) (h : assignDefaults weight scene fields = .ok r) :
    r.src = (fields.lookup "src").getD (.str "") ∧
    r.weight = (fields.lookup "weight").getD weight ∧
    r.scene = (fields.lookup "scene").getD scene ∧
    r.status = (fields.lookup "status").getD (.num 0) ∧
    (match fields.lookup "loadEvents" with
     | none => r.loadEvents = []
     | some v => decodeLoadEvents v = .ok r.loadEvents) := by
  unfold assignDefaults at h
  cases hl : fields.lookup "loadEvents" with
  | none =>
    simp only [hl, Except.ok.injEq] at h
    subst h
    simp
  | some v =>
    simp only [hl] at h
    cases hd : decodeLoadEvents v with
    | error e => simp [hd] at h
    | ok ids =>
      simp only [hd, Except.ok.injEq] at h
      subst h
      simp [hd]

theorem Preloader.formatResource_obj (fields : List (String × JSVal)) (sceneOrWeight : JSVal)
    (r : Resource) (h : Preloader.__formatResource (.obj fields) sceneOrWeight = .ok (some r)) :
    assignDefaults (Preloader.sharedSceneWeight sceneOrWeight).2
      (Preloader.sharedSceneWeight sceneOrWeight).1 fields = .ok r := by
  simp only [Preloader.__formatResource, JSVal.typeof] at h
  rw [if_neg (by decide)] at h
  cases hs : (JSVal.obj fields).callToString with
  | error e => rw [hs] at h; simp at h
  | ok s =>
    rw [hs] at h
    simp only at h
    split at h
    · cases ha : assignDefaults (Preloader.sharedSceneWeight sceneOrWeight).2
          (Preloader.sharedSceneWeight sceneOrWeight).1 fields with
      | error e => rw [ha] at h; simp [Except.map] at h
      | ok r' => rw [ha] at h; simp [Except.map] at h; rw [h]
    · simp at h

/-- C9: for every bare string item `x`, `add([x], s)` with a string `s` appends the
entry with identifier `x`, scene `s` and weight unset; `add([x], n)` with a number
`n` (zero included) appends identifier `x`, weight `n` and scene unset; `add([x])`
appends the entry with both unset; and the entry normalized from a descriptor object
stores the descriptor's own weight and own scene whatever the shared argument is. -/
theorem add_scalar_argument (p : Preloader) (x s : String) (n : Int) :
    p.add (.arr [.str x]) (.str s) =
      .ok { p with __resourceList :=
              p.__resourceList ++ [⟨.str x, .bool false, .str s, .num 0, []⟩] } ∧
    p.add (.arr [.str x]) (.num n) =
      .ok { p with __resourceList :=
              p.__resourceList ++ [⟨.str x, .num n, .bool false, .num 0, []⟩] } ∧
    p.add (.arr [.str x]) .undefined =
      .ok { p with __resourceList :=
              p.__resourceList ++ [⟨.str x, .bool false, .bool false, .num 0, []⟩] } ∧
    ∀ (fields : List (String × JSVal)) (sceneOrWeight : JSVal) (r : Resource),
      Preloader.__formatResource (.obj fields) sceneOrWeight = .ok (some r) →
        (∀ v, fields.lookup "weight" = some v → r.weight = v) ∧
        (∀ v, fields.lookup "scene" = some v → r.scene = v) := by
  refine ⟨?_, ?_, ?_, ?_⟩
  · rw [Preloader.add_single_str, Preloader.sharedSceneWeight_str]
  · rw [Preloader.add_single_str, Preloader.sharedSceneWeight_num]
  · rw [Preloader.add_single_str, Preloader.sharedSceneWeight_undefined]
  · intro fields sceneOrWeight r h
    have h' := assignDefaults_own _ _ _ _ (Preloader.formatResource_obj fields sceneOrWeight r h)
    refine ⟨fun v hv => ?_, fun v hv => ?_⟩
    · rw [h'.2.1, hv]; rfl
    · rw [h'.2.2.1, hv]; rfl

/-- Witness of C9: the descriptor `{src: 'a', weight: 3, scene: 'game'}` added with
the shared argument `'menu'` keeps its own weight 3 and its own scene `game`. -/
theorem add_scalar_argument_witness :
    Preloader.__formatResource
        (.obj [("src", .str "a"), ("weight", .num 3), ("scene", .str "game")]) (.str "menu") =
      .ok (some ⟨.str "a", .num 3, .str "game", .num 0, []⟩) ∧
    (⟨.str "a", .num 3, .str "game", .num 0, []⟩ : Resource).weight = .num 3 ∧
    (⟨.str "a", .num 3, .str "game", .num 0, []⟩ : Resource).scene = .str "game" :=
  ⟨by decide,
   ((add_scalar_argument weightCatalog "x" "menu" 0).2.2.2
      [("src", .str "a"), ("weight", .num 3), ("scene", .str "game")] (.str "menu") _
      (by decide)).1 (.num 3) (by decide),
   ((add_scalar_argument weightCatalog "x" "menu" 0).2.2.2
      [("src", .str "a"), ("weight", .num 3), ("scene", .str "game")] (.str "menu") _
      (by decide)).2 (.str "game") (by decide)⟩


theorem Preloader.formatResource_some_cases (item sceneOrWeight : JSVal) (r : Resource)
    (h : Preloader.__formatResource item sceneOrWeight = .ok (some r)) :
    (∃ x, item = .str x) ∨ (∃ fields, item = .obj fields) := by
  cases item with
  | str x => exact Or.inl ⟨x, rfl⟩
  | obj fields => exact Or.inr ⟨fields, rfl⟩
  | undefined => simp [Preloader.__formatResource, JSVal.typeof, JSVal.callToString] at h
  | null => simp [Preloader.__formatResource, JSVal.typeof, JSVal.callToString] at h
  | bool b =>
    simp only [Preloader.__formatResource, JSVal.typeof, JSVal.callToString] at h
    rw [if_neg (by decide)] at h
    simp [JSVal.get, JSVal.own, JSVal.truthy] at h
  | num n =>
    simp only [Preloader.__formatResource, JSVal.typeof, JSVal.callToString] at h
    rw [if_neg (by decide)] at h
    simp [JSVal.get, JSVal.own, JSVal.truthy] at h
  | arr items =>
    simp only [Preloader.__formatResource, JSVal.typeof] at h
    rw [if_neg (by decide)] at h
    cases hs : (JSVal.arr items).callToString with
    | error e => rw [hs] at h; simp at h
    | ok s => rw [hs] at h; simp [JSVal.get, JSVal.own, JSVal.truthy] at h

theorem Preloader.formatResource_initial (item sceneOrWeight : JSVal) (r : Resource)
    (h : Preloader.__formatResource item sceneOrWeight = .ok (some r)) :
    (match item.own "status" with
     | none => r.status = .num 0
     | some v => r.status = v) ∧
    (match item.own "loadEvents" with
     | none => r.loadEvents = []
     | some v => decodeLoadEvents v = .ok r.loadEvents) := by
  rcases Preloader.formatResource_some_cases item sceneOrWeight r h with ⟨x, rfl⟩ | ⟨fields, rfl⟩
  · rw [Preloader.formatResource_str] at h
    simp only [Except.ok.injEq, Option.some.injEq] at h
    subst h
    simp [JSVal.own]
  · have h' := assignDefaults_own _ _ _ _ (Preloader.formatResource_obj fields sceneOrWeight r h)
    refine ⟨?_, h'.2.2.2.2⟩
    simp only [JSVal.own]
    rw [h'.2.2.2.1]
    cases fields.lookup "status" <;> simp

theorem Preloader.formatAll_mem (sceneOrWeight : JSVal) (items : List JSVal)
    (newResources : List Resource)
    (h : Preloader.formatAll sceneOrWeight items = .ok newResources) :
    ∀ r ∈ newResources, ∃ item ∈ items,
      Preloader.__formatResource item sceneOrWeight = .ok (some r) := by
  induction items generalizing newResources with
  | nil =>
    simp only [Preloader.formatAll, Except.ok.injEq] at h
    subst h
    simp
  | cons item rest ih =>
    simp only [Preloader.formatAll] at h
    cases hf : Preloader.__formatResource item sceneOrWeight with
    | error e => simp [hf] at h
    | ok o =>
      cases hr : Preloader.formatAll sceneOrWeight rest with
      | error e => simp [hf, hr] at h
      | ok rs =>
        simp only [hf, hr, Except.ok.injEq] at h
        subst h
        intro r hr'
        rw [List.mem_append] at hr'
        rcases hr' with hr' | hr'
        · cases o with
          | none => simp at hr'
          | some r0 =>
            simp only [Option.toList, List.mem_singleton] at hr'
            subst hr'
            exact ⟨item, List.mem_cons_self _ _, hf⟩
        · obtain ⟨it, hit, hfit⟩ := ih rs hr r hr'
          exact ⟨it, List.mem_cons_of_mem _ hit, hfit⟩

theorem Preloader.add_arr (p p' : Preloader) (items : List JSVal) (sceneOrWeight : JSVal)
    (h : p.add (.arr items) sceneOrWeight = .ok p') :
    ∃ newResources, Preloader.formatAll sceneOrWeight items = .ok newResources ∧
      p' = { p with __resourceList := p.__resourceList ++ newResources } := by
  simp only [Preloader.add, JSVal.truthy, if_true] at h
  cases hf : Preloader.formatAll sceneOrWeight items with
  | error e => simp [hf] at h
  | ok newResources =>
    simp only [hf, Except.ok.injEq] at h
    exact ⟨newResources, rfl, h.symm⟩

/-! ### Completion of a request (C1, C3) -/

/-- C1 fails on the code: in the replay scenario the second coordinator's resource
is done, no timer and no fetch is pending, and the `resolve` function of its request
1 was never invoked (its history of calls is empty); in the duplicate scenario
request 2 selects both entries for `a`, both are done and nothing is pending, its
progress function reported `(2, 2)`, and its `resolve` function was never invoked. -/
theorem load_replayed_in_load_never_resolves :
    (World.run World.init replayScenario).map World.summary =
      .ok ([([.num 2], [.resolve 1 1]), ([.num 2], [])], [], [], [.fetch "x"]) ∧
    (World.run World.init duplicateScenario).map World.summary =
      .ok ([([.num 2, .num 2], [.resolve 1 1, .progress 2 2 2])], [], [], [.fetch "a"]) :=
  ⟨rfl, rfl⟩

/-- C3 fails on the code: after `new Preloader(['a'], 'menu')` the call
`load('nonexistent-scene', f)` selects nothing, and when it returns no user function
has been invoked, no timer is pending and no fetch is in flight, so nothing will
ever resolve the promise; the same holds for `load(7, f)` after
`new Preloader(['a'], 5)`. -/
theorem load_without_match_never_resolves :
    (World.run World.init
        [.create (.arr [.str "a"]) (.str "menu"),
         .load 0 (.str "nonexistent-scene") true]).map
      (fun w => (w.loaders.map (fun p => p.__loadToResource 1), w.summary)) =
      .ok ([some []], [([.num 0], [])], [], [], []) ∧
    (World.run World.init
        [.create (.arr [.str "a"]) (.num 5), .load 0 (.num 7) true]).map
      (fun w => (w.loaders.map (fun p => p.__loadToResource 1), w.summary)) =
      .ok ([some []], [([.num 0], [])], [], [], []) :=
  ⟨rfl, rfl⟩

/-! ### One fetch per identifier (C5) -/

theorem forEachM_invariant {σ α : Type} (P : σ → Prop) (f : σ → α → Except JSError σ)
    (hf : ∀ s a s', P s → f s a = .ok s' → P s') :
    ∀ (l : List α) (s s' : σ), P s → forEachM f s l = .ok s' → P s' := by
  intro l
  induction l with
  | nil =>
    intro s s' hs h
    simp only [forEachM, Except.ok.injEq] at h
    exact h ▸ hs
  | cons a rest ih =>
    intro s s' hs h
    simp only [forEachM] at h
    cases hfa : f s a with
    | error e => simp [hfa] at h
    | ok s1 =>
      simp only [hfa] at h
      exact ih s1 s' (hf s a s1 hs hfa) h

theorem World.FetchOnce.of_eq {w w' : World} (h : w.FetchOnce)
    (hr : w'.resources = w.resources) (hl : w'.log = w.log) : w'.FetchOnce := by
  intro src
  rw [hr, hl]
  exact h src

theorem World.FetchOnce.called {w w' : World} (h : w.FetchOnce) (tag : Nat)
    (hr : w'.resources = w.resources) (hl : w'.log = w.log ++ [Obs.called tag]) :
    w'.FetchOnce := by
  intro src
  rw [hr, hl]
  simpa [List.count_append, List.count_cons] using h src

theorem World.FetchOnce.created {w w' : World} (h : w.FetchOnce) (src : String)
    (entry : PoolEntry) (hn : w.resources src = none)
    (hr : w'.resources = Function.update w.resources src (some entry))
    (hl : w'.log = w.log ++ [Obs.fetch src]) : w'.FetchOnce := by
  intro s
  rw [hr, hl]
  by_cases hs : s = src
  · subst hs
    have := (h s).2 hn
    simp [List.count_append, this]
  · have hne : (Obs.fetch src == Obs.fetch s) = false := by
      simp only [beq_eq_false_iff_ne, ne_eq, Obs.fetch.injEq]
      exact fun e => hs e.symm
    simpa [List.count_append, List.count_cons, Function.update_noteq hs, hne] using h s

theorem World.FetchOnce.updated {w w' : World} (h : w.FetchOnce) (src : String)
    (entry0 entry : PoolEntry) (hn : w.resources src = some entry0)
    (hr : w'.resources = Function.update w.resources src (some entry))
    (hl : w'.log = w.log) : w'.FetchOnce := by
  intro s
  rw [hr, hl]
  refine ⟨(h s).1, fun hnone => ?_⟩
  by_cases hs : s = src
  · subst hs
    simp at hnone
  · rw [Function.update_noteq hs] at hnone
    exact (h s).2 hnone

theorem World.invoke_fetchOnce (w w' : World) (callback : Callback) (h : w.FetchOnce)
    (hi : w.invoke callback = .ok w') : w'.FetchOnce := by
  cases callback with
  | onload c i =>
    simp only [World.invoke] at hi
    cases hp : w.loaders[c]? with
    | none => simp [hp] at hi
    | some p =>
      simp only [hp] at hi
      cases ho : p.onload i with
      | error e => simp [ho] at hi
      | ok p' =>
        simp only [ho, Except.ok.injEq] at hi
        subst hi
        exact h.of_eq rfl rfl
  | client tag again =>
    have h1 : World.FetchOnce { w with log := w.log ++ [Obs.called tag] } :=
      h.called tag rfl rfl
    cases again with
    | none =>
      simp only [World.invoke, Except.ok.injEq] at hi
      subst hi
      exact h1
    | some src =>
      simp only [World.invoke, ResourcePool.register] at hi
      cases hr : w.resources src with
      | none =>
        by_cases hk : src ∈ ResourcePool.inheritedKeys
        · simp [hr, hk] at hi
        · simp only [hr, hk, if_false, Except.ok.injEq] at hi
          subst hi
          exact h1.created src _ hr rfl rfl
      | some entry =>
        simp only [hr] at hi
        by_cases hd : entry.done
        · simp only [hd, Bool.not_true, Bool.false_eq_true, if_false, Except.ok.injEq] at hi
          subst hi
          exact h1.called tag rfl rfl
        · simp only [hd, Bool.not_false, if_true, Except.ok.injEq] at hi
          subst hi
          exact h1.updated src entry _ hr rfl rfl

theorem World.register_fetchOnce (w w' : World) (src : String) (callback : Callback)
    (h : w.FetchOnce) (hi : w.register src callback = .ok w') : w'.FetchOnce := by
  simp only [World.register, ResourcePool.register] at hi
  cases hr : w.resources src with
  | none =>
    by_cases hk : src ∈ ResourcePool.inheritedKeys
    · simp [hr, hk] at hi
    · simp only [hr, hk, if_false, Except.ok.injEq] at hi
      subst hi
      exact h.created src _ hr rfl rfl
  | some entry =>
    simp only [hr] at hi
    by_cases hd : entry.done
    · simp only [hd, Bool.not_true, Bool.false_eq_true, if_false] at hi
      exact World.invoke_fetchOnce w w' callback h hi
    · simp only [hd, Bool.not_false, if_true, Except.ok.injEq] at hi
      subst hi
      exact h.updated src entry _ hr rfl rfl

theorem World.fireOne_fetchOnce (c : Nat) (w : World) (i : Nat) (w' : World)
    (h : w.FetchOnce) (hi : World.fireOne c w i = .ok w') : w'.FetchOnce := by
  simp only [World.fireOne] at hi
  cases hp : w.loaders[c]? with
  | none => simp [hp] at hi
  | some p =>
    simp only [hp] at hi
    cases hres : p.__resourceList[i]? with
    | none => simp [hres] at hi
    | some resource =>
      simp only [hres] at hi
      split at hi
      · cases hk : World.propertyKey resource.src with
        | error e => simp [hk] at hi
        | ok src =>
          simp only [hk] at hi
          refine World.register_fetchOnce _ w' src _ ?_ hi
          exact h.of_eq rfl rfl
      · split at hi
        · simp only [Except.ok.injEq] at hi
          subst hi
          exact h.of_eq rfl rfl
        · simp only [Except.ok.injEq] at hi
          subst hi
          exact h

theorem World.load_fetchOnce (w w' : World) (c : Nat) (weightOrScene : JSVal)
    (onProgress : Bool) (h : w.FetchOnce)
    (hi : w.load c weightOrScene onProgress = .ok w') : w'.FetchOnce := by
  simp only [World.load] at hi
  cases hp : w.loaders[c]? with
  | none => simp [hp] at hi
  | some p =>
    simp only [hp] at hi
    cases hf : p.filteredResources weightOrScene with
    | error e => simp [hf] at hi
    | ok filtered =>
      simp only [hf, World.__fire] at hi
      split at hi
      · simp at hi
      · rename_i w1 hw1
        simp only [Except.ok.injEq] at hi
        subst hi
        have : w1.FetchOnce := by
          refine forEachM_invariant World.FetchOnce (World.fireOne c)
            (fun s a s' hs hsa => World.fireOne_fetchOnce c s a s' hs hsa) filtered _ w1 ?_ hw1
          exact h.of_eq rfl rfl
        exact this.of_eq rfl rfl

theorem World.step_fetchOnce (w w' : World) (event : Event) (h : w.FetchOnce)
    (hi : w.step event = .ok w') : w'.FetchOnce := by
  cases event with
  | create items sceneOrWeight =>
    simp only [World.step] at hi
    cases hn : Preloader.new items sceneOrWeight with
    | error e => simp [hn] at hi
    | ok p =>
      simp only [hn, Except.ok.injEq] at hi
      subst hi
      exact h.of_eq rfl rfl
  | add c items sceneOrWeight =>
    simp only [World.step] at hi
    cases hp : w.loaders[c]? with
    | none => simp [hp] at hi
    | some p =>
      simp only [hp] at hi
      cases ha : p.add items sceneOrWeight with
      | error e => simp [ha] at hi
      | ok p' =>
        simp only [ha, Except.ok.injEq] at hi
        subst hi
        exact h.of_eq rfl rfl
  | load c weightOrScene onProgress =>
    exact World.load_fetchOnce w w' c weightOrScene onProgress h hi
  | register src tag again =>
    exact World.register_fetchOnce w w' src _ h hi
  | imageLoaded src =>
    simp only [World.step] at hi
    split at hi
    · simp only [ResourcePool.onImageLoad] at hi
      cases hr : w.resources src with
      | none => simp [hr] at hi
      | some entry =>
        simp only [hr] at hi
        refine forEachM_invariant World.FetchOnce World.invoke
          (fun s a s' hs hsa => World.invoke_fetchOnce s s' a hs hsa) _ _ w' ?_ hi
        exact h.updated src entry _ hr rfl rfl
    · simp at hi
  | timeout =>
    simp only [World.step] at hi
    cases ht : w.timers with
    | nil => simp [ht] at hi
    | cons callback rest =>
      simp only [ht] at hi
      refine World.invoke_fetchOnce _ w' callback ?_ hi
      exact h.of_eq rfl rfl

theorem World.init_fetchOnce : World.init.FetchOnce := by
  intro src
  simp [World.init]

theorem overlapScenario_log (x : String) (hx : x ∉ ResourcePool.inheritedKeys) :
    (World.run World.init (overlapScenario x)).map (fun w => w.log) = .ok [Obs.fetch x] := by
  simp [hx, overlapScenario, World.run, forEachM, World.step, Preloader.new, Preloader.add,
    JSVal.truthy,
    Preloader.formatAll, Preloader.formatResource_str, Preloader.sharedSceneWeight_undefined,
    World.init, World.load, Preloader.filteredResources, Preloader.__registerLoad,
    World.__fire, World.fireOne, Preloader.modify, JSVal.strictEq, World.propertyKey,
    JSVal.callToString, World.register, ResourcePool.register, Except.map, List.range_succ,
    ResourcePool.onImageLoad, World.invoke, Preloader.onload, Preloader.__fileResourceProgress,
    Preloader.__unregisterLoad, Preloader.isDone, Preloader.__registerEndPromise,
    Preloader.fresh, Function.update]

theorem World.run_fetchOnce (events : List Event) (w : World)
    (h : World.run World.init events = .ok w) : w.FetchOnce :=
  forEachM_invariant World.FetchOnce World.step
    (fun s a s' hs hsa => World.step_fetchOnce s s' a hs hsa) events World.init w
    World.init_fetchOnce h

/-- The part of C5 that holds: over any sequence of events (coordinators created,
`add` and `load` calls on any of them, direct `register` calls on the registry, image
completions, timers) that runs from the initial page, the fetch of each identifier
`src` is started at most once; and when `src` is not a name that the table inherits
and is added once and selected by two overlapping `load()` calls, the fetches started
are exactly one fetch of `src`. -/
theorem fetch_started_at_most_once (events : List Event) (w : World)
    (h : World.run World.init events = .ok w) (src : String) :
    w.log.count (Obs.fetch src) ≤ 1 ∧
    (src ∉ ResourcePool.inheritedKeys →
      (World.run World.init (overlapScenario src)).map (fun w => w.log) =
        .ok [Obs.fetch src]) :=
  ⟨(World.run_fetchOnce events w h src).1, overlapScenario_log src⟩

/-- An instance: the replay scenario, in which two coordinators load the same
identifier `x`, runs, and `x` is fetched once. -/
theorem fetch_started_at_most_once_witness :
    World.run World.init replayScenario = .ok replayEnd ∧
    replayEnd.log = [Obs.fetch "x"] ∧
    replayEnd.log.count (Obs.fetch "x") ≤ 1 :=
  ⟨rfl, rfl, (fetch_started_at_most_once replayScenario replayEnd rfl "x").1⟩


/-! ### Events as sequences of atomic coordinator actions -/

theorem Preloader.foldl_modify_fields (f : Resource → Resource) (l : List Nat) (p : Preloader) :
    (l.foldl (fun q i => q.modify i f) p).__loadToResource = p.__loadToResource ∧
    (l.foldl (fun q i => q.modify i f) p).__loadProgress = p.__loadProgress ∧
    (l.foldl (fun q i => q.modify i f) p).__loadEndPromise = p.__loadEndPromise ∧
    (l.foldl (fun q i => q.modify i f) p).__loadId = p.__loadId ∧
    (l.foldl (fun q i => q.modify i f) p).calls = p.calls ∧
    (l.foldl (fun q i => q.modify i f) p).__resourceList.length = p.__resourceList.length := by
  induction l generalizing p with
  | nil => simp
  | cons a rest ih =>
    simp only [List.foldl_cons]
    have := ih (p.modify a f)
    simpa [Preloader.modify] using this

theorem Preloader.foldl_modify_getElem? (f : Resource → Resource) (l : List Nat)
    (p : Preloader) (j : Nat) :
    (l.foldl (fun q i => q.modify i f) p).__resourceList[j]? =
      (p.__resourceList[j]?).map (f^[l.count j]) := by
  induction l generalizing p with
  | nil => simp
  | cons a rest ih =>
    simp only [List.foldl_cons]
    rw [ih (p.modify a f)]
    simp only [Preloader.modify, List.getElem?_modify, List.count_cons]
    cases hj : p.__resourceList[j]? with
    | none => simp
    | some r =>
      by_cases ha : a = j
      · subst ha
        simp [Function.iterate_succ_apply]
      · have : (a == j) = false := by simpa using ha
        simp [ha, this]

theorem Preloader.unregisterLoad_loadId (p p' : Preloader) (loadId : Nat)
    (h : p.__unregisterLoad loadId = .ok p') : p'.__loadId = p.__loadId := by
  simp only [Preloader.__unregisterLoad] at h
  cases hl : p.__loadToResource loadId with
  | none => simp [hl] at h
  | some resourceList =>
    simp only [hl, Except.ok.injEq] at h
    subst h
    exact (Preloader.foldl_modify_fields _ _ _).2.2.2.1

theorem Preloader.fileResourceProgress_loadId (p p' : Preloader) (loadId : Nat)
    (h : p.__fileResourceProgress loadId = .ok p') : p'.__loadId = p.__loadId := by
  simp only [Preloader.__fileResourceProgress] at h
  cases hl : p.__loadToResource loadId with
  | none => simp [hl] at h
  | some resourceList =>
    simp only [hl] at h
    split at h
    · split at h
      · simp at h
      · rename_i p2 hu
        have h2 := Preloader.unregisterLoad_loadId _ _ _ hu
        split at h
        · simp only [Except.ok.injEq] at h
          subst h
          simp only [h2]
          split <;> rfl
        · simp only [Except.ok.injEq] at h
          subst h
          simp only [h2]
          split <;> rfl
    · simp only [Except.ok.injEq] at h
      subst h
      split <;> rfl

theorem Preloader.onload_loadId (p p' : Preloader) (i : Nat) (h : p.onload i = .ok p') :
    p'.__loadId = p.__loadId := by
  simp only [Preloader.onload] at h
  refine forEachM_invariant (fun q : Preloader => q.__loadId = p.__loadId)
    Preloader.__fileResourceProgress
    (fun s a s' hs hsa => (Preloader.fileResourceProgress_loadId s s' a hsa).trans hs)
    _ _ p' ?_ h
  rfl

theorem Preloader.Action.loadId_le {allowed : List Resource → Prop} {fetchable : Nat → Prop}
    {p p' : Preloader}
    (h : Preloader.Action allowed fetchable p p') : p.__loadId ≤ p'.__loadId := by
  cases h with
  | add => exact Nat.le_refl _
  | registered weightOrScene filtered onProgress hf =>
    simp only [Preloader.registered]
    split
    · simp only [Preloader.__registerProgress, Preloader.__registerLoad]
      rw [(Preloader.foldl_modify_fields _ _ _).2.2.2.1]
      exact Nat.le_succ _
    · simp only [Preloader.__registerLoad]
      rw [(Preloader.foldl_modify_fields _ _ _).2.2.2.1]
      exact Nat.le_succ _
  | fetching => exact Nat.le_refl _
  | onload i _ h => exact Nat.le_of_eq (Preloader.onload_loadId _ _ i h).symm
  | endPromise => exact Nat.le_refl _

theorem Preloader.Reach.loadId_mono {allowed : List Resource → Prop} {fetchable : Nat → Prop}
    {p p' : Preloader}
    (h : Preloader.Reach allowed fetchable p p') : p.__loadId ≤ p'.__loadId := by
  induction h with
  | refl => exact Nat.le_refl _
  | tail _ hbc ih => exact Nat.le_trans ih hbc.loadId_le

theorem List.getElem?_set_of_some {α : Type} {l : List α} {i : Nat} {a b : α}
    (h : l[i]? = some b) : (l.set i a)[i]? = some a := by
  rw [List.getElem?_set_self', h]
  rfl

theorem World.Evolves.refl (allowed : List Resource → Prop)
    (fetchable : Nat → Nat → Prop) (w : World) : World.Evolves allowed fetchable w w :=
  ⟨rfl, fun _ p hp => ⟨p, hp, Relation.ReflTransGen.refl⟩⟩

theorem World.Evolves.trans {allowed : List Resource → Prop}
    {fetchable : Nat → Nat → Prop} {w1 w2 w3 : World}
    (h12 : World.Evolves allowed fetchable w1 w2) (h23 : World.Evolves allowed fetchable w2 w3) :
    World.Evolves allowed fetchable w1 w3 := by
  refine ⟨h23.1.trans h12.1, fun c p hp => ?_⟩
  obtain ⟨p2, hp2, r12⟩ := h12.2 c p hp
  obtain ⟨p3, hp3, r23⟩ := h23.2 c p2 hp2
  exact ⟨p3, hp3, Relation.ReflTransGen.trans r12 r23⟩

theorem World.Evolves.of_loaders {allowed : List Resource → Prop}
    {fetchable : Nat → Nat → Prop} {w w' : World}
    (h : w'.loaders = w.loaders) : World.Evolves allowed fetchable w w' := by
  refine ⟨by rw [h], fun c p hp => ⟨p, by rw [h]; exact hp, Relation.ReflTransGen.refl⟩⟩

theorem World.Evolves.set {allowed : List Resource → Prop}
    {fetchable : Nat → Nat → Prop} {w w' : World} (c : Nat)
    (p p' : Preloader) (hp : w.loaders[c]? = some p)
    (hr : Preloader.Reach allowed (fetchable c) p p')
    (h : w'.loaders = w.loaders.set c p') : World.Evolves allowed fetchable w w' := by
  refine ⟨by rw [h, List.length_set], fun c0 p0 hp0 => ?_⟩
  by_cases hc : c = c0
  · subst hc
    rw [hp] at hp0
    cases hp0
    refine ⟨p', ?_, hr⟩
    rw [h]
    exact List.getElem?_set_of_some hp
  · refine ⟨p0, ?_, Relation.ReflTransGen.refl⟩
    rw [h, List.getElem?_set_ne hc]
    exact hp0

theorem World.invoke_evolves (allowed : List Resource → Prop)
    (fetchable : Nat → Nat → Prop) (w w' : World)
    (callback : Callback) (hi : w.invoke callback = .ok w') :
    World.Evolves allowed fetchable w w' := by
  cases callback with
  | onload c i =>
    simp only [World.invoke] at hi
    cases hp : w.loaders[c]? with
    | none => simp [hp] at hi
    | some p =>
      simp only [hp] at hi
      cases ho : p.onload i with
      | error e => simp [ho] at hi
      | ok p' =>
        simp only [ho, Except.ok.injEq] at hi
        subst hi
        exact World.Evolves.set c p p' hp
          (Relation.ReflTransGen.single (Preloader.Action.onload p i p' ho)) rfl
  | client tag again =>
    cases again with
    | none =>
      simp only [World.invoke, Except.ok.injEq] at hi
      subst hi
      exact World.Evolves.of_loaders rfl
    | some src =>
      simp only [World.invoke] at hi
      split at hi
      · simp at hi
      all_goals
        (simp only [Except.ok.injEq] at hi; subst hi; exact World.Evolves.of_loaders rfl)

theorem World.register_evolves (allowed : List Resource → Prop)
    (fetchable : Nat → Nat → Prop) (w w' : World) (src : String)
    (callback : Callback) (hi : w.register src callback = .ok w') :
    World.Evolves allowed fetchable w w' := by
  simp only [World.register] at hi
  split at hi
  · simp at hi
  · simp only [Except.ok.injEq] at hi
    subst hi
    exact World.Evolves.of_loaders rfl
  · simp only [Except.ok.injEq] at hi
    subst hi
    exact World.Evolves.of_loaders rfl
  · exact World.invoke_evolves allowed fetchable w w' callback hi

theorem World.fireOne_evolves (allowed : List Resource → Prop)
    (fetchable : Nat → Nat → Prop) (c : Nat) (w : World) (i : Nat)
    (w' : World) (hF : fetchable c i) (hi : World.fireOne c w i = .ok w') :
    World.Evolves allowed fetchable w w' := by
  simp only [World.fireOne] at hi
  cases hp : w.loaders[c]? with
  | none => simp [hp] at hi
  | some p =>
    simp only [hp] at hi
    cases hres : p.__resourceList[i]? with
    | none => simp [hres] at hi
    | some resource =>
      simp only [hres] at hi
      split at hi
      · rename_i h0
        cases hk : World.propertyKey resource.src with
        | error e => simp [hk] at hi
        | ok src =>
          simp only [hk] at hi
          refine World.Evolves.trans ?_ (World.register_evolves allowed fetchable _ w' src _ hi)
          exact World.Evolves.set c p _ hp
            (Relation.ReflTransGen.single (Preloader.Action.fetching p i resource hres h0 hF))
            rfl
      · split at hi
        · simp only [Except.ok.injEq] at hi
          subst hi
          exact World.Evolves.of_loaders rfl
        · simp only [Except.ok.injEq] at hi
          subst hi
          exact World.Evolves.refl allowed fetchable w

theorem forEachM_invariant_mem {σ α : Type} (P : σ → Prop) (f : σ → α → Except JSError σ)
    (l : List α) (hf : ∀ s a s', a ∈ l → P s → f s a = .ok s' → P s') :
    ∀ (s s' : σ), P s → forEachM f s l = .ok s' → P s' := by
  induction l with
  | nil =>
    intro s s' hs h
    simp only [forEachM, Except.ok.injEq] at h
    exact h ▸ hs
  | cons a rest ih =>
    intro s s' hs h
    simp only [forEachM] at h
    cases hfa : f s a with
    | error e => simp [hfa] at h
    | ok s1 =>
      simp only [hfa] at h
      exact ih (fun t b t' hb => hf t b t' (List.mem_cons_of_mem _ hb)) s1 s'
        (hf s a s1 (List.mem_cons_self _ _) hs hfa) h

theorem World.forEachM_evolves {α : Type} (allowed : List Resource → Prop)
    (fetchable : Nat → Nat → Prop) (f : World → α → Except JSError World) (l : List α)
    (hf : ∀ s a s', a ∈ l → f s a = .ok s' → World.Evolves allowed fetchable s s')
    (w w' : World) (h : forEachM f w l = .ok w') : World.Evolves allowed fetchable w w' :=
  forEachM_invariant_mem (fun s => World.Evolves allowed fetchable w s) f l
    (fun s a s' ha hs hsa => hs.trans (hf s a s' ha hsa)) w w'
    (World.Evolves.refl allowed fetchable w) h

theorem World.load_eq (w : World) (c : Nat) (p : Preloader) (weightOrScene : JSVal)
    (onProgress : Bool) (filtered : List Nat) (hp : w.loaders[c]? = some p)
    (hf : p.filteredResources weightOrScene = .ok filtered) :
    w.load c weightOrScene onProgress =
      match World.__fire c
          { w with loaders := w.loaders.set c (p.registered filtered onProgress) } filtered with
      | .error e => .error e
      | .ok w' =>
          .ok { w' with loaders :=
                  w'.loaders.modify (fun q => q.__registerEndPromise (p.__loadId + 1)) c } := by
  simp only [World.load, hp, hf]
  rfl

theorem Preloader.registered_loadId (p : Preloader) (filtered : List Nat) (onProgress : Bool) :
    (p.registered filtered onProgress).__loadId = p.__loadId + 1 := by
  simp only [Preloader.registered]
  split
  · simp only [Preloader.__registerProgress, Preloader.__registerLoad]
    rw [(Preloader.foldl_modify_fields _ _ _).2.2.2.1]
  · simp only [Preloader.__registerLoad]
    rw [(Preloader.foldl_modify_fields _ _ _).2.2.2.1]

theorem World.load_evolves (allowed : List Resource → Prop)
    (fetchable : Nat → Nat → Prop) (w w' : World) (c : Nat)
    (weightOrScene : JSVal) (onProgress : Bool)
    (hF : ∀ p filtered, w.loaders[c]? = some p →
      p.filteredResources weightOrScene = .ok filtered → ∀ i ∈ filtered, fetchable c i)
    (hi : w.load c weightOrScene onProgress = .ok w') :
    World.Evolves allowed fetchable w w' := by
  cases hp : w.loaders[c]? with
  | none => simp [World.load, hp] at hi
  | some p =>
    cases hf : p.filteredResources weightOrScene with
    | error e => simp [World.load, hp, hf] at hi
    | ok filtered =>
      rw [World.load_eq w c p weightOrScene onProgress filtered hp hf] at hi
      simp only [World.__fire] at hi
      split at hi
      · simp at hi
      · rename_i w1 hw1
        simp only [Except.ok.injEq] at hi
        subst hi
        have e1 : World.Evolves allowed fetchable w
            { w with loaders := w.loaders.set c (p.registered filtered onProgress) } :=
          World.Evolves.set c p _ hp
            (Relation.ReflTransGen.single
              (Preloader.Action.registered p weightOrScene filtered onProgress hf)) rfl
        have e2 := World.forEachM_evolves allowed fetchable (World.fireOne c) filtered
          (fun s a s' ha hsa =>
            World.fireOne_evolves allowed fetchable c s a s' (hF p filtered hp hf a ha) hsa)
          _ w1 hw1
        have hp2 : (w.loaders.set c (p.registered filtered onProgress))[c]? =
            some (p.registered filtered onProgress) := List.getElem?_set_of_some hp
        obtain ⟨pf, hpf, rf⟩ := e2.2 c _ hp2
        refine World.Evolves.trans (World.Evolves.trans e1 e2) ?_
        refine World.Evolves.set c pf (pf.__registerEndPromise (p.__loadId + 1)) hpf
          (Relation.ReflTransGen.single (Preloader.Action.endPromise pf _ ?_)) ?_
        · rw [← Preloader.registered_loadId p filtered onProgress]
          exact rf.loadId_mono
        · simp only
          rw [List.modify_eq_set_get?]
          simp [hpf]

theorem Preloader.add_reach (allowed : List Resource → Prop) (fetchable : Nat → Prop)
    (p p' : Preloader)
    (items sceneOrWeight : JSVal)
    (hallowed : ∀ l newResources, items = .arr l →
      Preloader.formatAll sceneOrWeight l = .ok newResources → allowed newResources)
    (h : p.add items sceneOrWeight = .ok p') :
    Preloader.Reach allowed fetchable p p' := by
  by_cases ht : items.truthy = true
  · cases items with
    | arr l =>
      obtain ⟨newResources, hf, rfl⟩ := Preloader.add_arr p p' l sceneOrWeight h
      exact Relation.ReflTransGen.single
        (Preloader.Action.add p newResources (hallowed l newResources rfl hf))
    | undefined => simp [JSVal.truthy] at ht
    | null => simp [JSVal.truthy] at ht
    | bool b => simp [Preloader.add, ht] at h
    | num n => simp [Preloader.add, ht] at h
    | str s => simp [Preloader.add, ht] at h
    | obj fields => simp [Preloader.add, ht] at h
  · simp only [Preloader.add, ht, Bool.false_eq_true, if_false, Except.ok.injEq] at h
    subst h
    exact Relation.ReflTransGen.refl

/-- Every event other than the creation of a coordinator advances each coordinator
by atomic actions; the creation of a coordinator leaves the existing ones as they
are and appends the new one. -/
theorem World.step_evolves (allowed : List Resource → Prop)
    (fetchable : Nat → Nat → Prop) (w w' : World) (event : Event)
    (hadds : event.Adds allowed) (hfetch : event.Fetches fetchable w)
    (hi : w.step event = .ok w') :
    (World.Evolves allowed fetchable w w' ∧
      ∀ items sceneOrWeight, event ≠ .create items sceneOrWeight) ∨
    (∃ items sceneOrWeight p, event = .create items sceneOrWeight ∧
      Preloader.new items sceneOrWeight = .ok p ∧ w'.loaders = w.loaders ++ [p]) := by
  cases event with
  | create items sceneOrWeight =>
    right
    simp only [World.step] at hi
    cases hn : Preloader.new items sceneOrWeight with
    | error e => simp [hn] at hi
    | ok p =>
      simp only [hn, Except.ok.injEq] at hi
      subst hi
      exact ⟨items, sceneOrWeight, p, rfl, hn, rfl⟩
  | add c items sceneOrWeight =>
    left
    refine ⟨?_, fun _ _ h => by cases h⟩
    simp only [World.step] at hi
    cases hp : w.loaders[c]? with
    | none => simp [hp] at hi
    | some p =>
      simp only [hp] at hi
      cases ha : p.add items sceneOrWeight with
      | error e => simp [ha] at hi
      | ok p' =>
        simp only [ha, Except.ok.injEq] at hi
        subst hi
        exact World.Evolves.set c p p' hp
          (Preloader.add_reach allowed (fetchable c) p p' items sceneOrWeight hadds ha) rfl
  | load c weightOrScene onProgress =>
    exact Or.inl ⟨World.load_evolves allowed fetchable w w' c weightOrScene onProgress hfetch hi,
      fun _ _ h => by cases h⟩
  | register src tag again =>
    exact Or.inl ⟨World.register_evolves allowed fetchable w w' src _ hi,
      fun _ _ h => by cases h⟩
  | imageLoaded src =>
    left
    refine ⟨?_, fun _ _ h => by cases h⟩
    simp only [World.step] at hi
    split at hi
    · cases hr : ResourcePool.onImageLoad w.resources src with
      | none => simp [hr] at hi
      | some pair =>
        obtain ⟨resources, callbackList⟩ := pair
        simp only [hr] at hi
        refine World.Evolves.trans ?_
          (World.forEachM_evolves allowed fetchable World.invoke _
            (fun s a s' _ hsa => World.invoke_evolves allowed fetchable s s' a hsa) _ w' hi)
        exact World.Evolves.of_loaders rfl
    · simp at hi
  | timeout =>
    left
    refine ⟨?_, fun _ _ h => by cases h⟩
    simp only [World.step] at hi
    cases ht : w.timers with
    | nil => simp [ht] at hi
    | cons callback rest =>
      simp only [ht] at hi
      refine World.Evolves.trans ?_ (World.invoke_evolves allowed fetchable _ w' callback hi)
      exact World.Evolves.of_loaders rfl

/-! ### The catalog under `add` (C11, C12, C19) -/

theorem Preloader.formatResource_num (n : Int) (sceneOrWeight : JSVal) :
    Preloader.__formatResource (.num n) sceneOrWeight = .ok none := by
  simp only [Preloader.__formatResource, JSVal.typeof, JSVal.callToString]
  rw [if_neg (by decide)]
  simp [JSVal.get, JSVal.own, JSVal.truthy]

theorem Preloader.formatResource_bool (b : Bool) (sceneOrWeight : JSVal) :
    Preloader.__formatResource (.bool b) sceneOrWeight = .ok none := by
  simp only [Preloader.__formatResource, JSVal.typeof, JSVal.callToString]
  rw [if_neg (by decide)]
  simp [JSVal.get, JSVal.own, JSVal.truthy]

/-- C11 fails on the code for `null` and `undefined`: `new Preloader([null, 'a'])`
and `new Preloader(['a', undefined])` raise a `TypeError`, so the valid item `a` is
not appended either. The other invalid items are dropped as claimed: a number, a
boolean, the empty array, an object without identifier and an object with an empty
identifier yield no entry, and a valid item of the same call is still appended. -/
theorem add_null_item_raises (p : Preloader) (n : Int) (b : Bool) (x : String)
    (sceneOrWeight : JSVal) :
    Preloader.new (.arr [.null, .str "a"]) .undefined = .error .typeError ∧
    Preloader.new (.arr [.str "a", .undefined]) .undefined = .error .typeError ∧
    Preloader.__formatResource (.num n) sceneOrWeight = .ok none ∧
    Preloader.__formatResource (.bool b) sceneOrWeight = .ok none ∧
    Preloader.__formatResource (.arr []) sceneOrWeight = .ok none ∧
    Preloader.__formatResource (.obj [("weight", .num n)]) sceneOrWeight = .ok none ∧
    Preloader.__formatResource (.obj [("src", .str "")]) sceneOrWeight = .ok none ∧
    p.add (.arr [.num n, .str x, .bool b]) .undefined =
      .ok { p with __resourceList :=
              p.__resourceList ++ [⟨.str x, .bool false, .bool false, .num 0, []⟩] } := by
  refine ⟨rfl, rfl, Preloader.formatResource_num n _, Preloader.formatResource_bool b _,
    ?_, ?_, ?_, ?_⟩
  · simp only [Preloader.__formatResource, JSVal.typeof, JSVal.callToString, JSVal.join]
    rw [if_neg (by decide)]
    simp [JSVal.get, JSVal.own, JSVal.truthy]
  · simp only [Preloader.__formatResource, JSVal.typeof, JSVal.callToString]
    rw [if_neg (by decide)]
    simp [JSVal.get, JSVal.own, JSVal.truthy, List.lookup]
  · simp only [Preloader.__formatResource, JSVal.typeof, JSVal.callToString]
    rw [if_neg (by decide)]
    simp [JSVal.get, JSVal.own, JSVal.truthy, List.lookup]
  · simp [Preloader.add, JSVal.truthy, Preloader.formatAll, Preloader.formatResource_num,
      Preloader.formatResource_bool, Preloader.formatResource_str,
      Preloader.sharedSceneWeight_undefined]

theorem Preloader.formatAll_forall₂ (sceneOrWeight : JSVal) (items : List JSVal)
    (normalized : List (Option Resource))
    (h : List.Forall₂ (fun item r => Preloader.__formatResource item sceneOrWeight = .ok r)
      items normalized) :
    Preloader.formatAll sceneOrWeight items = .ok (Spec.accepted normalized) := by
  induction h with
  | nil => rfl
  | @cons item r rest rs h1 _ ih =>
    simp only [Preloader.formatAll, h1, ih, Spec.accepted]
    cases r <;> simp [List.filterMap_cons]

/-- C12: `add` is append-only and chainable. Whenever every item of the call
normalizes (to an entry or to a drop), `add(items, arg)` returns the coordinator
with all its other fields as they were and with the catalog equal to the catalog
before followed by the normalized entries of the accepted items in input order, so
that every entry already present is unchanged; an identifier that is already in the
catalog is added again as a separate entry; and `add` with absent items returns the
coordinator unchanged. -/
theorem add_appends (p : Preloader) (items : List JSVal) (sceneOrWeight : JSVal)
    (normalized : List (Option Resource))
    (h : List.Forall₂ (fun item r => Preloader.__formatResource item sceneOrWeight = .ok r)
      items normalized) (x : String) :
    p.add (.arr items) sceneOrWeight =
      .ok { p with __resourceList := p.__resourceList ++ Spec.accepted normalized } ∧
    (∀ (i : Nat) (r : Resource), p.__resourceList[i]? = some r →
      (p.__resourceList ++ Spec.accepted normalized)[i]? = some r) ∧
    (p.add (.arr [.str x]) .undefined).bind (fun q => q.add (.arr [.str x]) .undefined) =
      .ok { p with __resourceList := p.__resourceList ++
              [⟨.str x, .bool false, .bool false, .num 0, []⟩,
               ⟨.str x, .bool false, .bool false, .num 0, []⟩] } ∧
    p.add .undefined sceneOrWeight = .ok p := by
  refine ⟨?_, ?_, ?_, rfl⟩
  · simp [Preloader.add, JSVal.truthy,
      Preloader.formatAll_forall₂ sceneOrWeight items normalized h]
  · intro i r hi
    rw [List.getElem?_append_left]
    · exact hi
    · by_contra hlt
      rw [List.getElem?_eq_none (Nat.le_of_not_lt hlt)] at hi
      cases hi
  · simp [Preloader.add_single_str, Preloader.sharedSceneWeight_undefined, Except.bind]

/-- Witness of C12: adding `['c', 3, {src: 'a'}]` to the weight example appends the
entries for `c` and `a`, in this order, after the three entries already there. -/
theorem add_appends_witness :
    List.Forall₂ (fun item r => Preloader.__formatResource item .undefined = .ok r)
      [.str "c", .num 3, .obj [("src", .str "a")]]
      [some ⟨.str "c", .bool false, .bool false, .num 0, []⟩, none,
       some ⟨.str "a", .bool false, .bool false, .num 0, []⟩] ∧
    weightCatalog.add (.arr [.str "c", .num 3, .obj [("src", .str "a")]]) .undefined =
      .ok { weightCatalog with __resourceList := weightCatalog.__resourceList ++
              [⟨.str "c", .bool false, .bool false, .num 0, []⟩,
               ⟨.str "a", .bool false, .bool false, .num 0, []⟩] } :=
  ⟨.cons rfl (.cons rfl (.cons rfl .nil)),
   (add_appends weightCatalog [.str "c", .num 3, .obj [("src", .str "a")]] .undefined
      [some ⟨.str "c", .bool false, .bool false, .num 0, []⟩, none,
       some ⟨.str "a", .bool false, .bool false, .num 0, []⟩]
      (.cons rfl (.cons rfl (.cons rfl .nil))) "x").1⟩

/-! ### The notification step (C18) -/

theorem Resource.unbind_iterate (loadId : Nat) (n : Nat) (r : Resource) :
    (Resource.unbind loadId)^[n] r = if n = 0 then r else r.unbind loadId := by
  induction n with
  | zero => rfl
  | succ k ih =>
    rw [Function.iterate_succ_apply', ih]
    by_cases hk : k = 0
    · simp [hk]
    · simp [hk, Resource.unbind, List.filter_filter]

theorem Preloader.unregisterLoad_spec (p p' : Preloader) (loadId : Nat)
    (h : p.__unregisterLoad loadId = .ok p') :
    ∃ resourceList, p.__loadToResource loadId = some resourceList ∧
      p'.__loadToResource = Function.update p.__loadToResource loadId (some []) ∧
      p'.__loadProgress = p.__loadProgress ∧
      p'.__loadEndPromise = p.__loadEndPromise ∧
      p'.__loadId = p.__loadId ∧
      p'.calls = p.calls ∧
      p'.__resourceList.length = p.__resourceList.length ∧
      ∀ j : Nat, p'.__resourceList[j]? =
        (p.__resourceList[j]?).map
          (fun r => if j ∈ resourceList then r.unbind loadId else r) := by
  simp only [Preloader.__unregisterLoad] at h
  cases hl : p.__loadToResource loadId with
  | none => simp [hl] at h
  | some resourceList =>
    simp only [hl, Except.ok.injEq] at h
    subst h
    have hf := Preloader.foldl_modify_fields (Resource.unbind loadId) resourceList
      { p with __loadToResource := Function.update p.__loadToResource loadId (some []) }
    refine ⟨resourceList, rfl, hf.1, hf.2.1, hf.2.2.1, hf.2.2.2.1, hf.2.2.2.2.1,
      hf.2.2.2.2.2, fun j => ?_⟩
    have hg := Preloader.foldl_modify_getElem? (Resource.unbind loadId) resourceList
      { p with __loadToResource := Function.update p.__loadToResource loadId (some []) } j
    refine hg.trans ?_
    cases p.__resourceList[j]? with
    | none => rfl
    | some r =>
      simp only [Option.map_some', Option.some.injEq]
      rw [Resource.unbind_iterate loadId (List.count j resourceList) r]
      by_cases hj : j ∈ resourceList
      · simp [hj, List.count_eq_zero]
      · simp [hj, List.count_eq_zero]

/-- The effect of the notification step, case by case. -/
theorem Preloader.fileResourceProgress_spec (p p' : Preloader) (loadId : Nat)
    (h : p.__fileResourceProgress loadId = .ok p') :
    ∃ resourceList, p.__loadToResource loadId = some resourceList ∧
      p'.__loadProgress = p.__loadProgress ∧
      p'.__loadEndPromise = p.__loadEndPromise ∧
      p'.__loadId = p.__loadId ∧
      p'.__resourceList.length = p.__resourceList.length ∧
      (((resourceList.filter (fun i => p.isDone i)).length ≠ resourceList.length ∧
        p'.__loadToResource = p.__loadToResource ∧
        p'.__resourceList = p.__resourceList ∧
        p'.calls = p.calls ++
          (if p.__loadProgress loadId then
            [Call.progress loadId (resourceList.filter (fun i => p.isDone i)).length
              resourceList.length] else [])) ∨
       ((resourceList.filter (fun i => p.isDone i)).length = resourceList.length ∧
        p'.__loadToResource = Function.update p.__loadToResource loadId (some []) ∧
        (∀ j : Nat, p'.__resourceList[j]? =
          (p.__resourceList[j]?).map
            (fun r => if j ∈ resourceList then r.unbind loadId else r)) ∧
        p'.calls = p.calls ++
          (if p.__loadProgress loadId then
            [Call.progress loadId resourceList.length resourceList.length] else []) ++
          (if p.__loadEndPromise loadId then
            [Call.resolve loadId resourceList.length] else []))) := by
  simp only [Preloader.__fileResourceProgress] at h
  cases hl : p.__loadToResource loadId with
  | none => simp [hl] at h
  | some resourceList =>
    simp only [hl] at h
    refine ⟨resourceList, rfl, ?_⟩
    by_cases hdone : (resourceList.filter (fun i => p.isDone i)).length = resourceList.length
    · simp only [hdone, if_true] at h
      split at h
      · simp at h
      · rename_i p2 hu
        obtain ⟨rl, hrl, h1, h2, h3, h4, h5, h6, h7⟩ :=
          Preloader.unregisterLoad_spec _ p2 loadId hu
        have hrl' : rl = resourceList := by
          have : p.__loadToResource loadId = some rl := by
            split at hrl <;> exact hrl
          rw [hl] at this
          exact (Option.some.inj this).symm
        subst hrl'
        have hfields : p2.__loadProgress = p.__loadProgress ∧
            p2.__loadEndPromise = p.__loadEndPromise ∧ p2.__loadId = p.__loadId ∧
            p2.__resourceList.length = p.__resourceList.length ∧
            p2.__loadToResource = Function.update p.__loadToResource loadId (some []) ∧
            (∀ j : Nat, p2.__resourceList[j]? = (p.__resourceList[j]?).map
              (fun r => if j ∈ rl then r.unbind loadId else r)) ∧
            p2.calls = p.calls ++ (if p.__loadProgress loadId then
              [Call.progress loadId rl.length rl.length] else []) := by
          split at h1 <;> split at h2 <;> split at h3 <;> split at h4 <;> split at h5 <;>
            split at h6 <;> split at h7 <;> simp_all
        obtain ⟨g1, g2, g3, g4, g5, g6, g7⟩ := hfields
        split at h
        · simp only [Except.ok.injEq] at h
          subst h
          rename_i he
          rw [g2] at he
          exact ⟨g1, g2, g3, g4, Or.inr ⟨hdone, g5, g6, by simp [g7, he]⟩⟩
        · simp only [Except.ok.injEq] at h
          subst h
          rename_i he
          rw [g2] at he
          exact ⟨g1, g2, g3, g4, Or.inr ⟨hdone, g5, g6, by simp [g7, he]⟩⟩
    · simp only [hdone, if_false, Except.ok.injEq] at h
      subst h
      by_cases hprog : p.__loadProgress loadId = true
      · rw [if_pos hprog]
        exact ⟨rfl, rfl, rfl, rfl, Or.inl ⟨hdone, rfl, rfl, by rw [if_pos hprog]⟩⟩
      · rw [if_neg hprog]
        exact ⟨rfl, rfl, rfl, rfl, Or.inl ⟨hdone, rfl, rfl, by rw [if_neg hprog]; simp⟩⟩

/-- Counterexample to C18: after `new Preloader(['a'])`, `load(f)` and the completion
of `a`, request 1 has completed (`f` reported `(1, 1)`, `resolve` was called, the
resource list of the request is empty and so is the membership list of `a`), and
the coordinator still holds a progress function under id 1. -/
theorem progress_registration_survives_completion :
    (World.run World.init
        [.create (.arr [.str "a"]) .undefined, .load 0 .undefined true,
         .imageLoaded "a"]).map
      (fun w => w.loaders.map (fun p =>
        (p.calls, p.__loadToResource 1, p.__resourceList.map (·.loadEvents),
          p.__loadProgress 1))) =
      .ok [([.progress 1 1 1, .resolve 1 1], some [], [[]], true)] :=
  rfl

/-- C18 as amended: the completion-triggering notification step for request id `L`
drops the memberships of the request (its resource list becomes empty and `L` is
removed from the membership list of each of its resources) and keeps every
progress-function registration as it was, the one under `L` included. -/
theorem completion_keeps_progress_registration (p p' : Preloader) (L : Nat)
    (resourceList : List Nat) (h : p.__fileResourceProgress L = .ok p')
    (hl : p.__loadToResource L = some resourceList)
    (hdone : ∀ i ∈ resourceList, p.isDone i = true) :
    p'.__loadProgress = p.__loadProgress ∧
    p'.__loadToResource L = some [] ∧
    ∀ i ∈ resourceList, ∀ r, p'.__resourceList[i]? = some r → L ∉ r.loadEvents := by
  obtain ⟨rl, hrl, h1, _, _, _, hcases⟩ := Preloader.fileResourceProgress_spec p p' L h
  rw [hl] at hrl
  cases hrl
  have hall : (resourceList.filter (fun i => p.isDone i)).length = resourceList.length := by
    rw [List.filter_eq_self.2 hdone]
  rcases hcases with ⟨hne, _⟩ | ⟨_, hmap, hres, _⟩
  · exact absurd hall hne
  · refine ⟨h1, by rw [hmap]; simp, fun i hi r hr => ?_⟩
    rw [hres i] at hr
    cases hpi : p.__resourceList[i]? with
    | none => rw [hpi] at hr; simp at hr
    | some r0 =>
      rw [hpi] at hr
      simp only [Option.map_some', hi, if_true, Option.some.injEq] at hr
      subst hr
      simp [Resource.unbind]

/-- Witness of the amended C18 on `progressExample`: after the notification step of
request 1 the progress function is still registered under id 1 and the resource
list of the request is empty. -/
theorem completion_keeps_progress_registration_witness :
    progressExample.__fileResourceProgress 1 = .ok progressExampleDone ∧
    progressExample.__loadToResource 1 = some [0] ∧
    (∀ i ∈ [0], progressExample.isDone i = true) ∧
    progressExampleDone.__loadProgress 1 = true ∧
    progressExampleDone.__loadToResource 1 = some [] :=
  ⟨rfl, rfl, by decide,
   (congrFun (completion_keeps_progress_registration progressExample progressExampleDone 1 [0]
      rfl rfl (by decide)).1 1).trans rfl,
   (completion_keeps_progress_registration progressExample progressExampleDone 1 [0]
      rfl rfl (by decide)).2.1⟩

/-! ### Invariants of the coordinators along a run -/

theorem Preloader.Reach.invariant {allowed : List Resource → Prop}
    {fetchable : Nat → Prop} (Q : Preloader → Prop)
    (hact : ∀ p p', Q p → Preloader.Action allowed fetchable p p' → Q p') {p p' : Preloader}
    (h : Preloader.Reach allowed fetchable p p') (hp : Q p) : Q p' := by
  induction h with
  | refl => exact hp
  | tail _ hbc ih => exact hact _ _ ih hbc

theorem World.step_loaders_invariant (allowed : List Resource → Prop) (Q : Preloader → Prop)
    (hfresh : Q Preloader.fresh)
    (hact : ∀ p p', Q p → Preloader.Action allowed (fun _ => True) p p' → Q p')
    (w w' : World) (event : Event) (hadds : event.Adds allowed)
    (hw : ∀ (c : Nat) (p : Preloader), w.loaders[c]? = some p → Q p)
    (hi : w.step event = .ok w') :
    ∀ (c : Nat) (p : Preloader), w'.loaders[c]? = some p → Q p := by
  intro c p' hp'
  have hfetch : event.Fetches (fun _ _ => True) w := by
    cases event <;> simp [Event.Fetches]
  rcases World.step_evolves allowed (fun _ _ => True) w w' event hadds hfetch hi with
    ⟨hev, _⟩ | ⟨items, s, pn, he, hn, hl⟩
  · have hlt : c < w.loaders.length := by
      rw [← hev.1]
      by_contra hge
      rw [List.getElem?_eq_none (Nat.le_of_not_lt hge)] at hp'
      cases hp'
    obtain ⟨p'', hp'', hr⟩ := hev.2 c (w.loaders[c]) (List.getElem?_eq_getElem hlt)
    rw [hp'] at hp''
    cases hp''
    exact hr.invariant Q hact (hw c _ (List.getElem?_eq_getElem hlt))
  · rw [hl] at hp'
    by_cases hlt : c < w.loaders.length
    · rw [List.getElem?_append_left hlt] at hp'
      exact hw c p' hp'
    · rw [List.getElem?_append_right (Nat.le_of_not_lt hlt)] at hp'
      have hc : c - w.loaders.length = 0 := by
        by_contra hne
        rw [List.getElem?_eq_none (by simp; omega)] at hp'
        cases hp'
      rw [hc] at hp'
      simp only [List.getElem?_cons_zero, Option.some.injEq] at hp'
      subst hp'
      subst he
      exact (Preloader.add_reach allowed (fun _ => True) Preloader.fresh pn items s hadds
        hn).invariant Q hact
        hfresh

theorem World.run_cons (w : World) (event : Event) (events : List Event) :
    World.run w (event :: events) =
      match w.step event with
      | .error e => .error e
      | .ok w' => World.run w' events := by
  simp only [World.run, forEachM]
  cases w.step event <;> rfl

theorem World.run_loaders_invariant (allowed : List Resource → Prop) (Q : Preloader → Prop)
    (hfresh : Q Preloader.fresh)
    (hact : ∀ p p', Q p → Preloader.Action allowed (fun _ => True) p p' → Q p')
    (events : List Event) (w0 w : World) (hadds : ∀ event ∈ events, event.Adds allowed)
    (h0 : ∀ (c : Nat) (p : Preloader), w0.loaders[c]? = some p → Q p)
    (hrun : World.run w0 events = .ok w) :
    ∀ (c : Nat) (p : Preloader), w.loaders[c]? = some p → Q p := by
  induction events generalizing w0 with
  | nil =>
    simp only [World.run, forEachM, Except.ok.injEq] at hrun
    subst hrun
    exact h0
  | cons event rest ih =>
    rw [World.run_cons] at hrun
    cases hs : w0.step event with
    | error e => simp [hs] at hrun
    | ok w1 =>
      simp only [hs] at hrun
      exact ih w1 (fun e he => hadds e (List.mem_cons_of_mem _ he))
        (World.step_loaders_invariant allowed Q hfresh hact w0 w1 event
          (hadds event (List.mem_cons_self _ _)) h0 hs) hrun

theorem Event.adds_true (event : Event) : event.Adds (fun _ => True) := by
  cases event <;> simp [Event.Adds]

theorem Preloader.filterPositions_lt (f : Resource → Except JSError Bool) (l : List Resource)
    (k : Nat) (is : List Nat) (h : Preloader.filterPositions f l k = .ok is) :
    ∀ i ∈ is, k ≤ i ∧ i < k + l.length := by
  induction l generalizing k is with
  | nil =>
    simp only [Preloader.filterPositions, Except.ok.injEq] at h
    subst h
    simp
  | cons r rest ih =>
    simp only [Preloader.filterPositions] at h
    cases hf : f r with
    | error e => simp [hf] at h
    | ok b =>
      simp only [hf] at h
      cases hr : Preloader.filterPositions f rest (k + 1) with
      | error e => simp [hr] at h
      | ok js =>
        simp only [hr, Except.ok.injEq] at h
        subst h
        intro i hi
        have hjs := ih (k + 1) js hr
        by_cases hb : b = true
        · simp only [hb, if_true, List.mem_cons] at hi
          rcases hi with rfl | hi
          · simp
          · have := hjs i hi
            simp only [List.length_cons]
            omega
        · simp only [hb, Bool.false_eq_true, if_false] at hi
          have := hjs i hi
          simp only [List.length_cons]
          omega

theorem Preloader.filterPositions_nodup (f : Resource → Except JSError Bool)
    (l : List Resource) (k : Nat) (is : List Nat)
    (h : Preloader.filterPositions f l k = .ok is) : is.Nodup := by
  induction l generalizing k is with
  | nil =>
    simp only [Preloader.filterPositions, Except.ok.injEq] at h
    subst h
    exact List.nodup_nil
  | cons r rest ih =>
    simp only [Preloader.filterPositions] at h
    cases hf : f r with
    | error e => simp [hf] at h
    | ok b =>
      simp only [hf] at h
      cases hr : Preloader.filterPositions f rest (k + 1) with
      | error e => simp [hr] at h
      | ok js =>
        simp only [hr, Except.ok.injEq] at h
        subst h
        have hjs := ih (k + 1) js hr
        by_cases hb : b = true
        · simp only [hb, if_true]
          refine List.nodup_cons.2 ⟨fun hk => ?_, hjs⟩
          have := (Preloader.filterPositions_lt f rest (k + 1) js hr k hk).1
          omega
        · simpa [hb] using hjs

theorem Preloader.filteredResources_lt (p : Preloader) (weightOrScene : JSVal)
    (filtered : List Nat) (h : p.filteredResources weightOrScene = .ok filtered) :
    ∀ i ∈ filtered, i < p.__resourceList.length := by
  intro i hi
  cases weightOrScene with
  | num n =>
    have := Preloader.filterPositions_lt _ _ 0 filtered h i hi
    omega
  | str s =>
    have := Preloader.filterPositions_lt _ _ 0 filtered h i hi
    omega
  | undefined =>
    simp only [Preloader.filteredResources, Except.ok.injEq] at h
    subst h
    exact List.mem_range.1 hi
  | null =>
    simp only [Preloader.filteredResources, Except.ok.injEq] at h
    subst h
    exact List.mem_range.1 hi
  | bool b =>
    simp only [Preloader.filteredResources, Except.ok.injEq] at h
    subst h
    exact List.mem_range.1 hi
  | arr l =>
    simp only [Preloader.filteredResources, Except.ok.injEq] at h
    subst h
    exact List.mem_range.1 hi
  | obj l =>
    simp only [Preloader.filteredResources, Except.ok.injEq] at h
    subst h
    exact List.mem_range.1 hi

theorem Preloader.filteredResources_nodup (p : Preloader) (weightOrScene : JSVal)
    (filtered : List Nat) (h : p.filteredResources weightOrScene = .ok filtered) :
    filtered.Nodup := by
  cases weightOrScene with
  | num n => exact Preloader.filterPositions_nodup _ _ 0 filtered h
  | str s => exact Preloader.filterPositions_nodup _ _ 0 filtered h
  | undefined =>
    simp only [Preloader.filteredResources, Except.ok.injEq] at h
    subst h
    exact List.nodup_range _
  | null =>
    simp only [Preloader.filteredResources, Except.ok.injEq] at h
    subst h
    exact List.nodup_range _
  | bool b =>
    simp only [Preloader.filteredResources, Except.ok.injEq] at h
    subst h
    exact List.nodup_range _
  | arr l =>
    simp only [Preloader.filteredResources, Except.ok.injEq] at h
    subst h
    exact List.nodup_range _
  | obj l =>
    simp only [Preloader.filteredResources, Except.ok.injEq] at h
    subst h
    exact List.nodup_range _

theorem Preloader.registered_spec (p : Preloader) (filtered : List Nat) (onProgress : Bool) :
    (p.registered filtered onProgress).__loadToResource =
      Function.update p.__loadToResource (p.__loadId + 1) (some filtered) ∧
    (p.registered filtered onProgress).__loadProgress =
      (if onProgress then Function.update p.__loadProgress (p.__loadId + 1) true
       else p.__loadProgress) ∧
    (p.registered filtered onProgress).__loadEndPromise = p.__loadEndPromise ∧
    (p.registered filtered onProgress).__loadId = p.__loadId + 1 ∧
    (p.registered filtered onProgress).calls = p.calls ∧
    (p.registered filtered onProgress).__resourceList.length = p.__resourceList.length ∧
    ∀ j : Nat, (p.registered filtered onProgress).__resourceList[j]? =
      (p.__resourceList[j]?).map ((Resource.bind (p.__loadId + 1))^[filtered.count j]) := by
  have hf := Preloader.foldl_modify_fields (Resource.bind (p.__loadId + 1)) filtered
    { p with __loadId := p.__loadId + 1,
             __loadToResource :=
               Function.update p.__loadToResource (p.__loadId + 1) (some filtered) }
  have hg := Preloader.foldl_modify_getElem? (Resource.bind (p.__loadId + 1)) filtered
    { p with __loadId := p.__loadId + 1,
             __loadToResource :=
               Function.update p.__loadToResource (p.__loadId + 1) (some filtered) }
  cases onProgress with
  | true =>
    refine ⟨hf.1, ?_, hf.2.2.1, hf.2.2.2.1, hf.2.2.2.2.1, hf.2.2.2.2.2, hg⟩
    rw [if_pos rfl]
    exact congrArg (fun g => Function.update g (p.__loadId + 1) true) hf.2.1
  | false => exact ⟨hf.1, hf.2.1, hf.2.2.1, hf.2.2.2.1, hf.2.2.2.2.1, hf.2.2.2.2.2, hg⟩

theorem Preloader.Valid.fileResourceProgress {p p' : Preloader} (hv : p.Valid) (loadId : Nat)
    (h : p.__fileResourceProgress loadId = .ok p') : p'.Valid := by
  obtain ⟨rl, _, _, _, _, hlen, hcases⟩ := Preloader.fileResourceProgress_spec p p' loadId h
  intro L list hL i hi
  rw [hlen]
  rcases hcases with ⟨_, hmap, _, _⟩ | ⟨_, hmap, _, _⟩
  · rw [hmap] at hL
    exact hv L list hL i hi
  · rw [hmap] at hL
    by_cases hLl : L = loadId
    · subst hLl
      simp only [Function.update_same, Option.some.injEq] at hL
      subst hL
      cases hi
    · rw [Function.update_noteq hLl] at hL
      exact hv L list hL i hi

theorem Preloader.Valid.action {allowed : List Resource → Prop} {fetchable : Nat → Prop}
    {p p' : Preloader}
    (hv : p.Valid) (h : Preloader.Action allowed fetchable p p') : p'.Valid := by
  cases h with
  | add newResources _ =>
    intro L list hL i hi
    have := hv L list hL i hi
    simp only [List.length_append]
    omega
  | registered weightOrScene filtered onProgress hf =>
    obtain ⟨h1, _, _, _, _, h6, _⟩ := Preloader.registered_spec p filtered onProgress
    intro L list hL i hi
    rw [h6]
    rw [h1] at hL
    by_cases hLl : L = p.__loadId + 1
    · subst hLl
      simp only [Function.update_same, Option.some.injEq] at hL
      subst hL
      exact Preloader.filteredResources_lt p weightOrScene _ hf i hi
    · rw [Function.update_noteq hLl] at hL
      exact hv L list hL i hi
  | fetching i resource _ _ =>
    intro L list hL j hj
    simp only [Preloader.modify, List.length_modify]
    exact hv L list hL j hj
  | onload i _ h =>
    simp only [Preloader.onload] at h
    refine forEachM_invariant Preloader.Valid Preloader.__fileResourceProgress
      (fun s a s' hs hsa => hs.fileResourceProgress a hsa) _ _ p' ?_ h
    intro L list hL j hj
    simp only [Preloader.modify, List.length_modify]
    exact hv L list hL j hj
  | endPromise loadId _ => exact hv

theorem Preloader.fresh_valid : Preloader.fresh.Valid := by
  intro L list hL
  simp [Preloader.fresh] at hL

theorem World.run_valid (events : List Event) (w : World)
    (hrun : World.run World.init events = .ok w) (c : Nat) (p : Preloader)
    (hp : w.loaders[c]? = some p) : p.Valid :=
  World.run_loaders_invariant (fun _ => True) Preloader.Valid Preloader.fresh_valid
    (fun _ _ hq ha => hq.action ha) events World.init w (fun e _ => e.adds_true)
    (fun c p h => by simp [World.init] at h) hrun c p hp

theorem Preloader.add_spec (p p' : Preloader) (items sceneOrWeight : JSVal)
    (h : p.add items sceneOrWeight = .ok p') :
    ∃ newResources, p' = { p with __resourceList := p.__resourceList ++ newResources } := by
  by_cases ht : items.truthy = true
  · cases items with
    | arr l =>
      obtain ⟨newResources, _, rfl⟩ := Preloader.add_arr p p' l sceneOrWeight h
      exact ⟨newResources, rfl⟩
    | undefined => simp [JSVal.truthy] at ht
    | null => simp [JSVal.truthy] at ht
    | bool b => simp [Preloader.add, ht] at h
    | num n => simp [Preloader.add, ht] at h
    | str s => simp [Preloader.add, ht] at h
    | obj fields => simp [Preloader.add, ht] at h
  · simp only [Preloader.add, ht, Bool.false_eq_true, if_false, Except.ok.injEq] at h
    subst h
    exact ⟨[], by simp⟩

/-- C19: the resource list of a load request is fixed when `load` is called. In
every page reached by a run, a later `add` on the same coordinator leaves every
recorded resource list as it was, leaves each resource of such a list in place and
unchanged, and so leaves unchanged the total and the number of completed resources
that the notification step computes for the request. This includes a request that
selected the entire catalog: after `new Preloader(['a'])`, `load(f)` and
`add(['b'])`, request 1 still consists of `a` alone, and it completes with
`(1, 1)` when `a` has loaded. -/
theorem add_keeps_recorded_requests (events : List Event) (w w' : World)
    (hrun : World.run World.init events = .ok w) (c : Nat) (items sceneOrWeight : JSVal)
    (hstep : w.step (.add c items sceneOrWeight) = .ok w') (p : Preloader)
    (hp : w.loaders[c]? = some p) :
    (∃ p', w'.loaders[c]? = some p' ∧
      p'.__loadToResource = p.__loadToResource ∧
      ∀ loadId resourceList, p.__loadToResource loadId = some resourceList →
        (∀ i ∈ resourceList, p'.__resourceList[i]? = p.__resourceList[i]?) ∧
        (resourceList.filter (fun i => p'.isDone i)).length =
          (resourceList.filter (fun i => p.isDone i)).length) ∧
    (World.run World.init
        [.create (.arr [.str "a"]) .undefined, .load 0 .undefined true,
         .add 0 (.arr [.str "b"]) .undefined]).map
      (fun w => w.loaders.map (fun p => (p.__resourceList.length, p.__loadToResource 1))) =
      .ok [(2, some [0])] ∧
    (World.run World.init
        [.create (.arr [.str "a"]) .undefined, .load 0 .undefined true,
         .add 0 (.arr [.str "b"]) .undefined, .imageLoaded "a"]).map
      (fun w => w.calls 0) = .ok [.progress 1 1 1, .resolve 1 1] := by
  refine ⟨?_, rfl, rfl⟩
  have hv := World.run_valid events w hrun c p hp
  simp only [World.step, hp] at hstep
  cases ha : p.add items sceneOrWeight with
  | error e => simp [ha] at hstep
  | ok p' =>
    simp only [ha, Except.ok.injEq] at hstep
    subst hstep
    obtain ⟨newResources, rfl⟩ := Preloader.add_spec p p' items sceneOrWeight ha
    refine ⟨_, List.getElem?_set_of_some hp, rfl, fun loadId resourceList hl => ?_⟩
    have hsame : ∀ i ∈ resourceList,
        (p.__resourceList ++ newResources)[i]? = p.__resourceList[i]? :=
      fun i hi => List.getElem?_append_left (hv loadId resourceList hl i hi)
    refine ⟨hsame, ?_⟩
    congr 1
    apply List.filter_congr
    intro i hi
    simp only [Preloader.isDone, hsame i hi]

/-- Witness of C19: in the page reached by `new Preloader(['a'])` and `load(f)`, the
call `add(['b'])` succeeds and leaves the recorded list `[0]` of request 1 as it
was. -/
theorem add_keeps_recorded_requests_witness :
    World.run World.init
        [.create (.arr [.str "a"]) .undefined, .load 0 .undefined true] = .ok addExampleBefore ∧
    addExampleBefore.step (.add 0 (.arr [.str "b"]) .undefined) = .ok addExampleAfter ∧
    addExampleBefore.loaders[0]? = some addExampleLoader ∧
    addExampleLoader.__loadToResource 1 = some [0] ∧
    ∃ p', addExampleAfter.loaders[0]? = some p' ∧
      p'.__loadToResource = addExampleLoader.__loadToResource ∧
      ∀ loadId resourceList, addExampleLoader.__loadToResource loadId = some resourceList →
        (∀ i ∈ resourceList, p'.__resourceList[i]? = addExampleLoader.__resourceList[i]?) ∧
        (resourceList.filter (fun i => p'.isDone i)).length =
          (resourceList.filter (fun i => addExampleLoader.isDone i)).length :=
  ⟨rfl, rfl, rfl, rfl,
   (add_keeps_recorded_requests
      [.create (.arr [.str "a"]) .undefined, .load 0 .undefined true]
      addExampleBefore addExampleAfter rfl 0 (.arr [.str "b"]) .undefined rfl
      addExampleLoader rfl).1⟩

/-! ### The registry (C13, C14) -/

theorem World.invoke_pool (I : (String → Option PoolEntry) → List String → Prop)
    (hcreated : ∀ res infl src cb, I res infl → res src = none →
      I (Function.update res src (some ⟨false, [cb]⟩)) (infl ++ [src]))
    (happended : ∀ res infl src (e : PoolEntry) cb, I res infl → res src = some e →
      e.done = false →
      I (Function.update res src (some ⟨false, e.eventList ++ [cb]⟩)) infl)
    (w w' : World) (callback : Callback) (h : I w.resources w.inflight)
    (hi : w.invoke callback = .ok w') : I w'.resources w'.inflight := by
  cases callback with
  | onload c i =>
    simp only [World.invoke] at hi
    cases hp : w.loaders[c]? with
    | none => simp [hp] at hi
    | some p =>
      simp only [hp] at hi
      cases ho : p.onload i with
      | error e => simp [ho] at hi
      | ok p' =>
        simp only [ho, Except.ok.injEq] at hi
        subst hi
        exact h
  | client tag again =>
    cases again with
    | none =>
      simp only [World.invoke, Except.ok.injEq] at hi
      subst hi
      exact h
    | some src =>
      simp only [World.invoke, ResourcePool.register] at hi
      cases hr : w.resources src with
      | none =>
        by_cases hk : src ∈ ResourcePool.inheritedKeys
        · simp [hr, hk] at hi
        · simp only [hr, hk, if_false, Except.ok.injEq] at hi
          subst hi
          exact hcreated _ _ src _ h hr
      | some entry =>
        simp only [hr] at hi
        by_cases hd : entry.done
        · simp only [hd, Bool.not_true, Bool.false_eq_true, if_false, Except.ok.injEq] at hi
          subst hi
          exact h
        · simp only [hd, Bool.not_false, if_true, Except.ok.injEq] at hi
          subst hi
          exact happended _ _ src entry _ h hr (by simpa using hd)

theorem World.register_pool (I : (String → Option PoolEntry) → List String → Prop)
    (hcreated : ∀ res infl src cb, I res infl → res src = none →
      I (Function.update res src (some ⟨false, [cb]⟩)) (infl ++ [src]))
    (happended : ∀ res infl src (e : PoolEntry) cb, I res infl → res src = some e →
      e.done = false →
      I (Function.update res src (some ⟨false, e.eventList ++ [cb]⟩)) infl)
    (w w' : World) (src : String) (callback : Callback) (h : I w.resources w.inflight)
    (hi : w.register src callback = .ok w') : I w'.resources w'.inflight := by
  simp only [World.register, ResourcePool.register] at hi
  cases hr : w.resources src with
  | none =>
    by_cases hk : src ∈ ResourcePool.inheritedKeys
    · simp [hr, hk] at hi
    · simp only [hr, hk, if_false, Except.ok.injEq] at hi
      subst hi
      exact hcreated _ _ src _ h hr
  | some entry =>
    simp only [hr] at hi
    by_cases hd : entry.done
    · simp only [hd, Bool.not_true, Bool.false_eq_true, if_false] at hi
      exact World.invoke_pool I hcreated happended w w' callback h hi
    · simp only [hd, Bool.not_false, if_true, Except.ok.injEq] at hi
      subst hi
      exact happended _ _ src entry _ h hr (by simpa using hd)

theorem World.fireOne_pool (I : (String → Option PoolEntry) → List String → Prop)
    (hcreated : ∀ res infl src cb, I res infl → res src = none →
      I (Function.update res src (some ⟨false, [cb]⟩)) (infl ++ [src]))
    (happended : ∀ res infl src (e : PoolEntry) cb, I res infl → res src = some e →
      e.done = false →
      I (Function.update res src (some ⟨false, e.eventList ++ [cb]⟩)) infl)
    (c : Nat) (w : World) (i : Nat) (w' : World) (h : I w.resources w.inflight)
    (hi : World.fireOne c w i = .ok w') : I w'.resources w'.inflight := by
  simp only [World.fireOne] at hi
  cases hp : w.loaders[c]? with
  | none => simp [hp] at hi
  | some p =>
    simp only [hp] at hi
    cases hres : p.__resourceList[i]? with
    | none => simp [hres] at hi
    | some resource =>
      simp only [hres] at hi
      split at hi
      · cases hk : World.propertyKey resource.src with
        | error e => simp [hk] at hi
        | ok src =>
          simp only [hk] at hi
          refine World.register_pool I hcreated happended _ w' src _ ?_ hi
          exact h
      · split at hi
        · simp only [Except.ok.injEq] at hi
          subst hi
          exact h
        · simp only [Except.ok.injEq] at hi
          subst hi
          exact h

theorem World.step_pool (I : (String → Option PoolEntry) → List String → Prop)
    (hcreated : ∀ res infl src cb, I res infl → res src = none →
      I (Function.update res src (some ⟨false, [cb]⟩)) (infl ++ [src]))
    (happended : ∀ res infl src (e : PoolEntry) cb, I res infl → res src = some e →
      e.done = false →
      I (Function.update res src (some ⟨false, e.eventList ++ [cb]⟩)) infl)
    (hloaded : ∀ res infl src (e : PoolEntry), I res infl → res src = some e → src ∈ infl →
      I (Function.update res src (some ⟨true, []⟩)) (infl.erase src))
    (w w' : World) (event : Event) (h : I w.resources w.inflight)
    (hi : w.step event = .ok w') : I w'.resources w'.inflight := by
  cases event with
  | create items sceneOrWeight =>
    simp only [World.step] at hi
    cases hn : Preloader.new items sceneOrWeight with
    | error e => simp [hn] at hi
    | ok p =>
      simp only [hn, Except.ok.injEq] at hi
      subst hi
      exact h
  | add c items sceneOrWeight =>
    simp only [World.step] at hi
    cases hp : w.loaders[c]? with
    | none => simp [hp] at hi
    | some p =>
      simp only [hp] at hi
      cases ha : p.add items sceneOrWeight with
      | error e => simp [ha] at hi
      | ok p' =>
        simp only [ha, Except.ok.injEq] at hi
        subst hi
        exact h
  | load c weightOrScene onProgress =>
    simp only [World.step, World.load] at hi
    cases hp : w.loaders[c]? with
    | none => simp [hp] at hi
    | some p =>
      simp only [hp] at hi
      cases hf : p.filteredResources weightOrScene with
      | error e => simp [hf] at hi
      | ok filtered =>
        simp only [hf, World.__fire] at hi
        split at hi
        · simp at hi
        · rename_i w1 hw1
          simp only [Except.ok.injEq] at hi
          subst hi
          refine forEachM_invariant (fun s : World => I s.resources s.inflight)
            (World.fireOne c)
            (fun s a s' hs hsa => World.fireOne_pool I hcreated happended c s a s' hs hsa)
            filtered _ w1 ?_ hw1
          exact h
  | register src tag again =>
    exact World.register_pool I hcreated happended w w' src _ h hi
  | imageLoaded src =>
    simp only [World.step] at hi
    split at hi
    · rename_i hin
      simp only [ResourcePool.onImageLoad] at hi
      cases hr : w.resources src with
      | none => simp [hr] at hi
      | some entry =>
        simp only [hr] at hi
        refine forEachM_invariant (fun s : World => I s.resources s.inflight) World.invoke
          (fun s a s' hs hsa => World.invoke_pool I hcreated happended s s' a hs hsa)
          _ _ w' ?_ hi
        exact hloaded _ _ src entry h hr hin
    · simp at hi
  | timeout =>
    simp only [World.step] at hi
    cases ht : w.timers with
    | nil => simp [ht] at hi
    | cons callback rest =>
      simp only [ht] at hi
      refine World.invoke_pool I hcreated happended _ w' callback ?_ hi
      exact h

theorem World.PoolOk.afterCreated (res : String → Option PoolEntry) (infl : List String)
    (src : String) (cb : Callback) (h : World.PoolOk res infl) (hn : res src = none) :
    World.PoolOk (Function.update res src (some ⟨false, [cb]⟩)) (infl ++ [src]) := by
  obtain ⟨h1, h2, h3⟩ := h
  have hnot : src ∉ infl := fun hin => by
    obtain ⟨e, he, _⟩ := (h2 src).1 hin
    rw [hn] at he
    cases he
  refine ⟨fun s e hs hd => ?_, fun s => ?_, ?_⟩
  · by_cases hss : s = src
    · subst hss
      simp only [Function.update_same, Option.some.injEq] at hs
      subst hs
      cases hd
    · rw [Function.update_noteq hss] at hs
      exact h1 s e hs hd
  · by_cases hss : s = src
    · subst hss
      simp
    · rw [Function.update_noteq hss, List.mem_append, h2 s]
      simp [hss]
  · exact List.Nodup.append h3 (List.nodup_singleton _)
      (by
        simp only [List.Disjoint, List.mem_singleton]
        intro a ha hs
        exact hnot (hs ▸ ha))

theorem World.PoolOk.afterAppended (res : String → Option PoolEntry) (infl : List String)
    (src : String) (e : PoolEntry) (cb : Callback) (h : World.PoolOk res infl)
    (hr : res src = some e) (hd : e.done = false) :
    World.PoolOk (Function.update res src (some ⟨false, e.eventList ++ [cb]⟩)) infl := by
  obtain ⟨h1, h2, h3⟩ := h
  refine ⟨fun s e' hs hd' => ?_, fun s => ?_, h3⟩
  · by_cases hss : s = src
    · subst hss
      simp only [Function.update_same, Option.some.injEq] at hs
      subst hs
      cases hd'
    · rw [Function.update_noteq hss] at hs
      exact h1 s e' hs hd'
  · by_cases hss : s = src
    · subst hss
      simp only [Function.update_same, Option.some.injEq, exists_eq_left', iff_true]
      exact (h2 s).2 ⟨e, hr, hd⟩
    · rw [Function.update_noteq hss]
      exact h2 s

theorem World.PoolOk.afterLoaded (res : String → Option PoolEntry) (infl : List String)
    (src : String) (e : PoolEntry) (h : World.PoolOk res infl) (_hr : res src = some e)
    (_hin : src ∈ infl) :
    World.PoolOk (Function.update res src (some ⟨true, []⟩)) (infl.erase src) := by
  obtain ⟨h1, h2, h3⟩ := h
  refine ⟨fun s e' hs hd' => ?_, fun s => ?_, h3.erase src⟩
  · by_cases hss : s = src
    · subst hss
      simp only [Function.update_same, Option.some.injEq] at hs
      subst hs
      rfl
    · rw [Function.update_noteq hss] at hs
      exact h1 s e' hs hd'
  · rw [h3.mem_erase_iff]
    by_cases hss : s = src
    · subst hss
      simp
    · rw [Function.update_noteq hss, h2 s]
      simp [hss]

theorem World.run_poolOk (events : List Event) (w : World)
    (hrun : World.run World.init events = .ok w) : World.PoolOk w.resources w.inflight := by
  refine forEachM_invariant (fun s : World => World.PoolOk s.resources s.inflight) World.step
    (fun s a s' hs hsa => World.step_pool World.PoolOk
      (fun res infl src cb h hn => World.PoolOk.afterCreated res infl src cb h hn)
      (fun res infl src e cb h hr hd => World.PoolOk.afterAppended res infl src e cb h hr hd)
      (fun res infl src e h hr hin => World.PoolOk.afterLoaded res infl src e h hr hin)
      s s' a hs hsa) events World.init w ?_ hrun
  exact ⟨fun s e hs => by simp [World.init] at hs, fun s => by simp [World.init],
    List.nodup_nil⟩

theorem World.register_done (w : World) (src : String) (entry : PoolEntry)
    (hr : w.resources src = some entry) (hd : entry.done = true) (callback : Callback) :
    w.register src callback = w.invoke callback := by
  simp [World.register, ResourcePool.register, hr, hd]

theorem World.invoke_onload_frame (w w' : World) (c i : Nat)
    (h : w.invoke (.onload c i) = .ok w') :
    w'.resources = w.resources ∧ w'.inflight = w.inflight ∧ w'.log = w.log ∧
      w'.timers = w.timers := by
  simp only [World.invoke] at h
  cases hp : w.loaders[c]? with
  | none => simp [hp] at h
  | some p =>
    simp only [hp] at h
    cases ho : p.onload i with
    | error e => simp [ho] at h
    | ok p' =>
      simp only [ho, Except.ok.injEq] at h
      subst h
      exact ⟨rfl, rfl, rfl, rfl⟩

/-- C14: in every page reached by a run, `register(identifier, onDone)` on an
identifier whose entry is done is exactly one synchronous invocation of `onDone`:
the entry has no pending callback and no image in flight, a client callback is
recorded once and nothing else changes (no fetch is started, the table stays as it
is), and for an `onload` closure of a coordinator the call is that closure's run,
which leaves the table, the images in flight, the observations and the timers as
they were. -/
theorem register_on_done_entry (events : List Event) (w : World)
    (hrun : World.run World.init events = .ok w) (src : String) (entry : PoolEntry)
    (hr : w.resources src = some entry) (hd : entry.done = true) (tag c i : Nat) :
    entry.eventList = [] ∧ src ∉ w.inflight ∧
    (∀ callback, w.register src callback = w.invoke callback) ∧
    w.register src (.client tag none) = .ok { w with log := w.log ++ [Obs.called tag] } ∧
    ∀ w', w.register src (.onload c i) = .ok w' →
      w'.resources = w.resources ∧ w'.inflight = w.inflight ∧ w'.log = w.log ∧
        w'.timers = w.timers := by
  obtain ⟨h1, h2, _⟩ := World.run_poolOk events w hrun
  refine ⟨h1 src entry hr hd, fun hin => ?_,
    fun callback => World.register_done w src entry hr hd callback, ?_, fun w' hw' => ?_⟩
  · obtain ⟨e, he, hde⟩ := (h2 src).1 hin
    rw [hr] at he
    cases he
    rw [hd] at hde
    cases hde
  · rw [World.register_done w src entry hr hd]
    rfl
  · rw [World.register_done w src entry hr hd] at hw'
    exact World.invoke_onload_frame w w' c i hw'

/-- Witness of C14: at the end of the replay scenario the entry of `x` is done, and
registering client callback 7 for `x` records one invocation of it. -/
theorem register_on_done_entry_witness :
    World.run World.init replayScenario = .ok replayEnd ∧
    replayEnd.resources "x" = some ⟨true, []⟩ ∧
    (replayEnd.register "x" (.client 7 none)).map World.summary =
      .ok ([([.num 2], [.resolve 1 1]), ([.num 2], [])], [], [], [.fetch "x", .called 7]) ∧
    replayEnd.register "x" (.client 7 none) =
      .ok { replayEnd with log := replayEnd.log ++ [Obs.called 7] } :=
  ⟨rfl, rfl, rfl,
   (register_on_done_entry replayScenario replayEnd rfl "x" ⟨true, []⟩ rfl rfl 7 0 0).2.2.2.1⟩

theorem forEachM_append {σ α : Type} (f : σ → α → Except JSError σ) (s : σ) (l1 l2 : List α) :
    forEachM f s (l1 ++ l2) =
      match forEachM f s l1 with
      | .error e => .error e
      | .ok s' => forEachM f s' l2 := by
  induction l1 generalizing s with
  | nil => rfl
  | cons a rest ih =>
    simp only [List.cons_append, forEachM]
    cases f s a with
    | error e => rfl
    | ok s1 => exact ih s1

theorem World.invoke_clients (w : World) (tags : List Nat) :
    forEachM World.invoke w (tags.map (fun tag => Callback.client tag none)) =
      .ok { w with log := w.log ++ tags.map Obs.called } := by
  induction tags generalizing w with
  | nil => simp [forEachM]
  | cons tag rest ih =>
    simp only [List.map_cons, forEachM, World.invoke]
    rw [ih]
    simp

theorem World.register_clients (w : World) (src : String) (callbacks : List Callback)
    (tags : List Nat) (hr : w.resources src = some ⟨false, callbacks⟩) :
    World.run w (tags.map (fun tag => Event.register src tag none)) =
      .ok { w with resources := Function.update w.resources src (some ⟨false, callbacks ++ tags.map (fun tag => Callback.client tag none)⟩) } := by
  induction tags generalizing w callbacks with
  | nil =>
    simp only [List.map_nil, World.run, forEachM, List.append_nil, Except.ok.injEq]
    rw [← hr, Function.update_eq_self]
  | cons tag rest ih =>
    simp only [List.map_cons]
    rw [World.run_cons]
    simp only [World.step, World.register, ResourcePool.register, hr, Bool.not_false, if_true]
    rw [ih _ (callbacks ++ [Callback.client tag none]) (by simp)]
    simp [Function.update_idem]

theorem forEachM_singleton {σ α : Type} (f : σ → α → Except JSError σ) (s : σ) (a : α) :
    forEachM f s [a] = f s a := by
  simp only [forEachM]
  cases f s a <;> rfl

theorem World.step_imageLoaded (w : World) (src : String) (entry : PoolEntry)
    (hin : src ∈ w.inflight) (hr : w.resources src = some entry) :
    w.step (.imageLoaded src) =
      forEachM World.invoke
        { w with resources := Function.update w.resources src (some ⟨true, []⟩),
                 inflight := w.inflight.erase src } entry.eventList := by
  simp [World.step, hin, ResourcePool.onImageLoad, hr]

theorem World.fanOut_clients (w : World) (src : String) (tag : Nat) (tags : List Nat)
    (hnew : w.resources src = none) (hkey : src ∉ ResourcePool.inheritedKeys)
    (hnot : src ∉ w.inflight) :
    World.run w (fanOutScenario src (tag :: tags)) =
      .ok { w with resources := Function.update w.resources src (some ⟨true, []⟩),
                   log := w.log ++ Obs.fetch src :: (tag :: tags).map Obs.called } := by
  simp only [fanOutScenario, List.map_cons, List.cons_append]
  rw [World.run_cons]
  have hstep : w.step (.register src tag none) =
      .ok { w with resources := Function.update w.resources src (some ⟨false, [Callback.client tag none]⟩),
                   inflight := w.inflight ++ [src], log := w.log ++ [Obs.fetch src] } := by
    simp [World.step, World.register, ResourcePool.register, hnew, hkey]
  rw [hstep]
  simp only [World.run]
  rw [forEachM_append]
  have h1 := World.register_clients
    { w with resources := Function.update w.resources src (some ⟨false, [Callback.client tag none]⟩),
             inflight := w.inflight ++ [src], log := w.log ++ [Obs.fetch src] }
    src [Callback.client tag none] tags (by simp)
  simp only [World.run] at h1
  rw [h1]
  simp only []
  rw [forEachM_singleton]
  rw [World.step_imageLoaded _ src
    ⟨false, [Callback.client tag none] ++ tags.map (fun tag => Callback.client tag none)⟩
    (by simp) (by simp)]
  have h2 := World.invoke_clients
    { w with resources := Function.update w.resources src (some ⟨true, []⟩),
             inflight := (w.inflight ++ [src]).erase src, log := w.log ++ [Obs.fetch src] }
    (tag :: tags)
  have h3 : (w.inflight ++ [src]).erase src = w.inflight := by
    rw [List.erase_append_right _ hnot]
    simp
  simp only [Function.update_idem, List.singleton_append]
  simp only [List.map_cons] at h2
  rw [h2]
  simp [h3]

theorem World.forEachM_invoke_done (src : String) (callbacks : List Callback) (w w' : World)
    (h : w.resources src = some ⟨true, []⟩ ∧ src ∉ w.inflight)
    (hi : forEachM World.invoke w callbacks = .ok w') :
    w'.resources src = some ⟨true, []⟩ ∧ src ∉ w'.inflight := by
  refine forEachM_invariant
    (fun s : World => s.resources src = some ⟨true, []⟩ ∧ src ∉ s.inflight) World.invoke
    (fun s a s' hs hsa => World.invoke_pool
      (fun res infl => res src = some ⟨true, []⟩ ∧ src ∉ infl) ?_ ?_ s s' a hs hsa)
    callbacks w w' h hi
  · intro res infl s2 cb hI hn
    have hne : src ≠ s2 := fun e => by rw [← e, hI.1] at hn; cases hn
    refine ⟨by rw [Function.update_noteq hne]; exact hI.1, ?_⟩
    simp only [List.mem_append, List.mem_singleton, not_or]
    exact ⟨hI.2, hne⟩
  · intro res infl s2 e cb hI hr hd
    have hne : src ≠ s2 := fun e' => by
      rw [← e', hI.1] at hr
      cases hr
      cases hd
    exact ⟨by rw [Function.update_noteq hne]; exact hI.1, hI.2⟩

/-- C13 as amended: registry fan-out. In every page reached by a run, an identifier
`src` whose image is in flight has an entry that is not done, and a further
registration is appended to the end of its pending list. When the image loads, the
entry is first marked done with an empty pending list and then the swapped-out
callbacks are invoked one after the other in list order, up to the first one that
throws; if none throws, afterwards the entry is done with an empty pending list and
the image is no longer in flight. Hence, for an identifier `fresh` not seen before
(and not a name that the table inherits), when clients register the callbacks
`tag :: tags`, none of which throws, in this order and the image loads, one fetch is
started and each callback is invoked exactly once, in registration order. A callback
that registers again for the same identifier during the fan-out is replayed at once
and the callbacks after it are still invoked once each. -/
theorem registry_fan_out (events : List Event) (w : World)
    (hrun : World.run World.init events = .ok w) (src : String) (hin : src ∈ w.inflight)
    (fresh : String) (hnew : w.resources fresh = none)
    (hkey : fresh ∉ ResourcePool.inheritedKeys) (tag : Nat) (tags : List Nat) :
    (∃ entry, w.resources src = some entry ∧ entry.done = false ∧
      (∀ callback, w.register src callback =
        .ok { w with resources := Function.update w.resources src (some ⟨false, entry.eventList ++ [callback]⟩) }) ∧
      w.step (.imageLoaded src) =
        forEachM World.invoke
          { w with resources := Function.update w.resources src (some ⟨true, []⟩),
                   inflight := w.inflight.erase src } entry.eventList) ∧
    (∀ w', w.step (.imageLoaded src) = .ok w' →
      w'.resources src = some ⟨true, []⟩ ∧ src ∉ w'.inflight) ∧
    World.run w (fanOutScenario fresh (tag :: tags)) =
      .ok { w with resources := Function.update w.resources fresh (some ⟨true, []⟩),
                   log := w.log ++ Obs.fetch fresh :: (tag :: tags).map Obs.called } ∧
    (World.run World.init
        [.register "x" 1 (some "x"), .register "x" 2 none, .imageLoaded "x"]).map
      (fun w => (w.log, w.resources "x", w.inflight)) =
      .ok ([.fetch "x", .called 1, .called 1, .called 2], some ⟨true, []⟩, []) := by
  obtain ⟨h1, h2, h3⟩ := World.run_poolOk events w hrun
  obtain ⟨entry, hr, hd⟩ := (h2 src).1 hin
  have hstep := World.step_imageLoaded w src entry hin hr
  refine ⟨⟨entry, hr, hd, fun callback => ?_, hstep⟩, fun w' hw' => ?_, ?_, rfl⟩
  · simp [World.register, ResourcePool.register, hr, hd]
  · rw [hstep] at hw'
    refine World.forEachM_invoke_done src entry.eventList _ w' ⟨by simp, ?_⟩ hw'
    exact fun hm => (h3.mem_erase_iff.1 hm).1 rfl
  · refine World.fanOut_clients w fresh tag tags hnew hkey (fun hm => ?_)
    obtain ⟨e, he, _⟩ := (h2 fresh).1 hm
    rw [hnew] at he
    cases he

/-- Witness of the amended C13: after two clients have registered callbacks 1 and 2 for `x`, the
image of `x` is in flight; `y` has not been seen, and when clients register 5 and
then 6 for `y` and its image loads, the observations are extended by the fetch of
`y`, callback 5 and callback 6. -/
theorem registry_fan_out_witness :
    World.run World.init [.register "x" 1 none, .register "x" 2 none] = .ok fanOutBefore ∧
    "x" ∈ fanOutBefore.inflight ∧
    fanOutBefore.resources "y" = none ∧
    (fanOutBefore.step (.imageLoaded "x")).map (fun w => w.log) =
      .ok [.fetch "x", .called 1, .called 2] ∧
    World.run fanOutBefore (fanOutScenario "y" [5, 6]) =
      .ok { fanOutBefore with
              resources := Function.update fanOutBefore.resources "y" (some ⟨true, []⟩),
              log := fanOutBefore.log ++ Obs.fetch "y" :: [5, 6].map Obs.called } :=
  ⟨rfl, by decide, rfl, rfl,
   (registry_fan_out [.register "x" 1 none, .register "x" 2 none] fanOutBefore rfl "x"
      (by decide) "y" rfl (by decide) 5 [6]).2.2.1⟩

/-! ### The status of a resource (C17) -/

theorem Preloader.StatusStep.rfl_step (fetchable : Nat → Prop) (p : Preloader) :
    Preloader.StatusStep fetchable p p :=
  fun _ r hr => ⟨r, hr, Or.inl rfl⟩

theorem Preloader.StatusStep.comp {fetchable : Nat → Prop} {p1 p2 p3 : Preloader}
    (h12 : Preloader.StatusStep fetchable p1 p2) (h23 : Preloader.StatusStep fetchable p2 p3) :
    Preloader.StatusStep fetchable p1 p3 := by
  intro i r hr
  obtain ⟨r2, hr2, h2⟩ := h12 i r hr
  obtain ⟨r3, hr3, h3⟩ := h23 i r2 hr2
  refine ⟨r3, hr3, ?_⟩
  rcases h3 with h3 | h3 | ⟨h30, h31, _⟩
  · rw [h3]; exact h2
  · exact Or.inr (Or.inl h3)
  · rcases h2 with h2 | h2 | ⟨_, h21, _⟩
    · rw [h2] at h30
      exact Or.inr (Or.inr ⟨h30, h31, by assumption⟩)
    · rw [h2] at h30
      cases h30
    · rw [h21] at h30
      cases h30

theorem Preloader.StatusStep.of_map_eq {fetchable : Nat → Prop} {p p' : Preloader}
    (h : ∀ i : Nat, (p'.__resourceList[i]?).map (·.status) =
      (p.__resourceList[i]?).map (·.status)) :
    Preloader.StatusStep fetchable p p' := by
  intro i r hr
  have hi := h i
  rw [hr] at hi
  cases hr' : p'.__resourceList[i]? with
  | none => rw [hr'] at hi; simp at hi
  | some r' =>
    rw [hr'] at hi
    simp only [Option.map_some', Option.some.injEq] at hi
    exact ⟨r', rfl, Or.inl hi⟩

theorem Resource.bind_iterate_status (loadId n : Nat) (r : Resource) :
    ((Resource.bind loadId)^[n] r).status = r.status := by
  induction n generalizing r with
  | zero => rfl
  | succ k ih =>
    rw [Function.iterate_succ_apply, ih]
    rfl

theorem Preloader.fileResourceProgress_status (p p' : Preloader) (loadId : Nat)
    (h : p.__fileResourceProgress loadId = .ok p') (i : Nat) :
    (p'.__resourceList[i]?).map (·.status) = (p.__resourceList[i]?).map (·.status) := by
  obtain ⟨rl, _, _, _, _, _, hcases⟩ := Preloader.fileResourceProgress_spec p p' loadId h
  rcases hcases with ⟨_, _, hlist, _⟩ | ⟨_, _, hmap, _⟩
  · rw [hlist]
  · rw [hmap i]
    cases p.__resourceList[i]? with
    | none => rfl
    | some r =>
      simp only [Option.map_some', Option.some.injEq]
      split <;> rfl

theorem Preloader.onload_status (p p' : Preloader) (j : Nat) (h : p.onload j = .ok p')
    (i : Nat) :
    (p'.__resourceList[i]?).map (·.status) =
      (p.__resourceList[i]?).map (fun r => if j = i then JSVal.num 2 else r.status) := by
  simp only [Preloader.onload] at h
  have hloop := forEachM_invariant
    (fun q : Preloader => (q.__resourceList[i]?).map (·.status) =
      (p.__resourceList[i]?).map (fun r => if j = i then JSVal.num 2 else r.status))
    Preloader.__fileResourceProgress
    (fun s a s' hs hsa => (Preloader.fileResourceProgress_status s s' a hsa i).trans hs)
    _ _ p' ?_ h
  · exact hloop
  · simp only [Preloader.modify, List.getElem?_modify]
    cases p.__resourceList[i]? with
    | none => rfl
    | some r =>
      by_cases hji : j = i
      · simp [hji]
      · simp [hji]

theorem Preloader.Action.statusStep {allowed : List Resource → Prop} {fetchable : Nat → Prop}
    {p p' : Preloader} (h : Preloader.Action allowed fetchable p p') :
    Preloader.StatusStep fetchable p p' := by
  cases h with
  | add newResources _ =>
    intro i r hr
    refine ⟨r, ?_, Or.inl rfl⟩
    have hlt : i < p.__resourceList.length := by
      by_contra hge
      rw [List.getElem?_eq_none (Nat.le_of_not_lt hge)] at hr
      cases hr
    simp only [List.getElem?_append_left hlt, hr]
  | registered weightOrScene filtered onProgress hf =>
    refine Preloader.StatusStep.of_map_eq (fun i => ?_)
    rw [(Preloader.registered_spec p filtered onProgress).2.2.2.2.2.2 i]
    cases p.__resourceList[i]? with
    | none => rfl
    | some r =>
      simp only [Option.map_some', Option.some.injEq]
      exact Resource.bind_iterate_status _ _ r
  | fetching j resource hres h0 hF =>
    intro i r hr
    simp only [Preloader.modify, List.getElem?_modify, hr, Option.map_some']
    by_cases hji : j = i
    · subst hji
      rw [hres] at hr
      cases hr
      refine ⟨{ resource with status := .num 1 }, by simp, Or.inr (Or.inr ⟨?_, rfl, hF⟩)⟩
      exact (JSVal.strictEq_num_iff _ 0).1 h0
    · exact ⟨r, by simp [hji], Or.inl rfl⟩
  | onload j _ h =>
    intro i r hr
    have hs := Preloader.onload_status p p' j h i
    rw [hr] at hs
    cases hr' : p'.__resourceList[i]? with
    | none => rw [hr'] at hs; simp at hs
    | some r' =>
      rw [hr'] at hs
      simp only [Option.map_some', Option.some.injEq] at hs
      refine ⟨r', rfl, ?_⟩
      by_cases hji : j = i
      · rw [if_pos hji] at hs
        exact Or.inr (Or.inl hs)
      · rw [if_neg hji] at hs
        exact Or.inl hs
  | endPromise loadId _ => exact Preloader.StatusStep.rfl_step fetchable p

theorem Preloader.Reach.statusSteps {allowed : List Resource → Prop} {fetchable : Nat → Prop}
    {p p' : Preloader} (h : Preloader.Reach allowed fetchable p p') :
    Preloader.StatusStep fetchable p p' := by
  induction h with
  | refl => exact Preloader.StatusStep.rfl_step fetchable p
  | tail _ hbc ih => exact ih.comp hbc.statusStep

/-- C17: the status of a resource is monotonic. Whatever the page, one event leaves
every catalog entry in place, and its status is afterwards what it was, or is 2
(done), or has gone from 0 (pending) to 1 (fetching), which happens only when the
event is a `load` of the coordinator whose selection contains the entry; a status
2 (done) stays 2. -/
theorem status_is_monotonic (w w' : World) (event : Event) (hstep : w.step event = .ok w')
    (c i : Nat) (p : Preloader) (r : Resource) (hp : w.loaders[c]? = some p)
    (hr : p.__resourceList[i]? = some r) :
    ∃ p' r', w'.loaders[c]? = some p' ∧ p'.__resourceList[i]? = some r' ∧
      (r'.status = r.status ∨ r'.status = .num 2 ∨
        (r.status = .num 0 ∧ r'.status = .num 1 ∧ event.selects w c i)) ∧
      (r.status = .num 2 → r'.status = .num 2) := by
  have hadds : event.Adds (fun _ => True) := event.adds_true
  have hfetch : event.Fetches (event.selects w) w := by
    cases event with
    | load c0 weightOrScene onProgress =>
      intro p0 filtered hp0 hf0 j hj
      exact ⟨rfl, p0, filtered, hp0, hf0, hj⟩
    | create _ _ => trivial
    | add _ _ _ => trivial
    | register _ _ _ => trivial
    | imageLoaded _ => trivial
    | timeout => trivial
  have key : ∃ p', w'.loaders[c]? = some p' ∧
      Preloader.StatusStep (event.selects w c) p p' := by
    rcases World.step_evolves (fun _ => True) (event.selects w) w w' event hadds hfetch hstep
      with ⟨hev, _⟩ | ⟨items, s, pn, _, _, hl⟩
    · obtain ⟨p', hp', hreach⟩ := hev.2 c p hp
      exact ⟨p', hp', hreach.statusSteps⟩
    · refine ⟨p, ?_, Preloader.StatusStep.rfl_step _ p⟩
      rw [hl]
      have hlt : c < w.loaders.length := by
        by_contra hge
        rw [List.getElem?_eq_none (Nat.le_of_not_lt hge)] at hp
        cases hp
      rw [List.getElem?_append_left hlt]
      exact hp
  obtain ⟨p', hp', hss⟩ := key
  obtain ⟨r', hr', hcases⟩ := hss i r hr
  refine ⟨p', r', hp', hr', hcases, fun h2 => ?_⟩
  rcases hcases with h | h | ⟨h0, _, _⟩
  · rw [h, h2]
  · exact h
  · rw [h2] at h0
    cases h0

/-- Witness of C17: in the page after `new Preloader(['a'])` the entry of `a` is
pending; the event `load(f)` succeeds and the entry is still in place afterwards,
with a status related to the old one as the theorem says. -/
theorem status_is_monotonic_witness :
    World.run World.init [.create (.arr [.str "a"]) .undefined] = .ok statusExampleBefore ∧
    statusExampleBefore.step (.load 0 .undefined true) = .ok addExampleBefore ∧
    (addExampleBefore.loaders.map (fun p => p.__resourceList.map (·.status))) = [[.num 1]] ∧
    ∃ p' r', addExampleBefore.loaders[0]? = some p' ∧ p'.__resourceList[0]? = some r' ∧
      (r'.status = (⟨.str "a", .bool false, .bool false, .num 0, []⟩ : Resource).status ∨
        r'.status = .num 2 ∨
        ((⟨.str "a", .bool false, .bool false, .num 0, []⟩ : Resource).status = .num 0 ∧
          r'.status = .num 1 ∧
          (Event.load 0 .undefined true).selects statusExampleBefore 0 0)) ∧
      ((⟨.str "a", .bool false, .bool false, .num 0, []⟩ : Resource).status = .num 2 →
        r'.status = .num 2) :=
  ⟨rfl, rfl, rfl,
   status_is_monotonic statusExampleBefore addExampleBefore (.load 0 .undefined true) rfl 0 0
     { Preloader.fresh with __resourceList := [⟨.str "a", .bool false, .bool false, .num 0, []⟩] }
     ⟨.str "a", .bool false, .bool false, .num 0, []⟩ rfl rfl⟩

/-! ### Failing inputs: names inherited by the table, own properties of a descriptor -/

/-- C5 fails on the code for an identifier that names a property which the table
`resources = {}` inherits from `Object.prototype`: `register` throws a `TypeError` for
each such name, so in the overlap scenario for `toString` already the first `load()`
raises and no fetch of `toString` is ever started, where the claim says exactly
one. -/
theorem register_inherited_name_raises :
    (∀ src ∈ ResourcePool.inheritedKeys, ∀ callback,
      ResourcePool.register (fun _ => none) src callback = .error .typeError) ∧
    World.init.register "constructor" (.client 1 none) = .error .typeError ∧
    World.run World.init [.create (.arr [.str "toString"]) .undefined,
      .load 0 .undefined false] = .error .typeError ∧
    World.run World.init (overlapScenario "toString") = .error .typeError := by
  refine ⟨?_, rfl, rfl, rfl⟩
  intro src hsrc callback
  simp [ResourcePool.register, hsrc]

/-- Counterexample to C6: in the catalog built from `[{src: 'a', weight: undefined},
{src: 'b', weight: '10'}, {src: 'c', weight: 5}]`, `load(7)` selects `b` alone: the
entry `a`, which has no weight, is not selected (`undefined >= 7` is false), and `b`
is selected although its weight is not a number (`'10' >= 7` converts the string).
The entries with no weight or a number `>= 7` as weight are `a` alone. -/
theorem filterByWeight_coerces_weight :
    Preloader.new coercionExample .undefined = .ok coercionCatalog ∧
    coercionCatalog.filteredResources (.num 7) = .ok [1] ∧
    coercionCatalog.filteredResources .undefined = .ok [0, 1, 2] ∧
    Spec.selected (Spec.weightSelects 7) coercionCatalog.__resourceList = [0] :=
  ⟨rfl, rfl, rfl, rfl⟩

/-- C10 fails on the code: the descriptor `{src: 'a', status: 2}` is accepted and its
entry has status 2 (done), not 0 (pending); a `load()` then starts no fetch of `a`
and the deferred notification resolves the request. -/
theorem add_keeps_own_status :
    (Preloader.new (.arr [.obj [("src", .str "a"), ("status", .num 2)]]) .undefined).map
        (·.__resourceList) =
      .ok [⟨.str "a", .bool false, .bool false, .num 2, []⟩] ∧
    (World.run World.init ownStatusScenario).map World.summary =
      .ok ([([.num 2], [.resolve 1 1])], [], [], []) :=
  ⟨rfl, rfl⟩

/-- Counterexample to C13: clients register callback 1 and then callback 2 for `x`,
and callback 1 throws when it is invoked. When the image of `x` loads, the handler
marks the entry done and swaps the pending list `[1, 2]` out, the fan-out raises at
callback 1, and callback 2 is not invoked; it is in no list any more. -/
theorem fan_out_stops_at_throwing_callback :
    World.run World.init [.register "x" 1 (some "toString"), .register "x" 2 none] =
      .ok throwingBefore ∧
    (throwingBefore.resources "x", throwingBefore.inflight, throwingBefore.log) =
      (some ⟨false, [.client 1 (some "toString"), .client 2 none]⟩, ["x"], [.fetch "x"]) ∧
    (ResourcePool.onImageLoad throwingBefore.resources "x").map
        (fun r => (r.1 "x", r.2)) =
      some (some ⟨true, []⟩, [.client 1 (some "toString"), .client 2 none]) ∧
    throwingBefore.invoke (.client 1 (some "toString")) = .error .typeError ∧
    throwingBefore.step (.imageLoaded "x") = .error .typeError :=
  ⟨rfl, rfl, rfl, rfl, rfl⟩

/-! ### The invariant of a coordinator whose items carry no membership list of their own -/

theorem progressPairs_append (calls more : List Call) (L : Nat) :
    progressPairs (calls ++ more) L = progressPairs calls L ++ progressPairs more L := by
  simp [progressPairs, List.filterMap_append]

theorem resolveValues_append (calls more : List Call) (L : Nat) :
    resolveValues (calls ++ more) L = resolveValues calls L ++ resolveValues more L := by
  simp [resolveValues, List.filterMap_append]

theorem progressPairs_progress (l loaded total L : Nat) :
    progressPairs [Call.progress l loaded total] L =
      if l = L then [(loaded, total)] else [] := by
  by_cases h : l = L <;> simp [progressPairs, List.filterMap_cons, h]

theorem progressPairs_resolve (l loaded L : Nat) :
    progressPairs [Call.resolve l loaded] L = [] := by
  simp [progressPairs, List.filterMap_cons]

theorem resolveValues_progress (l loaded total L : Nat) :
    resolveValues [Call.progress l loaded total] L = [] := by
  simp [resolveValues, List.filterMap_cons]

theorem resolveValues_resolve (l loaded L : Nat) :
    resolveValues [Call.resolve l loaded] L = if l = L then [loaded] else [] := by
  by_cases h : l = L <;> simp [resolveValues, List.filterMap_cons, h]

theorem Preloader.doneCount_le (p : Preloader) (S : List Nat) : p.doneCount S ≤ S.length :=
  List.length_filter_le _ _

theorem Preloader.doneCount_mono (p p' : Preloader) (S : List Nat)
    (h : ∀ i ∈ S, p.isDone i = true → p'.isDone i = true) :
    p.doneCount S ≤ p'.doneCount S := by
  simp only [Preloader.doneCount, ← List.countP_eq_length_filter]
  exact List.countP_mono_left h

theorem Preloader.fresh_inv : Preloader.fresh.Inv := by
  refine ⟨?_, ?_, ?_, ?_, ?_, ?_, ?_, ?_, ?_, ?_⟩ <;>
    simp [Preloader.fresh, progressPairs, resolveValues]

theorem Event.NoOwnLoadEvents.adds {event : Event} (h : event.NoOwnLoadEvents) :
    event.Adds plainResources := by
  cases event with
  | create items sceneOrWeight =>
    intro l newResources hl hf r hr
    obtain ⟨item, hitem, hfi⟩ := Preloader.formatAll_mem sceneOrWeight l newResources hf r hr
    have := (Preloader.formatResource_initial item sceneOrWeight r hfi).2
    rw [h l hl item hitem] at this
    exact this
  | add c items sceneOrWeight =>
    intro l newResources hl hf r hr
    obtain ⟨item, hitem, hfi⟩ := Preloader.formatAll_mem sceneOrWeight l newResources hf r hr
    have := (Preloader.formatResource_initial item sceneOrWeight r hfi).2
    rw [h l hl item hitem] at this
    exact this
  | load _ _ _ => trivial
  | register _ _ _ => trivial
  | imageLoaded _ => trivial
  | timeout => trivial


theorem progressPairs_nil (L : Nat) : progressPairs [] L = [] := rfl

theorem resolveValues_nil (L : Nat) : resolveValues [] L = [] := rfl

theorem Preloader.doneCount_congr (p p' : Preloader) (S : List Nat)
    (h : ∀ i ∈ S, p'.isDone i = p.isDone i) : p'.doneCount S = p.doneCount S := by
  simp only [Preloader.doneCount]
  congr 1
  exact List.filter_congr h

/-- The history of calls after one notification step of an active request `L` that
reports `n` of `t`. -/
theorem calls_extend (calls : List Call) (L n t : Nat) (P R : List Call)
    (hP : P = [] ∨ P = [Call.progress L n t]) (hR : R = [] ∨ R = [Call.resolve L n])
    (hres : resolveValues calls L = [])
    (hact : ∀ x ∈ progressPairs calls L, x.2 = t ∧ x.1 < t ∧ x.1 ≤ n)
    (hsorted : ∀ L', ((progressPairs calls L').map Prod.fst).Pairwise (· ≤ ·))
    (honce : ∀ L', (resolveValues calls L').length ≤ 1)
    (htotal : ∀ L', ∀ x ∈ progressPairs calls L', ∀ y ∈ progressPairs calls L', x.2 = y.2)
    (hlast : ∀ L', ∀ x ∈ (progressPairs calls L').dropLast, x.1 < x.2) :
    (∀ L', L' ≠ L → progressPairs (calls ++ P ++ R) L' = progressPairs calls L' ∧
      resolveValues (calls ++ P ++ R) L' = resolveValues calls L') ∧
    (progressPairs (calls ++ P ++ R) L = progressPairs calls L ∨
      progressPairs (calls ++ P ++ R) L = progressPairs calls L ++ [(n, t)]) ∧
    (R = [] → resolveValues (calls ++ P ++ R) L = []) ∧
    (∀ L', ((progressPairs (calls ++ P ++ R) L').map Prod.fst).Pairwise (· ≤ ·)) ∧
    (∀ L', (resolveValues (calls ++ P ++ R) L').length ≤ 1) ∧
    (∀ L', ∀ x ∈ progressPairs (calls ++ P ++ R) L',
      ∀ y ∈ progressPairs (calls ++ P ++ R) L', x.2 = y.2) ∧
    (∀ L', ∀ x ∈ (progressPairs (calls ++ P ++ R) L').dropLast, x.1 < x.2) := by
  have hPp : ∀ L', progressPairs P L' = [] ∨ (L' = L ∧ progressPairs P L' = [(n, t)]) := by
    intro L'
    rcases hP with rfl | rfl
    · exact Or.inl rfl
    · rw [progressPairs_progress]
      by_cases h : L = L'
      · exact Or.inr ⟨h.symm, by rw [if_pos h]⟩
      · exact Or.inl (by rw [if_neg h])
  have hPr : ∀ L', resolveValues P L' = [] := by
    intro L'
    rcases hP with rfl | rfl
    · rfl
    · exact resolveValues_progress _ _ _ _
  have hRp : ∀ L', progressPairs R L' = [] := by
    intro L'
    rcases hR with rfl | rfl
    · rfl
    · exact progressPairs_resolve _ _ _
  have hRr : ∀ L', resolveValues R L' = [] ∨ (L' = L ∧ resolveValues R L' = [n]) := by
    intro L'
    rcases hR with rfl | rfl
    · exact Or.inl rfl
    · rw [resolveValues_resolve]
      by_cases h : L = L'
      · exact Or.inr ⟨h.symm, by rw [if_pos h]⟩
      · exact Or.inl (by rw [if_neg h])
  have hpp : ∀ L', progressPairs (calls ++ P ++ R) L' =
      progressPairs calls L' ++ progressPairs P L' := by
    intro L'
    rw [progressPairs_append, progressPairs_append, hRp, List.append_nil]
  have hrr : ∀ L', resolveValues (calls ++ P ++ R) L' =
      resolveValues calls L' ++ resolveValues R L' := by
    intro L'
    rw [resolveValues_append, resolveValues_append, hPr, List.append_nil]
  have hframe : ∀ L', L' ≠ L → progressPairs (calls ++ P ++ R) L' = progressPairs calls L' ∧
      resolveValues (calls ++ P ++ R) L' = resolveValues calls L' := by
    intro L' hne
    rw [hpp, hrr]
    rcases hPp L' with h1 | ⟨h1, _⟩
    · rcases hRr L' with h2 | ⟨h2, _⟩
      · rw [h1, h2, List.append_nil, List.append_nil]
        exact ⟨rfl, rfl⟩
      · exact absurd h2 hne
    · exact absurd h1 hne
  have hpairs : progressPairs (calls ++ P ++ R) L = progressPairs calls L ∨
      progressPairs (calls ++ P ++ R) L = progressPairs calls L ++ [(n, t)] := by
    rw [hpp]
    rcases hPp L with h1 | ⟨_, h1⟩
    · exact Or.inl (by rw [h1, List.append_nil])
    · exact Or.inr (by rw [h1])
  have hresolve : resolveValues (calls ++ P ++ R) L = [] ∨
      resolveValues (calls ++ P ++ R) L = [n] := by
    rw [hrr, hres]
    rcases hRr L with h2 | ⟨_, h2⟩
    · exact Or.inl (by rw [h2]; rfl)
    · exact Or.inr (by rw [h2]; rfl)
  refine ⟨hframe, hpairs, ?_, ?_, ?_, ?_, ?_⟩
  · rintro rfl
    rw [hrr, hres]
    rfl
  · intro L'
    by_cases hL : L' = L
    · subst hL
      rcases hpairs with h | h
      · rw [h]
        exact hsorted L'
      · rw [h, List.map_append, List.pairwise_append]
        refine ⟨hsorted L', by simp, ?_⟩
        intro a ha b hb
        simp only [List.map_cons, List.map_nil, List.mem_singleton] at hb
        subst hb
        obtain ⟨x, hx, rfl⟩ := List.mem_map.1 ha
        exact (hact x hx).2.2
    · rw [(hframe L' hL).1]
      exact hsorted L'
  · intro L'
    by_cases hL : L' = L
    · subst hL
      rcases hresolve with h | h <;> rw [h] <;> simp
    · rw [(hframe L' hL).2]
      exact honce L'
  · intro L'
    by_cases hL : L' = L
    · subst hL
      have hall : ∀ x ∈ progressPairs (calls ++ P ++ R) L', x.2 = t := by
        intro x hx
        rcases hpairs with h | h
        · rw [h] at hx
          exact (hact x hx).1
        · rw [h, List.mem_append] at hx
          rcases hx with hx | hx
          · exact (hact x hx).1
          · simp only [List.mem_singleton] at hx
            subst hx
            rfl
      intro x hx y hy
      rw [hall x hx, hall y hy]
    · rw [(hframe L' hL).1]
      exact htotal L'
  · intro L'
    by_cases hL : L' = L
    · subst hL
      rcases hpairs with h | h
      · rw [h]
        exact hlast L'
      · rw [h, List.dropLast_concat]
        intro x hx
        have := hact x hx
        omega
    · rw [(hframe L' hL).1]
      exact hlast L'

/-- One notification step of a request that still has resources recorded keeps the
invariant, and touches the record and the calls of no other request. -/
theorem Preloader.Inv.notifyStep {p p' : Preloader} (hv : p.Inv) (L : Nat)
    (S : List Nat) (hS : p.__loadToResource L = some S) (hne : S ≠ [])
    (h : p.__fileResourceProgress L = .ok p') :
    p'.Inv ∧
    (∀ L', L' ≠ L → p'.__loadToResource L' = p.__loadToResource L' ∧
      progressPairs p'.calls L' = progressPairs p.calls L' ∧
      resolveValues p'.calls L' = resolveValues p.calls L') ∧
    (p'.__loadToResource L = some S ∨ p'.__loadToResource L = some []) ∧
    (∀ x ∈ progressPairs p'.calls L, x.2 = S.length) := by
  obtain ⟨rl, hrl, _, hend, hid, _, hcases⟩ := Preloader.fileResourceProgress_spec p p' L h
  rw [hS] at hrl
  cases hrl
  have hLid : L ≤ p.__loadId := hv.recorded L S hS
  obtain ⟨hres, hact⟩ := hv.active L S hS hne
  have hnle : p.doneCount S ≤ S.length := p.doneCount_le S
  rcases hcases with ⟨hnot, hmapL, hlist, hcalls⟩ | ⟨hdone, hmapL, hlist, hcalls⟩
  · -- the request is not complete
    have hP : (if p.__loadProgress L then [Call.progress L (p.doneCount S) S.length] else []) = [] ∨
        (if p.__loadProgress L then [Call.progress L (p.doneCount S) S.length] else []) =
          [Call.progress L (p.doneCount S) S.length] := by
      split
      · exact Or.inr rfl
      · exact Or.inl rfl
    have hc : p'.calls = p.calls ++
        (if p.__loadProgress L then [Call.progress L (p.doneCount S) S.length] else []) ++ [] := by
      rw [hcalls, List.append_nil]
      rfl
    obtain ⟨hframe, hpairs, hresnil, hsorted, honce, htotal, hlast⟩ :=
      calls_extend p.calls L (p.doneCount S) S.length _ [] hP (Or.inl rfl) hres hact
        hv.sorted hv.once hv.total hv.last
    rw [← hc] at hframe hpairs hresnil hsorted honce htotal hlast
    have hcount : ∀ S', p'.doneCount S' = p.doneCount S' := fun S' =>
      Preloader.doneCount_congr p p' S' (fun i _ => by simp only [Preloader.isDone, hlist])
    have hlt : p.doneCount S < S.length := lt_of_le_of_ne hnle hnot
    have hall : ∀ x ∈ progressPairs p'.calls L,
        x.2 = S.length ∧ x.1 < S.length ∧ x.1 ≤ p.doneCount S := by
      intro x hx
      rcases hpairs with hp | hp
      · rw [hp] at hx
        exact hact x hx
      · rw [hp, List.mem_append] at hx
        rcases hx with hx | hx
        · exact hact x hx
        · simp only [List.mem_singleton] at hx
          subst hx
          exact ⟨rfl, hlt, le_refl _⟩
    refine ⟨⟨?_, ?_, ?_, ?_, ?_, ?_, hsorted, honce, htotal, hlast⟩, ?_, ?_, ?_⟩
    · intro i r hr
      rw [hlist] at hr
      exact hv.nodup i r hr
    · intro i r L' hr hL'
      rw [hlist] at hr
      rw [hmapL]
      exact hv.member i r L' hr hL'
    · intro L' S' hS'
      rw [hmapL] at hS'
      rw [hid]
      exact hv.recorded L' S' hS'
    · intro L' hL'
      rw [hend] at hL'
      rw [hid]
      exact hv.stored L' hL'
    · intro L' hL'
      rw [hid] at hL'
      have hneL : L' ≠ L := by omega
      rw [(hframe L' hneL).1, (hframe L' hneL).2]
      exact hv.allocated L' hL'
    · intro L' S' hS' hne'
      rw [hmapL] at hS'
      by_cases hL : L' = L
      · subst hL
        rw [hS] at hS'
        cases hS'
        refine ⟨hresnil rfl, fun x hx => ?_⟩
        rw [hcount]
        exact hall x hx
      · rw [(hframe L' hL).1, (hframe L' hL).2, hcount]
        exact hv.active L' S' hS' hne'
    · intro L' hL
      rw [hmapL]
      exact ⟨rfl, hframe L' hL⟩
    · left
      rw [hmapL]
      exact hS
    · exact fun x hx => (hall x hx).1
  · -- the request is complete
    have hn : p.doneCount S = S.length := hdone
    have hP : (if p.__loadProgress L then [Call.progress L S.length S.length] else []) = [] ∨
        (if p.__loadProgress L then [Call.progress L S.length S.length] else []) =
          [Call.progress L S.length S.length] := by
      split
      · exact Or.inr rfl
      · exact Or.inl rfl
    have hR : (if p.__loadEndPromise L then [Call.resolve L S.length] else []) = [] ∨
        (if p.__loadEndPromise L then [Call.resolve L S.length] else []) =
          [Call.resolve L S.length] := by
      split
      · exact Or.inr rfl
      · exact Or.inl rfl
    have hact' : ∀ x ∈ progressPairs p.calls L,
        x.2 = S.length ∧ x.1 < S.length ∧ x.1 ≤ S.length := fun x hx =>
      ⟨(hact x hx).1, (hact x hx).2.1, le_of_lt (hact x hx).2.1⟩
    obtain ⟨hframe, hpairs, _, hsorted, honce, htotal, hlast⟩ :=
      calls_extend p.calls L S.length S.length _ _ hP hR hres hact'
        hv.sorted hv.once hv.total hv.last
    rw [← hcalls] at hframe hpairs hsorted honce htotal hlast
    have hentry : ∀ (j : Nat) (r' : Resource), p'.__resourceList[j]? = some r' →
        ∃ r, p.__resourceList[j]? = some r ∧ r' = if j ∈ S then r.unbind L else r := by
      intro j r' hr'
      rw [hlist j] at hr'
      cases hp : p.__resourceList[j]? with
      | none => simp [hp] at hr'
      | some r =>
        simp only [hp, Option.map_some', Option.some.injEq] at hr'
        exact ⟨r, rfl, hr'.symm⟩
    have hisDone : ∀ j, p'.isDone j = p.isDone j := by
      intro j
      simp only [Preloader.isDone, hlist j]
      cases p.__resourceList[j]? with
      | none => rfl
      | some r => by_cases hj : j ∈ S <;> simp [hj, Resource.unbind]
    have hcount : ∀ S', p'.doneCount S' = p.doneCount S' := fun S' =>
      Preloader.doneCount_congr p p' S' (fun i _ => hisDone i)
    have hall : ∀ x ∈ progressPairs p'.calls L, x.2 = S.length := by
      intro x hx
      rcases hpairs with hp | hp
      · rw [hp] at hx
        exact (hact x hx).1
      · rw [hp, List.mem_append] at hx
        rcases hx with hx | hx
        · exact (hact x hx).1
        · simp only [List.mem_singleton] at hx
          subst hx
          rfl
    refine ⟨⟨?_, ?_, ?_, ?_, ?_, ?_, hsorted, honce, htotal, hlast⟩, ?_, ?_, hall⟩
    · intro i r' hr'
      obtain ⟨r, hr, rfl⟩ := hentry i r' hr'
      have := hv.nodup i r hr
      split
      · exact this.filter _
      · exact this
    · intro i r' L' hr' hL'
      obtain ⟨r, hr, rfl⟩ := hentry i r' hr'
      have hmem : L' ∈ r.loadEvents ∧ L' ≠ L := by
        by_cases hi : i ∈ S
        · rw [if_pos hi] at hL'
          simp only [Resource.unbind, List.mem_filter, bne_iff_ne, ne_eq] at hL'
          exact hL'
        · rw [if_neg hi] at hL'
          refine ⟨hL', fun e => ?_⟩
          subst e
          obtain ⟨S', hS', hiS'⟩ := hv.member i r L' hr hL'
          rw [hS] at hS'
          cases hS'
          exact hi hiS'
      obtain ⟨S', hS', hiS'⟩ := hv.member i r L' hr hmem.1
      refine ⟨S', ?_, hiS'⟩
      rw [hmapL, Function.update_noteq hmem.2]
      exact hS'
    · intro L' S' hS'
      rw [hid]
      by_cases hL : L' = L
      · rw [hL]
        exact hLid
      · rw [hmapL, Function.update_noteq hL] at hS'
        exact hv.recorded L' S' hS'
    · intro L' hL'
      rw [hend] at hL'
      rw [hid]
      exact hv.stored L' hL'
    · intro L' hL'
      rw [hid] at hL'
      have hneL : L' ≠ L := by omega
      rw [(hframe L' hneL).1, (hframe L' hneL).2]
      exact hv.allocated L' hL'
    · intro L' S' hS' hne'
      by_cases hL : L' = L
      · subst hL
        rw [hmapL, Function.update_same] at hS'
        cases hS'
        exact absurd rfl hne'
      · rw [hmapL, Function.update_noteq hL] at hS'
        rw [(hframe L' hL).1, (hframe L' hL).2, hcount]
        exact hv.active L' S' hS' hne'
    · intro L' hL
      rw [hmapL, Function.update_noteq hL]
      exact ⟨rfl, hframe L' hL⟩
    · right
      rw [hmapL, Function.update_same]

/-- A change of the catalog that leaves every membership list as it was or empties
it, and that leaves done resources done, keeps the invariant. -/
theorem Preloader.Inv.of_entries {p p' : Preloader} (hv : p.Inv)
    (hmap : p'.__loadToResource = p.__loadToResource)
    (hstored : ∀ L : Nat, p'.__loadEndPromise L = true → L ≤ p.__loadId)
    (hid : p'.__loadId = p.__loadId) (hcalls : p'.calls = p.calls)
    (hentries : ∀ (j : Nat) (r' : Resource), p'.__resourceList[j]? = some r' →
      r'.loadEvents = [] ∨ ∃ r, p.__resourceList[j]? = some r ∧ r'.loadEvents = r.loadEvents)
    (hdone : ∀ j, p.isDone j = true → p'.isDone j = true) : p'.Inv := by
  refine ⟨?_, ?_, ?_, ?_, ?_, ?_, ?_, ?_, ?_, ?_⟩
  · intro i r' hr'
    rcases hentries i r' hr' with h | ⟨r, hr, h⟩
    · rw [h]
      exact List.nodup_nil
    · rw [h]
      exact hv.nodup i r hr
  · intro i r' L hr' hL
    rcases hentries i r' hr' with h | ⟨r, hr, h⟩
    · rw [h] at hL
      cases hL
    · rw [h] at hL
      rw [hmap]
      exact hv.member i r L hr hL
  · intro L S hS
    rw [hmap] at hS
    rw [hid]
    exact hv.recorded L S hS
  · intro L hL
    rw [hid]
    exact hstored L hL
  · intro L hL
    rw [hid] at hL
    rw [hcalls]
    exact hv.allocated L hL
  · intro L S hS hne
    rw [hmap] at hS
    rw [hcalls]
    obtain ⟨h1, h2⟩ := hv.active L S hS hne
    refine ⟨h1, fun x hx => ?_⟩
    obtain ⟨h3, h4, h5⟩ := h2 x hx
    exact ⟨h3, h4, le_trans h5 (Preloader.doneCount_mono p p' S (fun i _ => hdone i))⟩
  · rw [hcalls]
    exact hv.sorted
  · rw [hcalls]
    exact hv.once
  · rw [hcalls]
    exact hv.total
  · rw [hcalls]
    exact hv.last

/-- The notification steps of the requests `ids`, each of which still has resources
recorded, keep the invariant together with any property `R` that a single such step
keeps. -/
theorem Preloader.Inv.notifyAll (R : Preloader → Prop)
    (hR : ∀ (q q' : Preloader) (L : Nat) (S : List Nat), q.Inv → R q →
      q.__loadToResource L = some S → S ≠ [] →
      q.__fileResourceProgress L = .ok q' → R q') :
    ∀ (ids : List Nat) (q q' : Preloader), ids.Nodup → q.Inv → R q →
      (∀ L ∈ ids, ∃ S, q.__loadToResource L = some S ∧ S ≠ []) →
      forEachM Preloader.__fileResourceProgress q ids = .ok q' → q'.Inv ∧ R q' := by
  intro ids
  induction ids with
  | nil =>
    intro q q' _ hv hr _ h
    simp only [forEachM, Except.ok.injEq] at h
    subst h
    exact ⟨hv, hr⟩
  | cons L rest ih =>
    intro q q' hnd hv hr hids h
    simp only [forEachM] at h
    cases hstep : q.__fileResourceProgress L with
    | error e => simp [hstep] at h
    | ok q1 =>
      simp only [hstep] at h
      obtain ⟨S, hS, hne⟩ := hids L (List.mem_cons_self _ _)
      obtain ⟨hv1, hframe, _, _⟩ := hv.notifyStep L S hS hne hstep
      have hnd' := List.nodup_cons.1 hnd
      refine ih q1 q' hnd'.2 hv1 (hR q q1 L S hv hr hS hne hstep) ?_ h
      intro L' hL'
      have hneL : L' ≠ L := fun e => hnd'.1 (e ▸ hL')
      obtain ⟨S', hS', hne'⟩ := hids L' (List.mem_cons_of_mem _ hL')
      exact ⟨S', by rw [(hframe L' hneL).1]; exact hS', hne'⟩

/-- The closure `onload` keeps the invariant, together with any property `R` that
depends on the recorded lists and the calls only and that a notification step of a
request with resources recorded keeps. -/
theorem Preloader.Inv.afterOnload (R : Preloader → Prop)
    (hR0 : ∀ q q' : Preloader, q'.__loadToResource = q.__loadToResource →
      q'.calls = q.calls → R q → R q')
    (hR : ∀ (q q' : Preloader) (L : Nat) (S : List Nat), q.Inv → R q →
      q.__loadToResource L = some S → S ≠ [] →
      q.__fileResourceProgress L = .ok q' → R q')
    {p p' : Preloader} (hv : p.Inv) (hr : R p) (i : Nat) (h : p.onload i = .ok p') :
    p'.Inv ∧ R p' := by
  simp only [Preloader.onload] at h
  have hget : ∀ j : Nat,
      ((p.modify i (fun resource => { resource with status := .num 2 })).modify i
        (fun resource => { resource with loadEvents := [] })).__resourceList[j]? =
      (p.__resourceList[j]?).map
        (fun r => if i = j then { r with status := .num 2, loadEvents := [] } else r) := by
    intro j
    simp only [Preloader.modify, List.getElem?_modify]
    cases p.__resourceList[j]? with
    | none => rfl
    | some r => by_cases hij : i = j <;> simp [hij]
  have hv2 : ((p.modify i (fun resource => { resource with status := .num 2 })).modify i
      (fun resource => { resource with loadEvents := [] })).Inv := by
    refine hv.of_entries rfl (fun L hL => hv.stored L hL) rfl rfl ?_ ?_
    · intro j r' hr'
      rw [hget j] at hr'
      cases hp : p.__resourceList[j]? with
      | none => simp [hp] at hr'
      | some r =>
        simp only [hp, Option.map_some', Option.some.injEq] at hr'
        by_cases hij : i = j
        · rw [if_pos hij] at hr'
          exact Or.inl (by rw [← hr'])
        · rw [if_neg hij] at hr'
          exact Or.inr ⟨r, rfl, by rw [hr']⟩
    · intro j hj
      simp only [Preloader.isDone] at hj ⊢
      rw [hget j]
      cases hp : p.__resourceList[j]? with
      | none => simp [hp] at hj
      | some r =>
        simp only [hp] at hj
        by_cases hij : i = j
        · simp [hij, JSVal.strictEq]
        · simpa [hij] using hj
  have hids : (p.modify i (fun resource => { resource with status := .num 2 })).__resourceList[i]? =
      (p.__resourceList[i]?).map (fun r => { r with status := .num 2 }) := by
    simp only [Preloader.modify, List.getElem?_modify]
    cases p.__resourceList[i]? with
    | none => rfl
    | some r => simp
  rw [hids] at h
  cases hp : p.__resourceList[i]? with
  | none =>
    simp only [hp, Option.map_none', forEachM, Except.ok.injEq] at h
    subst h
    exact ⟨hv2, hR0 p _ rfl rfl hr⟩
  | some r =>
    simp only [hp, Option.map_some'] at h
    refine Preloader.Inv.notifyAll R hR r.loadEvents _ p' (hv.nodup i r hp) hv2
      (hR0 p _ rfl rfl hr) ?_ h
    intro L hL
    obtain ⟨S, hS, hiS⟩ := hv.member i r L hp hL
    exact ⟨S, hS, List.ne_nil_of_mem hiS⟩

/-- Binding a new request to the resources that it selects keeps the invariant. -/
theorem Preloader.Inv.afterRegistered {p : Preloader} (hv : p.Inv) (filtered : List Nat)
    (onProgress : Bool) (hnd : filtered.Nodup) : (p.registered filtered onProgress).Inv := by
  obtain ⟨h1, _, h3, h4, h5, _, h7⟩ := Preloader.registered_spec p filtered onProgress
  have hentry : ∀ (j : Nat) (r' : Resource),
      (p.registered filtered onProgress).__resourceList[j]? = some r' →
      ∃ r, p.__resourceList[j]? = some r ∧ r'.status = r.status ∧
        r'.loadEvents = if j ∈ filtered then r.loadEvents ++ [p.__loadId + 1] else r.loadEvents := by
    intro j r' hr'
    rw [h7 j] at hr'
    cases hp : p.__resourceList[j]? with
    | none => simp [hp] at hr'
    | some r =>
      simp only [hp, Option.map_some', Option.some.injEq] at hr'
      refine ⟨r, rfl, ?_, ?_⟩
      · rw [← hr']
        exact Resource.bind_iterate_status _ _ r
      · rw [← hr']
        by_cases hj : j ∈ filtered
        · rw [if_pos hj, List.count_eq_one_of_mem hnd hj]
          rfl
        · rw [if_neg hj, List.count_eq_zero_of_not_mem hj]
          rfl
  have hnew : ∀ (j : Nat) (r : Resource), p.__resourceList[j]? = some r →
      p.__loadId + 1 ∉ r.loadEvents := by
    intro j r hr hmem
    obtain ⟨S, hS, _⟩ := hv.member j r _ hr hmem
    have := hv.recorded _ S hS
    omega
  have hisDone : ∀ j, (p.registered filtered onProgress).isDone j = p.isDone j := by
    intro j
    simp only [Preloader.isDone]
    rw [h7 j]
    cases p.__resourceList[j]? with
    | none => rfl
    | some r =>
      simp only [Option.map_some']
      rw [Resource.bind_iterate_status]
  have hcount : ∀ S, (p.registered filtered onProgress).doneCount S = p.doneCount S :=
    fun S => Preloader.doneCount_congr _ _ S (fun i _ => hisDone i)
  refine ⟨?_, ?_, ?_, ?_, ?_, ?_, ?_, ?_, ?_, ?_⟩
  · intro i r' hr'
    obtain ⟨r, hr, _, hle⟩ := hentry i r' hr'
    rw [hle]
    split
    · refine List.Nodup.append (hv.nodup i r hr) (List.nodup_singleton _) ?_
      intro a ha ha'
      rw [List.mem_singleton] at ha'
      subst ha'
      exact hnew i r hr ha
    · exact hv.nodup i r hr
  · intro i r' L hr' hL
    obtain ⟨r, hr, _, hle⟩ := hentry i r' hr'
    rw [hle] at hL
    rw [h1]
    by_cases hLn : L = p.__loadId + 1
    · subst hLn
      refine ⟨filtered, by rw [Function.update_same], ?_⟩
      by_contra hi
      rw [if_neg hi] at hL
      exact hnew i r hr hL
    · rw [Function.update_noteq hLn]
      have hL' : L ∈ r.loadEvents := by
        split at hL
        · rw [List.mem_append, List.mem_singleton] at hL
          rcases hL with hL | hL
          · exact hL
          · exact absurd hL hLn
        · exact hL
      exact hv.member i r L hr hL'
  · intro L S hS
    rw [h1] at hS
    rw [h4]
    by_cases hLn : L = p.__loadId + 1
    · omega
    · rw [Function.update_noteq hLn] at hS
      have := hv.recorded L S hS
      omega
  · intro L hL
    rw [h3] at hL
    rw [h4]
    have := hv.stored L hL
    omega
  · intro L hL
    rw [h4] at hL
    rw [h5]
    exact hv.allocated L (by omega)
  · intro L S hS hne
    rw [h1] at hS
    rw [h5, hcount]
    by_cases hLn : L = p.__loadId + 1
    · subst hLn
      obtain ⟨ha, hb⟩ := hv.allocated (p.__loadId + 1) (by omega)
      refine ⟨hb, fun x hx => ?_⟩
      rw [ha] at hx
      cases hx
    · rw [Function.update_noteq hLn] at hS
      exact hv.active L S hS hne
  · rw [h5]
    exact hv.sorted
  · rw [h5]
    exact hv.once
  · rw [h5]
    exact hv.total
  · rw [h5]
    exact hv.last

/-- Every atomic action that appends only resources with an empty membership list
keeps the invariant, together with any property `R` of the recorded lists and the
calls that the registration of a new request and a notification step of a request
with resources recorded keep. -/
theorem Preloader.Inv.afterAction (R : Preloader → Prop)
    (hR0 : ∀ q q' : Preloader, q'.__loadToResource = q.__loadToResource →
      q'.calls = q.calls → R q → R q')
    (hR1 : ∀ (q : Preloader) (filtered : List Nat) (onProgress : Bool), q.Inv → R q →
      R (q.registered filtered onProgress))
    (hR : ∀ (q q' : Preloader) (L : Nat) (S : List Nat), q.Inv → R q →
      q.__loadToResource L = some S → S ≠ [] →
      q.__fileResourceProgress L = .ok q' → R q')
    {fetchable : Nat → Prop} {p p' : Preloader} (hv : p.Inv) (hr : R p)
    (h : Preloader.Action plainResources fetchable p p') : p'.Inv ∧ R p' := by
  cases h with
  | add newResources hplain =>
    refine ⟨hv.of_entries rfl (fun L hL => hv.stored L hL) rfl rfl ?_ ?_, hR0 p _ rfl rfl hr⟩
    · intro j r' hr'
      by_cases hlt : j < p.__resourceList.length
      · rw [List.getElem?_append_left hlt] at hr'
        exact Or.inr ⟨r', hr', rfl⟩
      · rw [List.getElem?_append_right (Nat.le_of_not_lt hlt)] at hr'
        exact Or.inl (hplain r' (List.mem_iff_getElem?.2 ⟨_, hr'⟩))
    · intro j hj
      simp only [Preloader.isDone] at hj ⊢
      cases hp : p.__resourceList[j]? with
      | none => simp [hp] at hj
      | some r =>
        have hlt : j < p.__resourceList.length := by
          by_contra hge
          rw [List.getElem?_eq_none (Nat.le_of_not_lt hge)] at hp
          cases hp
        rw [List.getElem?_append_left hlt, hp]
        simpa [hp] using hj
  | registered weightOrScene filtered onProgress hf =>
    exact ⟨hv.afterRegistered filtered onProgress
      (Preloader.filteredResources_nodup p weightOrScene filtered hf),
      hR1 p filtered onProgress hv hr⟩
  | fetching i resource hres h0 hF =>
    refine ⟨hv.of_entries rfl (fun L hL => hv.stored L hL) rfl rfl ?_ ?_, hR0 p _ rfl rfl hr⟩
    · intro j r' hr'
      simp only [Preloader.modify, List.getElem?_modify] at hr'
      cases hp : p.__resourceList[j]? with
      | none => simp [hp] at hr'
      | some r =>
        simp only [hp, Option.map_eq_map, Option.map_some', Option.some.injEq] at hr'
        refine Or.inr ⟨r, rfl, ?_⟩
        rw [← hr']
        split <;> rfl
    · intro j hj
      simp only [Preloader.isDone] at hj ⊢
      simp only [Preloader.modify, List.getElem?_modify]
      cases hp : p.__resourceList[j]? with
      | none => simp [hp] at hj
      | some r =>
        simp only [hp] at hj
        by_cases hij : i = j
        · subst hij
          rw [hres] at hp
          cases hp
          have h0' := (JSVal.strictEq_num_iff _ 0).1 h0
          rw [h0'] at hj
          simp [JSVal.strictEq] at hj
        · simpa [hij] using hj
  | onload i _ h => exact hv.afterOnload R hR0 hR hr i h
  | endPromise loadId hle =>
    refine ⟨hv.of_entries rfl ?_ rfl rfl (fun j r' hr' => Or.inr ⟨r', hr', rfl⟩)
      (fun j hj => hj), hR0 p _ rfl rfl hr⟩
    intro L hL
    simp only [Preloader.__registerEndPromise] at hL
    by_cases hLl : L = loadId
    · rw [hLl]
      exact hle
    · rw [Function.update_noteq hLl] at hL
      exact hv.stored L hL

theorem World.run_reach (allowed : List Resource → Prop) (events : List Event) :
    ∀ (w0 w : World), (∀ event ∈ events, event.Adds allowed) →
      World.run w0 events = .ok w → ∀ (c : Nat) (p : Preloader), w0.loaders[c]? = some p →
      ∃ p', w.loaders[c]? = some p' ∧ Preloader.Reach allowed (fun _ => True) p p' := by
  induction events with
  | nil =>
    intro w0 w _ hrun c p hp
    simp only [World.run, forEachM, Except.ok.injEq] at hrun
    subst hrun
    exact ⟨p, hp, Relation.ReflTransGen.refl⟩
  | cons event rest ih =>
    intro w0 w hadds hrun c p hp
    rw [World.run_cons] at hrun
    cases hs : w0.step event with
    | error e => simp [hs] at hrun
    | ok w1 =>
      simp only [hs] at hrun
      have hfetch : event.Fetches (fun _ _ => True) w0 := by
        cases event <;> simp [Event.Fetches]
      have h1 : ∃ p1, w1.loaders[c]? = some p1 ∧
          Preloader.Reach allowed (fun _ => True) p p1 := by
        rcases World.step_evolves allowed (fun _ _ => True) w0 w1 event
            (hadds event (List.mem_cons_self _ _)) hfetch hs with
          ⟨hev, _⟩ | ⟨items, s, pn, _, _, hl⟩
        · exact hev.2 c p hp
        · refine ⟨p, ?_, Relation.ReflTransGen.refl⟩
          have hlt : c < w0.loaders.length := by
            by_contra hge
            rw [List.getElem?_eq_none (Nat.le_of_not_lt hge)] at hp
            cases hp
          rw [hl, List.getElem?_append_left hlt]
          exact hp
      obtain ⟨p1, hp1, hr1⟩ := h1
      obtain ⟨p', hp', hr'⟩ := ih w1 w (fun e he => hadds e (List.mem_cons_of_mem _ he)) hrun
        c p1 hp1
      exact ⟨p', hp', Relation.ReflTransGen.trans hr1 hr'⟩

/-- Along a run in which no item carries a `loadEvents` property of its own, every
coordinator satisfies the invariant. -/
theorem World.run_inv (events : List Event) (w : World)
    (hplain : ∀ event ∈ events, event.NoOwnLoadEvents)
    (hrun : World.run World.init events = .ok w) (c : Nat) (p : Preloader)
    (hp : w.loaders[c]? = some p) : p.Inv :=
  World.run_loaders_invariant plainResources Preloader.Inv Preloader.fresh_inv
    (fun q q' hq ha =>
      (Preloader.Inv.afterAction (fun _ => True) (fun _ _ _ _ _ => trivial)
        (fun _ _ _ _ _ => trivial) (fun _ _ _ _ _ _ _ _ _ => trivial) hq trivial ha).1)
    events World.init w (fun e he => (hplain e he).adds)
    (fun c p h => by simp [World.init] at h) hrun c p hp

/-- What holds of C2 on the code: along a run in which no item carries a
`loadEvents` property of its own, the `resolve` function of each request of each
coordinator is invoked at most once. -/
theorem resolve_at_most_once_of_plain_items (events : List Event) (w : World)
    (hplain : ∀ event ∈ events, event.NoOwnLoadEvents)
    (hrun : World.run World.init events = .ok w) (c : Nat) (p : Preloader)
    (hp : w.loaders[c]? = some p) (L : Nat) : (resolveValues p.calls L).length ≤ 1 :=
  (World.run_inv events w hplain hrun c p hp).once L

/-- What holds of C15 on the code: along a run in which no item carries a
`loadEvents` property of its own, the successive reports `(numCompleted, numTotal)`
to the progress function of a request carry the same total, their numbers of
completed resources never decrease, and every report but the last is below the
total. -/
theorem progress_monotonic_of_plain_items (events : List Event) (w : World)
    (hplain : ∀ event ∈ events, event.NoOwnLoadEvents)
    (hrun : World.run World.init events = .ok w) (c : Nat) (p : Preloader)
    (hp : w.loaders[c]? = some p) (L : Nat) :
    (∀ x ∈ progressPairs p.calls L, ∀ y ∈ progressPairs p.calls L, x.2 = y.2) ∧
    ((progressPairs p.calls L).map Prod.fst).Pairwise (· ≤ ·) ∧
    (∀ x ∈ (progressPairs p.calls L).dropLast, x.1 < x.2) :=
  ⟨(World.run_inv events w hplain hrun c p hp).total L,
   (World.run_inv events w hplain hrun c p hp).sorted L,
   (World.run_inv events w hplain hrun c p hp).last L⟩

/-- What holds of C16 on the code: along a run in which no item carries a
`loadEvents` property of its own, a request whose resource list has been emptied
(it has completed) is in the membership list of no resource, and whatever events
follow, it stays so and neither its progress function nor its `resolve` function is
invoked again. -/
theorem completed_request_silent_of_plain_items (before after : List Event) (w1 w2 : World)
    (hplain1 : ∀ event ∈ before, event.NoOwnLoadEvents)
    (hplain2 : ∀ event ∈ after, event.NoOwnLoadEvents)
    (hrun1 : World.run World.init before = .ok w1) (hrun2 : World.run w1 after = .ok w2)
    (c : Nat) (p1 : Preloader) (hp1 : w1.loaders[c]? = some p1) (L : Nat)
    (hL : p1.__loadToResource L = some []) :
    (∀ r ∈ p1.__resourceList, L ∉ r.loadEvents) ∧
    ∃ p2, w2.loaders[c]? = some p2 ∧ p2.__loadToResource L = some [] ∧
      (∀ r ∈ p2.__resourceList, L ∉ r.loadEvents) ∧
      progressPairs p2.calls L = progressPairs p1.calls L ∧
      resolveValues p2.calls L = resolveValues p1.calls L := by
  have hv1 := World.run_inv before w1 hplain1 hrun1 c p1 hp1
  have hnone : ∀ q : Preloader, q.Inv → q.__loadToResource L = some [] →
      ∀ r ∈ q.__resourceList, L ∉ r.loadEvents := by
    intro q hq hqL r hr hmem
    obtain ⟨i, hi⟩ := List.mem_iff_getElem?.1 hr
    obtain ⟨S, hS, hiS⟩ := hq.member i r L hi hmem
    rw [hqL] at hS
    cases hS
    cases hiS
  obtain ⟨p2, hp2, hreach⟩ := World.run_reach plainResources after w1 w2
    (fun e he => (hplain2 e he).adds) hrun2 c p1 hp1
  have hboth : p2.Inv ∧ (p2.__loadToResource L = some [] ∧
      progressPairs p2.calls L = progressPairs p1.calls L ∧
      resolveValues p2.calls L = resolveValues p1.calls L) := by
    refine Preloader.Reach.invariant
      (fun q => q.Inv ∧ (q.__loadToResource L = some [] ∧
        progressPairs q.calls L = progressPairs p1.calls L ∧
        resolveValues q.calls L = resolveValues p1.calls L))
      (fun q q' hq ha => Preloader.Inv.afterAction
        (fun q => q.__loadToResource L = some [] ∧
          progressPairs q.calls L = progressPairs p1.calls L ∧
          resolveValues q.calls L = resolveValues p1.calls L) ?_ ?_ ?_ hq.1 hq.2 ha)
      hreach ⟨hv1, hL, rfl, rfl⟩
    · intro q q' hmap hcalls hq
      rw [hmap, hcalls]
      exact hq
    · intro q filtered onProgress hqv hq
      obtain ⟨h1, _, _, _, h5, _, _⟩ := Preloader.registered_spec q filtered onProgress
      have hle := hqv.recorded L [] hq.1
      rw [h1, h5, Function.update_noteq (by omega)]
      exact hq
    · intro q q' L' S hqv hq hS hne hstep
      have hneL : L ≠ L' := by
        intro e
        rw [← e, hq.1] at hS
        cases hS
        exact hne rfl
      obtain ⟨_, hframe, _, _⟩ := hqv.notifyStep L' S hS hne hstep
      obtain ⟨f1, f2, f3⟩ := hframe L hneL
      rw [f1, f2, f3]
      exact hq
  exact ⟨hnone p1 hv1 hL, p2, hp2, hboth.2.1, hnone p2 hboth.1 hboth.2.1, hboth.2.2.1,
    hboth.2.2.2⟩

/-! ### Numbers as text and text as numbers -/

/-- The rendering of numbers: integers up to `2 ^ 53` are printed exactly, larger ones
with the fewest digits that identify the value, in exponent form from `1e+21` on. -/
theorem JSVal.numberToString_examples :
    JSVal.numberToString 0 = "0" ∧ JSVal.numberToString (-15) = "-15" ∧
    JSVal.numberToString (2 ^ 53) = "9007199254740992" ∧
    JSVal.numberToString (2 ^ 64) = "18446744073709552000" ∧
    JSVal.numberToString (10 ^ 20) = "100000000000000000000" ∧
    JSVal.numberToString (10 ^ 21) = "1e+21" ∧
    JSVal.numberToString (2 ^ 70) = "1.1805916207174113e+21" ∧
    JSVal.numberToString (-(123456789 * 10 ^ 20)) = "-1.23456789e+28" := by
  decide

/-- The conversion of strings: blanks are stripped, the empty string is 0, decimal
literals may carry a sign, a fraction and an exponent, literals with the prefixes
`0x`, `0o` and `0b` carry none, and any other text is `NaN`. -/
theorem JSVal.stringToNumber_examples :
    JSVal.stringToNumber "" = .ok (.finite 0) ∧
    JSVal.stringToNumber " 10\n" = .ok (.finite 10) ∧
    JSVal.stringToNumber "-7" = .ok (.finite (-7)) ∧
    JSVal.stringToNumber "1.5e1" = .ok (.finite 15) ∧
    JSVal.stringToNumber "0x1F" = .ok (.finite 31) ∧
    JSVal.stringToNumber "-0x1F" = .ok .nan ∧
    JSVal.stringToNumber "12px" = .ok .nan ∧
    JSVal.stringToNumber "[object Object]" = .ok .nan ∧
    JSVal.stringToNumber "-Infinity" = .ok (.infinite false) ∧
    JSVal.stringToNumber "9007199254740993" = .ok (.finite 9007199254740992) ∧
    JSVal.stringToNumber "1.5" = .error .unsupported := by
  decide

/-- The registry key of an identifier is its string: the number `1e21` and the string
`'1e+21'` name the same entry, so two resources with these identifiers share one
fetch. -/
theorem propertyKey_of_number :
    World.propertyKey (.num (10 ^ 21)) = .ok "1e+21" ∧
    World.propertyKey (.arr [.num 1, .null, .str "a"]) = .ok "1,,a" ∧
    (World.run World.init
        [.create (.arr [.obj [("src", .num (10 ^ 21))], .str "1e+21"]) .undefined,
         .load 0 .undefined false]).map (fun w => (w.log, w.inflight)) =
      .ok ([.fetch "1e+21"], ["1e+21"]) :=
  ⟨by decide, by decide, rfl⟩
